import Mathlib

/-!
Conway's Game of Life: grid, rule evaluation and generation step.

A shallow embedding of `src/grid.h`, `src/grid.cpp` and the simulation loop of
`src/p3.cpp`.

Modelling conventions
* C++ `int` values are `Int`. The constructors compute the size of the buffer,
  `(width+1)*height`, in `int` and fail (`none`) where that computation, or the
  count of the lines, leaves the range of `int`; the size of a line is converted
  to `int` modulo `2^32`. Every index computed for an in-bounds coordinate of a
  grid is below the size of its buffer, so no other arithmetic of the embedded
  functions leaves the range of `int`.
* `bool *buffer` is a `List Bool`. An access `buffer[index]` outside the buffer
  is undefined behaviour in C++; here it is failure (`none`), so a result
  `some _` says that every access made on the way was inside the buffer.
* C++ `char`s of a pattern line are `Char`s, one per byte.
-/

namespace Life

/-! ## The grid (grid.h, grid.cpp) -/

/-- The data members of `class Grid`. -/
structure Grid where
  height : Int
  width : Int
  buffer : List Bool
deriving DecidableEq, Repr

/-- The read access `buffer[index]`. -/
def Grid.read (g : Grid) (index : Int) : Option Bool :=
  if index < 0 then none else g.buffer[index.toNat]?

/-- The write access `buffer[index] = value`. -/
def Grid.write (g : Grid) (index : Int) (value : Bool) : Option Grid :=
  if index < 0 then none
  else if index.toNat < g.buffer.length then
    some { g with buffer := g.buffer.set index.toNat value }
  else none

/-- `bool Grid::exists(int x, int y)`. -/
def Grid.exists (g : Grid) (x y : Int) : Bool :=
  if x < 0 ∨ x ≥ g.width then false
  else if y < 0 ∨ y ≥ g.height then false
  else true

/-- `bool Grid::get_tile(int x, int y)`. -/
def Grid.get_tile (g : Grid) (x y : Int) : Option Bool :=
  let index := (g.width + 1) * y + x
  g.read index

/-- `void Grid::set_tile(int x, int y, bool value)`. -/
def Grid.set_tile (g : Grid) (x y : Int) (value : Bool) : Option Grid :=
  let index := (g.width + 1) * y + x
  g.write index value

/-- `int Grid::get_width()`. -/
def Grid.get_width (g : Grid) : Int := g.width

/-- `int Grid::get_height()`. -/
def Grid.get_height (g : Grid) : Int := g.height

/-- The body of the inner loop of `Grid::update_tile`, for the offsets `i`, `j`:
the count after the iteration. -/
def Grid.count_step (other : Grid) (x y : Int) (i j : Int) (count : Int) : Option Int :=
  if i == 0 && j == 0 then some count
  else
    let query_x := x + i
    let query_y := y + j
    if !other.exists query_x query_y then some count
    else
      match other.get_tile query_x query_y with
      | none => none
      | some true => some (count + 1)
      | some false => some count

/-- The two nested loops of `Grid::update_tile`, `i` outside and `j` inside, both
running over -1, 0, 1, starting from `count = 0`. -/
def Grid.count_neighbours (other : Grid) (x y : Int) : Option Int :=
  [-1, 0, 1].foldlM
    (fun count i => [-1, 0, 1].foldlM (fun count j => other.count_step x y i j count) count)
    (0 : Int)

/-- The expression `(rule>>((alive*9)+count)) & 1`, converted to `bool`. -/
def end_state (rule : Int) (alive : Bool) (count : Int) : Bool :=
  Int.land (rule >>> (((if alive then 1 else 0) * 9 + count).toNat)) 1 != 0

/-- `void Grid::update_tile(Grid& other, int x, int y, int rule)`, called on `self`:
the grid `self` afterwards. The delay `usleep(100)` has no effect on the data. -/
def Grid.update_tile (self other : Grid) (x y : Int) (rule : Int) : Option Grid :=
  match other.get_tile x y with
  | none => none
  | some alive =>
    match other.count_neighbours x y with
    | none => none
    | some count => self.set_tile x y (end_state rule alive count)

/-! ## Construction (grid.cpp) -/

/-- The values of the loop variable of `for(int i=0; i<n; i++)`, in order. -/
def int_range (n : Int) : List Int :=
  (List.range n.toNat).map (fun (k : Nat) => (k : Int))

/-- The array made by `new bool[n]`: `n` elements that are not initialised; `fresh`
stands for whatever the memory holds. -/
def new_bool (n : Int) (fresh : Nat → Bool) : List Bool :=
  (List.range n.toNat).map fresh

/-- The largest value of an `int`, `2^31 - 1`. -/
def INT_MAX : Int := 2147483647

/-- The conversion of a `size_t` to `int`: the value modulo `2^32`, taken between `-2^31`
and `2^31 - 1`. -/
def to_int (n : Nat) : Int :=
  ((n : Int) + 2147483648) % 4294967296 - 2147483648

/-- The expression `new bool[(width+1)*height]`, its size computed in `int`: `none` when
`width+1` or the product leaves the range of `int`, which is undefined behaviour, and when
the size is negative, for which `new` throws. -/
def new_buffer (width height : Int) (fresh : Nat → Bool) : Option (List Bool) :=
  if width + 1 ≤ INT_MAX ∧ 0 ≤ (width + 1) * height ∧ (width + 1) * height ≤ INT_MAX then
    some (new_bool ((width + 1) * height) fresh)
  else none

/-- The constructor `Grid::Grid(int w, int h)`. The character written at the end of
each row, a line feed, is `true` as a `bool`. The result is `none` when the buffer is not
allocated (see `new_buffer`) or a write leaves it. -/
def Grid.new (w h : Int) (fresh : Nat → Bool) : Option Grid :=
  match new_buffer w h fresh with
  | none => none
  | some buffer =>
    let g0 : Grid := { height := h, width := w, buffer := buffer }
    match (int_range g0.height).foldlM
        (fun g i => (int_range g.width).foldlM (fun g j => g.set_tile j i false) g) g0 with
    | none => none
    | some g1 =>
      (int_range g1.height).foldlM (fun g i => g.write ((g.width + 1) * i + g.width) true) g1

/-- A line of the pattern file as `std::getline` returns it: the `char`s of the line
without the line feed. -/
abbrev Line := List Char

/-- The first loop of `Grid::Grid(std::string)` over the lines of the file: the pair
`(width, height)` after it. The sizes of the lines are converted to `int`; `none` when
`height++` leaves the range of `int`, which is undefined behaviour. -/
def measure_lines (lines : List Line) : Option (Int × Int) :=
  lines.foldlM
    (fun wh line =>
      let line_size : Int := to_int line.length
      let width : Int := if wh.1 > line_size then wh.1 else to_int line.length
      if wh.2 + 1 ≤ INT_MAX then some (width, wh.2 + 1) else none)
    ((0 : Int), (0 : Int))

/-- The body of the second loop of `Grid::Grid(std::string)` for one line, at row `y`.
The read `line[x]` happens only under `x<line_size`, so the default of `getD` is
never taken. -/
def Grid.init_row (g : Grid) (line : Line) (y : Int) : Option Grid :=
  match (int_range g.width).foldlM
      (fun g x =>
        let line_size : Int := to_int line.length
        let val : Bool := if x < line_size then line.getD x.toNat ' ' != ' ' else false
        g.set_tile x y val) g with
  | none => none
  | some g1 => g1.write ((g1.width + 1) * y + g1.width) true

/-- One iteration of the second loop of `Grid::Grid(std::string)`: the grid and the row
counter `y` after the line `line` has been stored. -/
def Grid.from_lines_step (gy : Grid × Int) (line : Line) : Option (Grid × Int) :=
  match gy.1.init_row line gy.2 with
  | none => none
  | some g => some (g, gy.2 + 1)

/-- The constructor `Grid::Grid(std::string file_path)`, given the lines that the file
at `file_path` holds (both passes over the file read the same lines). The result is
`none` when the count of the lines or the size of the buffer leaves the range of `int`
(see `measure_lines` and `new_buffer`) or a write leaves the buffer. -/
def Grid.from_lines (lines : List Line) (fresh : Nat → Bool) : Option Grid :=
  match measure_lines lines with
  | none => none
  | some wh =>
    match new_buffer wh.1 wh.2 fresh with
    | none => none
    | some buffer =>
      let g0 : Grid := { height := wh.2, width := wh.1, buffer := buffer }
      (lines.foldlM Grid.from_lines_step (g0, (0 : Int))).map Prod.fst

/-! ## The simulation loop (p3.cpp) -/

/-- The two `Grid` objects that `main` allocates; a `Grid*` of the program points to
one of them. -/
inductive GridPtr where
  | grid_a
  | grid_b
deriving DecidableEq, Repr

/-- The fields of `struct ProgramState` that the simulation reads or writes, with the
two grid objects the pointers `prev` and `next` refer to. -/
structure ProgramState where
  rule : Int
  frame_rate : Int
  sim_rate : Int
  prev : GridPtr
  next : GridPtr
  running : Bool
  paused : Bool
  grid_a : Grid
  grid_b : Grid
deriving DecidableEq, Repr

/-- The object a grid pointer points to. -/
def ProgramState.deref (s : ProgramState) : GridPtr → Grid
  | .grid_a => s.grid_a
  | .grid_b => s.grid_b

/-- The state after the object a grid pointer points to has become `g`. -/
def ProgramState.store (s : ProgramState) (p : GridPtr) (g : Grid) : ProgramState :=
  match p with
  | .grid_a => { s with grid_a := g }
  | .grid_b => { s with grid_b := g }

/-- The call `state->next->update_tile(*state->prev, x, y, state->rule)`. -/
def ProgramState.update_cell (s : ProgramState) (x y : Int) : Option ProgramState :=
  match (s.deref s.next).update_tile (s.deref s.prev) x y s.rule with
  | none => none
  | some g => some (s.store s.next g)

/-- The cell updates of a list of coordinates, one call after the other. -/
def ProgramState.run_cells (s : ProgramState) (cells : List (Int × Int)) : Option ProgramState :=
  cells.foldlM (fun s c => s.update_cell c.1 c.2) s

/-- The body of the thread of row `y`: `for (x = 0; x < x_limit; x++)`. -/
def ProgramState.row_task (s : ProgramState) (x_limit : Int) (y : Int) : Option ProgramState :=
  (int_range x_limit).foldlM (fun s x => s.update_cell x y) s

/-- The row tasks of a list of rows, one after the other. -/
def ProgramState.run_rows (s : ProgramState) (x_limit : Int) (rows : List Int) :
    Option ProgramState :=
  rows.foldlM (fun s y => s.row_task x_limit y) s

/-- The statement `std::swap(state->prev, state->next)`. -/
def ProgramState.swap (s : ProgramState) : ProgramState :=
  { s with prev := s.next, next := s.prev }

/-- One iteration of the loop of `update` when `paused` is false, up to the swap: the
row threads of rows `0 .. y_limit-1` run to completion in the order they are spawned,
then the pointers are swapped. The sleep that ends the iteration touches no grid and is
left out. -/
def ProgramState.update_iteration (s : ProgramState) : Option ProgramState :=
  let x_limit := (s.deref s.prev).get_width
  let y_limit := (s.deref s.prev).get_height
  match s.run_rows x_limit (int_range y_limit) with
  | none => none
  | some s1 => some s1.swap

/-! ## Vocabulary of the specification -/

/-- A grid as the constructors leave it: the buffer holds `width+1` elements for each
of the `height` rows. -/
def Grid.WF (g : Grid) : Prop :=
  0 ≤ g.width ∧ 0 ≤ g.height ∧ (g.buffer.length : Int) = (g.width + 1) * g.height

instance Grid.decidableWF (g : Grid) : Decidable g.WF := by
  unfold Grid.WF; infer_instance

/-- The coordinate `(x, y)` lies inside the grid: `0 ≤ x < width` and `0 ≤ y < height`. -/
def Grid.in_bounds (g : Grid) (x y : Int) : Prop :=
  0 ≤ x ∧ x < g.width ∧ 0 ≤ y ∧ y < g.height

instance Grid.decidableInBounds (g : Grid) (x y : Int) : Decidable (g.in_bounds x y) := by
  unfold Grid.in_bounds; infer_instance

/-- The cell at `(x, y)` is alive. -/
def Grid.alive (g : Grid) (x y : Int) : Bool :=
  g.get_tile x y == some true

/-- The offsets `(i, j)` of the 8 Moore neighbours: `i, j ∈ {-1, 0, 1}`, not both 0. -/
def moore : List (Int × Int) :=
  [(-1, -1), (-1, 0), (-1, 1), (0, -1), (0, 1), (1, -1), (1, 0), (1, 1)]

/-- The number of live cells among the Moore neighbours of `(x, y)` that lie inside
the grid. -/
def Grid.live_neighbours (g : Grid) (x y : Int) : Nat :=
  moore.countP (fun d => decide (g.in_bounds (x + d.1) (y + d.2)) && g.alive (x + d.1) (y + d.2))

/-- The buffer indices of `other` that `Grid::update_tile` reads through `get_tile`, in the
order of the reads: the cell itself, then each neighbour that passes the `exists` guard. -/
def Grid.update_tile_reads (other : Grid) (x y : Int) : List Int :=
  ((other.width + 1) * y + x) ::
    [-1, 0, 1].flatMap (fun i => [-1, 0, 1].flatMap (fun j =>
      if i == 0 && j == 0 then []
      else if !other.exists (x + i) (y + j) then []
      else [(other.width + 1) * (y + j) + (x + i)]))

/-- The buffer index of `self` that `Grid::update_tile` writes through `set_tile`. -/
def Grid.update_tile_write (self : Grid) (x y : Int) : Int :=
  (self.width + 1) * y + x

/-- The maximum of the lengths of the lines, 0 when there is no line. -/
def max_line_length (lines : List Line) : Nat :=
  (lines.map List.length).foldr max 0

/-- The value the rule lookup of `update_tile` yields at `(x, y)` of the source grid `g`
under the rule `rule`. -/
def Grid.rule_result (g : Grid) (rule : Int) (x y : Int) : Bool :=
  end_state rule (g.alive x y) (g.live_neighbours x y)

/-- The initialiser of `state` in `main`, for the two grids `main` has allocated. -/
def ProgramState.init (grid_a grid_b : Grid) : ProgramState :=
  { rule := 6152
    frame_rate := 1
    sim_rate := 1
    prev := .grid_a
    next := .grid_b
    running := true
    paused := false
    grid_a := grid_a
    grid_b := grid_b }

/-- The state the simulation loop works on: `prev` and `next` point to different grids,
both as the constructors leave them and of the same dimensions (`main` builds the second
grid with the width and height of the first). -/
def ProgramState.WF (s : ProgramState) : Prop :=
  s.prev ≠ s.next ∧ (s.deref s.prev).WF ∧ (s.deref s.next).WF ∧
    (s.deref s.next).width = (s.deref s.prev).width ∧
    (s.deref s.next).height = (s.deref s.prev).height

instance ProgramState.decidableWF (s : ProgramState) : Decidable s.WF := by
  unfold ProgramState.WF; infer_instance

/-- The coordinates the row tasks of the rows `rows` update, in the order of the calls:
row after row, and `x = 0 .. x_limit-1` inside a row. -/
def cells_of_rows (x_limit : Int) (rows : List Int) : List (Int × Int) :=
  rows.flatMap (fun y => (int_range x_limit).map (fun x => (x, y)))

/-- The grid `g'` is `g` after writes at the buffer indices in `S`, where the write at
index `j` stores `f j`: the dimensions and the size of the buffer are those of `g`, and
the buffer differs from that of `g` at the indices in `S` only. -/
def Grid.Writes (g g' : Grid) (f : Int → Bool) (S : List Int) : Prop :=
  g'.width = g.width ∧ g'.height = g.height ∧ g'.buffer.length = g.buffer.length ∧
    ∀ j, g'.read j = if j ∈ S then some (f j) else g.read j

/-! ## Fixtures -/

/-- A 5x5 grid whose live cells are the horizontal blinker (1,2), (2,2), (3,2). -/
def horizontal_blinker : Grid :=
  { height := 5
    width := 5
    buffer :=
      [false, false, false, false, false, true,
       false, false, false, false, false, true,
       false, true, true, true, false, true,
       false, false, false, false, false, true,
       false, false, false, false, false, true] }

/-- A 5x5 grid whose live cells are the vertical blinker (2,1), (2,2), (2,3). -/
def vertical_blinker : Grid :=
  { height := 5
    width := 5
    buffer :=
      [false, false, false, false, false, true,
       false, false, true, false, false, true,
       false, false, true, false, false, true,
       false, false, true, false, false, true,
       false, false, false, false, false, true] }

/-- The 5x5 grid with every cell dead. -/
def dead_grid : Grid :=
  { height := 5
    width := 5
    buffer :=
      [false, false, false, false, false, true,
       false, false, false, false, false, true,
       false, false, false, false, false, true,
       false, false, false, false, false, true,
       false, false, false, false, false, true] }

/-- A 2x2 grid with the cells (0,0), (0,1) and (1,1) alive. -/
def small_grid : Grid :=
  { height := 2
    width := 2
    buffer := [true, false, true, true, true, true] }

/-- A 2x2 grid to compute into; its cells hold values left over from an earlier use. -/
def small_scratch : Grid :=
  { height := 2
    width := 2
    buffer := [false, true, true, true, false, true] }

/-- The lines of a pattern file that holds the horizontal blinker. -/
def horizontal_blinker_lines : List Line :=
  [[' ', ' ', ' ', ' ', ' '],
   [' ', ' ', ' ', ' ', ' '],
   [' ', '#', '#', '#', ' '],
   [' ', ' ', ' ', ' ', ' '],
   [' ', ' ', ' ', ' ', ' ']]

/-- The lines of a pattern file that holds the vertical blinker; the lines after the
first are shorter than it, the last one is empty. -/
def vertical_blinker_lines : List Line :=
  [[' ', ' ', ' ', ' ', ' '],
   [' ', ' ', '#'],
   [' ', ' ', '#'],
   [' ', ' ', '#'],
   []]

/-- A 2x2 grid whose only live cell is the corner (0,0). -/
def lone_corner : Grid :=
  { height := 2
    width := 2
    buffer := [true, false, true, false, false, true] }

/-! ## The render surface (tui.h, tui.cpp)

`size_t` values are `Nat`: the dimensions of a canvas are bounded by the size of its
buffers, `height*width` tiles, so the index arithmetic of the embedded functions stays
below the range of `size_t`. The loops of the display functions count with `int`; their
counters are `Nat` here, the difference `y - last_y` is an `Int`. A `std::string` is the
list of its `char`s. The terminal output is kept as the list of the pieces the functions
append to `output`, one `Out` for each escape sequence or text; `Out.bytes` gives the
`char`s of a piece. -/

/-- The components of `struct RGB`, values between 0 and 255. -/
structure RGB where
  red : Nat
  green : Nat
  blue : Nat
deriving DecidableEq, Repr

/-- `bool RGB::operator==(RGB const& other)`. -/
def RGB.eq (self other : RGB) : Bool :=
  (other.red == self.red) && (other.green == self.green) && (other.blue == self.blue)

/-- `bool RGB::operator!=(RGB const& other)`. -/
def RGB.ne (self other : RGB) : Bool :=
  !(self.eq other)

/-- The members of `struct Tile`. -/
structure Tile where
  symbol : List Char
  fore_color : RGB
  back_color : RGB
deriving DecidableEq, Repr

/-- The constructor `Tile::Tile()`: a blank, black on black. -/
def Tile.blank : Tile :=
  { symbol := [' '], fore_color := ⟨0, 0, 0⟩, back_color := ⟨0, 0, 0⟩ }

/-- The constructor `Tile::Tile(RGB color)`: a blank on the given background. -/
def Tile.of_color (color : RGB) : Tile :=
  { symbol := [' '], fore_color := ⟨0, 0, 0⟩, back_color := color }

/-- A piece of terminal output: one escape sequence, a text, or the line end. -/
inductive Out where
  | save
  | restore
  | down (n : Nat)
  | up (n : Nat)
  | column (n : Nat)
  | fore (c : RGB)
  | back (c : RGB)
  | reset
  | text (s : List Char)
  | crlf
deriving DecidableEq, Repr

/-- The escape character, `\033`. -/
def ESC : Char := Char.ofNat 27

/-- The decimal digits of a number, as `std::to_string` and `operator<<` print it. -/
def decimal (n : Nat) : List Char := Nat.toDigits 10 n

/-- The `char`s of a piece of output, as the source spells them. -/
def Out.bytes : Out → List Char
  | .save => [ESC, '[', 's']
  | .restore => [ESC, '[', 'u']
  | .down n => [ESC, '['] ++ decimal n ++ ['B']
  | .up n => [ESC, '['] ++ decimal n ++ ['A']
  | .column n => [ESC, '['] ++ decimal n ++ ['G']
  | .fore c =>
    [ESC, '[', '3', '8', ';', '2', ';'] ++ decimal c.red ++ [';'] ++ decimal c.green ++ [';']
      ++ decimal c.blue ++ ['m']
  | .back c =>
    [ESC, '[', '4', '8', ';', '2', ';'] ++ decimal c.red ++ [';'] ++ decimal c.green ++ [';']
      ++ decimal c.blue ++ ['m']
  | .reset => [ESC, '[', '3', '9', 'm', ESC, '[', '4', '9', 'm']
  | .text s => s
  | .crlf => ['\r', '\n']

/-- The string a list of pieces amounts to: what is written to `std::cout`. -/
def output_bytes (output : List Out) : List Char :=
  output.flatMap Out.bytes

/-- The conversion `Tile::operator std::string()`: the colour escapes, the one of the
foreground only when the symbol is not a blank, then the symbol. -/
def Tile.to_string (t : Tile) : List Out :=
  (if t.symbol ≠ [' '] then [Out.fore t.fore_color] else []) ++
    [Out.back t.back_color] ++ [Out.text t.symbol]

/-- `std::string Tile::raw_symbol()`. -/
def Tile.raw_symbol (t : Tile) : List Out :=
  [Out.text t.symbol]

/-- The data members of `class Canvas`. -/
structure Canvas where
  width : Nat
  height : Nat
  offset_x : Nat
  offset_y : Nat
  prev_buffer : List Tile
  tile_buffer : List Tile
  should_full_display : Bool
deriving DecidableEq, Repr

/-- How a call on a canvas can fail: the `std::runtime_error` that `operator()` throws,
with the numbers its message holds, or an access outside a tile buffer, which is
undefined behaviour. -/
inductive Fault where
  | out_of_bounds (width height x y : Nat)
  | out_of_buffer
deriving DecidableEq, Repr

/-- The read access `buffer[index]` of a tile buffer. -/
def tile_read (buffer : List Tile) (index : Nat) : Except Fault Tile :=
  match buffer[index]? with
  | some t => .ok t
  | none => .error .out_of_buffer

/-- The write access `buffer[index] = t` of a tile buffer. -/
def tile_write (buffer : List Tile) (index : Nat) (t : Tile) : Except Fault (List Tile) :=
  if index < buffer.length then .ok (buffer.set index t) else .error .out_of_buffer

/-- The constructor `Canvas::Canvas(size_t width, size_t height, size_t x, size_t y)`. -/
def Canvas.new (width height x y : Nat) : Canvas :=
  { width := width
    height := height
    offset_x := x
    offset_y := y
    prev_buffer := List.replicate (height * width) Tile.blank
    tile_buffer := List.replicate (height * width) Tile.blank
    should_full_display := true }

/-- The check and the index of `Tile& Canvas::operator()(size_t x, size_t y)`: the index
into `tile_buffer` of the tile the returned reference denotes. The tests `x<0` and `y<0`
of the source are never true for a `size_t`. -/
def Canvas.cell (c : Canvas) (x y : Nat) : Except Fault Nat :=
  if x ≥ c.width ∨ y ≥ c.height then .error (.out_of_bounds c.width c.height x y)
  else .ok (y * c.width + x)

/-- A read through the reference `(*this)(x, y)`. -/
def Canvas.get (c : Canvas) (x y : Nat) : Except Fault Tile :=
  match c.cell x y with
  | .error e => .error e
  | .ok index => tile_read c.tile_buffer index

/-- The assignment `canvas(x, y) = t` through the reference. -/
def Canvas.assign (c : Canvas) (x y : Nat) (t : Tile) : Except Fault Canvas :=
  match c.cell x y with
  | .error e => .error e
  | .ok index =>
    match tile_write c.tile_buffer index t with
    | .error e => .error e
    | .ok buffer => .ok { c with tile_buffer := buffer }

/-- The body of the inner loop of `Canvas::resize` for `(x, y)`: the two new buffers
after the two assignments. The right side of each assignment is evaluated first. -/
def Canvas.resize_cell (c : Canvas) (width : Nat) (y x : Nat)
    (buffers : List Tile × List Tile) : Except Fault (List Tile × List Tile) :=
  match c.get x y with
  | .error e => .error e
  | .ok t1 =>
    match tile_write buffers.1 (y * width + x) t1 with
    | .error e => .error e
    | .ok new_tile_buffer =>
      match c.get x y with
      | .error e => .error e
      | .ok t2 =>
        match tile_write buffers.2 (y * width + x) t2 with
        | .error e => .error e
        | .ok new_prev_buffer => .ok (new_tile_buffer, new_prev_buffer)

/-- `void Canvas::resize(size_t width, size_t height)`. Both limits of the copy are
`std::min(this->width,width)`, as the source has them. -/
def Canvas.resize (c : Canvas) (width height : Nat) : Except Fault Canvas :=
  let new_tile_buffer := List.replicate (height * width) Tile.blank
  let new_prev_buffer := List.replicate (height * width) Tile.blank
  let x_limit := min c.width width
  let y_limit := min c.width width
  match (List.range y_limit).foldlM
      (fun buffers y => (List.range x_limit).foldlM
        (fun buffers x => c.resize_cell width y x buffers) buffers)
      (new_tile_buffer, new_prev_buffer) with
  | .error e => .error e
  | .ok buffers =>
    .ok { c with
      tile_buffer := buffers.1
      prev_buffer := buffers.2
      width := width
      height := height
      should_full_display := true }

/-- The output of one row of `Canvas::hide`: the move to the first column of the canvas,
`width` blanks, and the line end. -/
def Canvas.hide_row (c : Canvas) : List Out :=
  [Out.column (c.offset_x + 1)] ++ List.replicate c.width (Out.text [' ']) ++ [Out.crlf]

/-- `void Canvas::hide()`: the canvas afterwards and what is written to `std::cout`. -/
def Canvas.hide (c : Canvas) : Canvas × List Out :=
  let output := [Out.save]
  let output := if c.offset_y ≠ 0 then output ++ [Out.down c.offset_y] else output
  let output := output ++ [Out.reset]
  let output := (List.range c.height).foldl (fun output _ => output ++ c.hide_row) output
  let output := output ++ [Out.restore]
  ({ c with should_full_display := true }, output)

/-- The values of the loop variable of `for (int x=n-1; x>=0; x--)`, in order. -/
def down_range (n : Nat) : List Nat :=
  (List.range n).reverse

/-- The variables of `Canvas::full_display` that change in its loops: the locals `output`,
`last_tile` (the tile it points to, if it is not null) and `mismatch`, and the buffer
`prev_buffer`. -/
structure FullState where
  output : List Out
  last_tile : Option Tile
  mismatch : Bool
  prev_buffer : List Tile
deriving DecidableEq, Repr

/-- The body of the inner loop of `Canvas::full_display` for `(x, y)`. -/
def Canvas.full_cell (c : Canvas) (y x : Nat) (st : FullState) : Except Fault FullState :=
  let index := y * c.width + x
  let output := st.output ++ [Out.column (c.offset_x + x + 1)]
  match tile_read c.tile_buffer index with
  | .error e => .error e
  | .ok current_tile =>
    let mismatch :=
      match st.last_tile with
      | some last =>
        (st.mismatch || last.fore_color.ne current_tile.fore_color)
          || last.back_color.ne current_tile.back_color
      | none => st.mismatch
    let output :=
      if mismatch then output ++ current_tile.to_string else output ++ current_tile.raw_symbol
    match tile_write st.prev_buffer index current_tile with
    | .error e => .error e
    | .ok prev_buffer =>
      .ok { output := output, last_tile := some current_tile, mismatch := false,
            prev_buffer := prev_buffer }

/-- The body of the outer loop of `Canvas::full_display` for the row `y`. -/
def Canvas.full_row (c : Canvas) (y : Nat) (st : FullState) : Except Fault FullState :=
  match (down_range c.width).foldlM (fun st x => c.full_cell y x st)
      { st with mismatch := true } with
  | .error e => .error e
  | .ok st => .ok { st with output := st.output ++ [Out.reset] ++ [Out.crlf] }

/-- `void Canvas::full_display()`: the canvas afterwards and what is written to
`std::cout`. The local `mismatch` has no value before the first row sets it. -/
def Canvas.full_display (c : Canvas) : Except Fault (Canvas × List Out) :=
  let output := [Out.save]
  let output := if c.offset_y ≠ 0 then output ++ [Out.down c.offset_y] else output
  match (List.range c.height).foldlM (fun st y => c.full_row y st)
      { output := output, last_tile := none, mismatch := true,
        prev_buffer := c.prev_buffer } with
  | .error e => .error e
  | .ok st =>
    .ok ({ c with prev_buffer := st.prev_buffer, should_full_display := false },
      st.output ++ [Out.restore])

/-- The variables of `Canvas::lazy_display` that change in its loops: the locals `output`,
`last_tile` (the tile it points to, if it is not null), `last_y`, `last_x` and `first`,
and the buffer `prev_buffer`. -/
structure LazyState where
  output : List Out
  last_tile : Option Tile
  last_y : Int
  last_x : Int
  first : Bool
  prev_buffer : List Tile
deriving DecidableEq, Repr

/-- The test of `Canvas::lazy_display` whether a tile has to be displayed again. -/
def touched (prev_state next_state : Tile) : Bool :=
  (prev_state.fore_color.ne next_state.fore_color
    || prev_state.back_color.ne next_state.back_color)
    || (prev_state.symbol != next_state.symbol)

/-- The branch `if (touched)` of `Canvas::lazy_display` for `(x, y)`, given the tile
`next_state`. -/
def Canvas.lazy_emit (c : Canvas) (y x : Nat) (next_state : Tile) (st : LazyState) :
    Except Fault LazyState :=
  let output := st.output ++ [Out.column (c.offset_x + x + 1)]
  let output :=
    if (y : Int) ≠ st.last_y then
      let delta : Int := (y : Int) - st.last_y
      output ++ [if delta > 0 then Out.down delta.natAbs else Out.up delta.natAbs]
    else output
  let mismatch := st.first
  let mismatch :=
    match st.last_tile with
    | some last =>
      (mismatch || last.fore_color.ne next_state.fore_color)
        || last.back_color.ne next_state.back_color
    | none => mismatch
  match tile_write st.prev_buffer (y * c.width + x) next_state with
  | .error e => .error e
  | .ok prev_buffer =>
    let output :=
      if mismatch then output ++ next_state.to_string else output ++ next_state.raw_symbol
    .ok { output := output, last_tile := some next_state, last_y := y, last_x := x,
          first := false, prev_buffer := prev_buffer }

/-- The body of the inner loop of `Canvas::lazy_display` for `(x, y)`. -/
def Canvas.lazy_cell (c : Canvas) (y x : Nat) (st : LazyState) : Except Fault LazyState :=
  match tile_read st.prev_buffer (y * c.width + x) with
  | .error e => .error e
  | .ok prev_state =>
    match tile_read c.tile_buffer (y * c.width + x) with
    | .error e => .error e
    | .ok next_state =>
      if touched prev_state next_state then c.lazy_emit y x next_state st else .ok st

/-- `void Canvas::lazy_display()`: the canvas afterwards and what is written to
`std::cout`. -/
def Canvas.lazy_display (c : Canvas) : Except Fault (Canvas × List Out) :=
  let output := [Out.save]
  let output := if c.offset_y ≠ 0 then output ++ [Out.down c.offset_y] else output
  match (List.range c.height).foldlM
      (fun st y => (down_range c.width).foldlM (fun st x => c.lazy_cell y x st) st)
      { output := output, last_tile := none, last_y := 0, last_x := -1, first := true,
        prev_buffer := c.prev_buffer } with
  | .error e => .error e
  | .ok st =>
    .ok ({ c with prev_buffer := st.prev_buffer },
      st.output ++ [Out.restore] ++ [Out.reset])

/-- `void Canvas::display()`. -/
def Canvas.display (c : Canvas) : Except Fault (Canvas × List Out) :=
  if c.should_full_display then c.full_display else c.lazy_display

/-- `void Canvas::reposition(size_t x, size_t y)`: the canvas afterwards and what is
written to `std::cout`. -/
def Canvas.reposition (c : Canvas) (x y : Nat) : Except Fault (Canvas × List Out) :=
  let hidden := c.hide
  match Canvas.full_display { hidden.1 with offset_x := x, offset_y := y } with
  | .error e => .error e
  | .ok shown => .ok (shown.1, hidden.2 ++ shown.2)

/-! ## The prompt of the control loop (p3.cpp) -/

/-- What one `std::cin >> val` of the prompt finds: a number, which it stores in `val`;
text that is no number or a number outside the range of `int`, for which it stores
`stored` (0, or the nearest bound of `int`) and sets the fail flag; or the end of the
input, at which it leaves `val` as it is and sets the fail and the end-of-file flags. -/
inductive ReadOutcome where
  | parsed (v : Int)
  | parse_failure (stored : Int)
  | end_of_input
deriving DecidableEq, Repr

/-- The loop `while (true)` of the prompt in `input_thread`, started with the local `val`
holding `val`, for the outcomes its reads have in order: the value of `val` when the loop
is left, or `none` when the loop still waits for input after the last outcome. -/
def prompt_loop (val : Int) : List ReadOutcome → Option Int
  | [] => none
  | .parsed v :: rest => if v ≤ 0 then prompt_loop v rest else some v
  | .parse_failure stored :: rest => prompt_loop stored rest
  | .end_of_input :: _ => some val

/-- The branch of `input_thread` for the keys `f`, `u` and `r`, as far as it touches the
shared state: `paused` is set, the prompt runs, the tunable the key names receives `val`,
and `paused` is cleared. The local `val` is not initialised; `val` stands for what it
holds. The calls on the canvas and on the terminal mode touch no field kept here. -/
def reconfigure (s : ProgramState) (c : Char) (val : Int) (outcomes : List ReadOutcome) :
    Option ProgramState :=
  let s1 := { s with paused := true }
  match prompt_loop val outcomes with
  | none => none
  | some v =>
    let s2 := if c = 'f' then { s1 with frame_rate := v } else s1
    let s3 := if c = 'u' then { s2 with sim_rate := v } else s2
    let s4 := if c = 'r' then { s3 with rule := v } else s3
    some { s4 with paused := false }

/-! ## The render loop and the control loop (p3.cpp) -/

/-- The conversion of an `int` to `size_t`: the value modulo `2^64`. -/
def to_size_t (n : Int) : Nat :=
  (n % 2 ^ 64).toNat

/-- The canvas `main` constructs for the grid it has loaded:
`tui::Canvas(grid_a->get_width() * 2, grid_a->get_height())`, at the offset (0, 0). -/
def main_canvas (grid_a : Grid) : Canvas :=
  Canvas.new (to_size_t (grid_a.get_width * 2)) (to_size_t grid_a.get_height) 0 0

/-- The body of the inner loop of `draw` for `(x, y)`: the canvas afterwards. The first
statement converts the colour to a `Tile` by `Tile::Tile(RGB)` and assigns it through
`canvas(x * 2, y)`; the second reads `canvas(x * 2, y)` and assigns the tile through
`canvas(x * 2 + 1, y)`, the right side of an assignment being evaluated first. A read
of the grid outside its buffer is the fault `out_of_buffer`. -/
def draw_cell (prev : Grid) (canvas : Canvas) (y x : Nat) : Except Fault Canvas :=
  match prev.get_tile (x : Int) (y : Int) with
  | none => .error .out_of_buffer
  | some alive =>
    let color : RGB := if alive then ⟨255, 255, 255⟩ else ⟨0, 0, 0⟩
    match canvas.assign (x * 2) y (Tile.of_color color) with
    | .error e => .error e
    | .ok canvas1 =>
      match canvas1.get (x * 2) y with
      | .error e => .error e
      | .ok t => canvas1.assign (x * 2 + 1) y t

/-- The block of `draw` that holds the lock: the painting pass over the grid `prev`
points to, `y` outside and `x` inside, both counting up from 0. It returns the shared
state, which it only reads, and the canvas. -/
def draw_paint (s : ProgramState) (canvas : Canvas) : Except Fault (ProgramState × Canvas) :=
  let x_limit := to_size_t (s.deref s.prev).get_width
  let y_limit := to_size_t (s.deref s.prev).get_height
  match (List.range y_limit).foldlM
      (fun canvas y =>
        (List.range x_limit).foldlM (fun canvas x => draw_cell (s.deref s.prev) canvas y x)
          canvas)
      canvas with
  | .error e => .error e
  | .ok canvas1 => .ok (s, canvas1)

/-- One pass of the loop of `input_thread` for the byte `c` that `read` delivered: the
shared state and the canvas afterwards, and what the canvas wrote to `std::cout`. For `q`
the flag `running` is cleared. For `f`, `u` and `r` the canvas is hidden, the prompt runs
and the tunable is stored as in `reconfigure`, and the canvas is displayed again; `val`
stands for what the uninitialised local holds and `outcomes` for what the reads of the
prompt find, and the result is `none` when the prompt still waits after the last of them.
Any other byte does nothing. The switches of the terminal mode and the texts of the
prompt touch neither the shared state nor the canvas. -/
def input_step (s : ProgramState) (canvas : Canvas) (c : Char) (val : Int)
    (outcomes : List ReadOutcome) : Option (Except Fault (ProgramState × Canvas × List Out)) :=
  if c = 'q' then some (.ok ({ s with running := false }, canvas, []))
  else if c = 'f' ∨ c = 'u' ∨ c = 'r' then
    let hidden := canvas.hide
    match reconfigure s c val outcomes with
    | none => none
    | some s1 =>
      match hidden.1.display with
      | .error e => some (.error e)
      | .ok shown => some (.ok (s1, shown.1, hidden.2 ++ shown.2))
  else some (.ok (s, canvas, []))

/-- The read of the prompt is followed by another: text that is no number, or a number
that is not positive. -/
def ReadOutcome.retries : ReadOutcome → Bool
  | .parsed v => decide (v ≤ 0)
  | .parse_failure _ => true
  | .end_of_input => false

/-! ## The threads (p3.cpp)

The three loops run as threads over the shared state. They are modelled as a machine whose
steps are the events below, each one statement or block of the source; an interleaving
of the threads is a list of events. `state->mutex` is held by at most one thread: an
event that locks it can take place only while no thread holds it. -/

/-- The threads that hold `state->mutex` over more than one event. The blocks of
`input_thread` that hold it are one event each. -/
inductive Owner where
  | draw
  | update
deriving DecidableEq, Repr

/-- Where the thread of `draw` stands: at the loop test; inside the block that holds the
lock, with the cells it has still to paint; or behind the block, before `display()` and
the sleep. -/
inductive DrawPc where
  | top
  | painting (cells : List (Nat × Nat))
  | display
deriving DecidableEq, Repr

/-- Where the thread of `update` stands: at the loop test; inside the first block, holding
the lock, before the test of `paused`; inside `cond.wait`, the lock released; behind the
first block; while the row threads run, with the columns each row has still to update;
behind the joins; inside the last block, holding the lock, before and after `std::swap`;
and in the sleep. -/
inductive UpdatePc where
  | top
  | testing
  | blocked
  | spawning
  | rows (tasks : List (Int × List Int))
  | joined
  | swapping
  | swapped
  | sleeping
deriving DecidableEq, Repr

/-- The shared state, the canvas, the holder of `state->mutex` and the places of the threads
of `draw` and `update`. -/
structure Machine where
  s : ProgramState
  canvas : Canvas
  mutex : Option Owner
  draw : DrawPc
  update : UpdatePc
deriving DecidableEq, Repr

/-- The steps of the threads. Of `draw`: taking the lock and reading the limits, one pass
of the inner loop, leaving the block, `display()` with the sleep. Of `update`: taking the
lock, `cond.wait` releasing it and taking it again, leaving the first block, spawning the row
threads, one `update_tile` of the thread of row `y`, the joins, taking the lock for the
swap, `std::swap`, leaving the last block, the sleep. Of `input_thread`: a block that
holds the lock and writes `running`, `paused` or a tunable, and its calls `hide()` and
`display()` on the canvas. -/
inductive Event where
  | draw_lock
  | draw_cell
  | draw_unlock
  | draw_display
  | update_lock
  | update_wait
  | update_wake
  | update_unlock
  | update_spawn
  | row (y : Int)
  | update_join
  | swap_lock
  | swap
  | swap_unlock
  | update_sleep
  | input_write (rule frame_rate sim_rate : Int) (running paused : Bool)
  | input_hide
  | input_display
deriving DecidableEq, Repr

/-- The cells the block of `draw` paints, in order: `y` outside, `x` inside. -/
def paint_cells (prev : Grid) : List (Nat × Nat) :=
  (List.range (to_size_t prev.get_height)).flatMap
    (fun y => (List.range (to_size_t prev.get_width)).map (fun x => (x, y)))

/-- The row threads `update` spawns: for each row `y` below `y_limit` the columns
`0 .. x_limit-1` it updates, in order. -/
def row_tasks (prev : Grid) : List (Int × List Int) :=
  (int_range prev.get_height).map (fun y => (y, int_range prev.get_width))

/-- The column the thread of row `y` updates next, and the tasks afterwards. -/
def next_cell (y : Int) : List (Int × List Int) → Option (Int × List (Int × List Int))
  | [] => none
  | (y1, xs) :: rest =>
    if y1 = y then
      match xs with
      | [] => none
      | x :: xs1 => some (x, (y1, xs1) :: rest)
    else
      match next_cell y rest with
      | none => none
      | some r => some (r.1, (y1, xs) :: r.2)

/-- The machine after an event, or `none` when the event cannot take place: its thread
does not stand there, the lock it takes is held, or the call it makes fails. -/
def Machine.step (m : Machine) : Event → Option Machine
  | .draw_lock =>
    if m.draw = .top ∧ m.s.running = true ∧ m.mutex = none then
      some { m with mutex := some .draw, draw := .painting (paint_cells (m.s.deref m.s.prev)) }
    else none
  | .draw_cell =>
    match m.draw with
    | .painting ((x, y) :: rest) =>
      match draw_cell (m.s.deref m.s.prev) m.canvas y x with
      | .ok canvas1 => some { m with canvas := canvas1, draw := .painting rest }
      | .error _ => none
    | _ => none
  | .draw_unlock =>
    if m.draw = .painting [] ∧ m.mutex = some .draw then
      some { m with mutex := none, draw := .display }
    else none
  | .draw_display =>
    if m.draw = .display then
      match m.canvas.display with
      | .ok shown => some { m with canvas := shown.1, draw := .top }
      | .error _ => none
    else none
  | .update_lock =>
    if m.update = .top ∧ m.s.running = true ∧ m.mutex = none then
      some { m with mutex := some .update, update := .testing }
    else none
  | .update_wait =>
    if m.update = .testing ∧ m.s.paused = true ∧ m.mutex = some .update then
      some { m with mutex := none, update := .blocked }
    else none
  | .update_wake =>
    if m.update = .blocked ∧ m.mutex = none then
      some { m with mutex := some .update, update := .testing }
    else none
  | .update_unlock =>
    if m.update = .testing ∧ m.s.paused = false ∧ m.mutex = some .update then
      some { m with mutex := none, update := .spawning }
    else none
  | .update_spawn =>
    if m.update = .spawning then
      some { m with update := .rows (row_tasks (m.s.deref m.s.prev)) }
    else none
  | .row y =>
    match m.update with
    | .rows tasks =>
      match next_cell y tasks with
      | none => none
      | some (x, tasks1) =>
        match m.s.update_cell x y with
        | none => none
        | some s1 => some { m with s := s1, update := .rows tasks1 }
    | _ => none
  | .update_join =>
    match m.update with
    | .rows tasks =>
      if tasks.all (fun t => t.2.isEmpty) then some { m with update := .joined } else none
    | _ => none
  | .swap_lock =>
    if m.update = .joined ∧ m.mutex = none then
      some { m with mutex := some .update, update := .swapping }
    else none
  | .swap =>
    if m.update = .swapping ∧ m.mutex = some .update then
      some { m with s := m.s.swap, update := .swapped }
    else none
  | .swap_unlock =>
    if m.update = .swapped ∧ m.mutex = some .update then
      some { m with mutex := none, update := .sleeping }
    else none
  | .update_sleep =>
    if m.update = .sleeping then some { m with update := .top } else none
  | .input_write rule frame_rate sim_rate running paused =>
    if m.mutex = none then
      some { m with
        s := { m.s with
          rule := rule, frame_rate := frame_rate, sim_rate := sim_rate,
          running := running, paused := paused } }
    else none
  | .input_hide => some { m with canvas := m.canvas.hide.1 }
  | .input_display =>
    match m.canvas.display with
    | .ok shown => some { m with canvas := shown.1 }
    | .error _ => none

/-- The machine after the events of an interleaving, one after the other. -/
def Machine.run (m : Machine) (events : List Event) : Option Machine :=
  events.foldlM Machine.step m

/-- The machine when `main` has started the threads: no thread holds the lock, and the
threads of `draw` and `update` stand at their loop tests. -/
def Machine.start (s : ProgramState) (canvas : Canvas) : Machine :=
  { s := s, canvas := canvas, mutex := none, draw := .top, update := .top }

/-- What holds of the machine at every moment: the thread of `draw` holds the lock exactly
while it is inside its block, the thread of `update` exactly while it is inside its first or
its last block, and `prev` and `next` point to different grids. -/
def Machine.Inv (m : Machine) : Prop :=
  (m.mutex = some .draw ↔ ∃ cells, m.draw = .painting cells) ∧
    (m.mutex = some .update ↔
      (m.update = .testing ∨ m.update = .swapping ∨ m.update = .swapped)) ∧
    m.s.prev ≠ m.s.next

/-! ## Vocabulary of the specification: the render surface -/

/-- A canvas as the constructors and `resize` leave it: both buffers hold `height*width`
tiles. -/
def Canvas.WF (c : Canvas) : Prop :=
  c.prev_buffer.length = c.height * c.width ∧ c.tile_buffer.length = c.height * c.width

instance Canvas.decidableWF (c : Canvas) : Decidable c.WF := by
  unfold Canvas.WF; infer_instance

/-- The pending tile at `(x, y)`. -/
def Canvas.pending (c : Canvas) (x y : Nat) : Tile :=
  c.tile_buffer.getD (y * c.width + x) Tile.blank

/-- The last-emitted tile at `(x, y)`. -/
def Canvas.emitted (c : Canvas) (x y : Nat) : Tile :=
  c.prev_buffer.getD (y * c.width + x) Tile.blank

/-- The colours of two tiles differ, in the foreground or in the background. -/
def Tile.colors_differ (a b : Tile) : Bool :=
  a.fore_color.ne b.fore_color || a.back_color.ne b.back_color

/-- The start of the output of the display functions and of `hide`: the cursor is saved
and, for a nonzero `offset_y`, moved down by it. -/
def Canvas.header (c : Canvas) : List Out :=
  [Out.save] ++ (if c.offset_y ≠ 0 then [Out.down c.offset_y] else [])

/-- The cells of a canvas in the order the display functions visit them: the rows from
the top, each row from its last column to its first. -/
def Canvas.order (c : Canvas) : List (Nat × Nat) :=
  (List.range c.height).flatMap (fun y => (down_range c.width).map (fun x => (x, y)))

/-- What a full redraw writes for the cell `(x, y)`: the move to its column, then the
tile with its colour escapes if it is the first of its row or its colours differ from
those of the tile to its right, and the bare symbol otherwise. -/
def Canvas.full_piece (c : Canvas) (y x : Nat) : List Out :=
  [Out.column (c.offset_x + x + 1)] ++
    (if x + 1 = c.width ∨ (c.pending (x + 1) y).colors_differ (c.pending x y) = true
      then (c.pending x y).to_string else (c.pending x y).raw_symbol)

/-- What a full redraw writes for the row `y`: its cells, the colour reset and the line
end. -/
def Canvas.full_row_output (c : Canvas) (y : Nat) : List Out :=
  (down_range c.width).flatMap (c.full_piece y) ++ [Out.reset, Out.crlf]

/-- What a full redraw writes. -/
def Canvas.full_output (c : Canvas) : List Out :=
  c.header ++ (List.range c.height).flatMap c.full_row_output ++ [Out.restore]

/-- The pending tile of the cell `p` differs from its last-emitted tile, in the symbol,
the foreground or the background. -/
def Canvas.is_changed (c : Canvas) (p : Nat × Nat) : Bool :=
  decide (c.emitted p.1 p.2 ≠ c.pending p.1 p.2)

/-- The cells whose pending tile differs from the last-emitted one, in display order. -/
def Canvas.changed (c : Canvas) : List (Nat × Nat) :=
  c.order.filter c.is_changed

/-- The locals `last_tile`, `last_y` and `first` of `Canvas::lazy_display` are what they
are after the changed cell `pred` has been written, or before any has. -/
def Canvas.regs_match (c : Canvas) (st : LazyState) (pred : Option (Nat × Nat)) : Prop :=
  st.last_tile = pred.map (fun q => c.pending q.1 q.2) ∧
    st.last_y = (match pred with
      | some q => (q.2 : Int)
      | none => 0) ∧
    st.first = pred.isNone

/-- What a diff redraw writes for the changed cell `cur`, where `pred` is the changed
cell written before it, if there is one: the move to its column, a move down from the row
of `pred` (from row 0 without one) if the row differs, then the tile with its colour
escapes if it is the first or its colours differ from those of `pred`, and the bare symbol
otherwise. -/
def Canvas.lazy_piece (c : Canvas) (pred : Option (Nat × Nat)) (cur : Nat × Nat) : List Out :=
  let last_y : Int := match pred with
    | some q => (q.2 : Int)
    | none => 0
  let mismatch : Bool := match pred with
    | some q => (c.pending q.1 q.2).colors_differ (c.pending cur.1 cur.2)
    | none => true
  [Out.column (c.offset_x + cur.1 + 1)] ++
    (if (cur.2 : Int) ≠ last_y then
      [if (cur.2 : Int) - last_y > 0 then Out.down ((cur.2 : Int) - last_y).natAbs
        else Out.up ((cur.2 : Int) - last_y).natAbs]
      else []) ++
    (if mismatch then (c.pending cur.1 cur.2).to_string else (c.pending cur.1 cur.2).raw_symbol)

/-- What a diff redraw writes for a list of changed cells, after the changed cell
`pred`. -/
def Canvas.lazy_pieces (c : Canvas) : Option (Nat × Nat) → List (Nat × Nat) → List Out
  | _, [] => []
  | pred, cur :: rest => c.lazy_piece pred cur ++ c.lazy_pieces (some cur) rest

/-- What a diff redraw writes. -/
def Canvas.lazy_output (c : Canvas) : List Out :=
  c.header ++ c.lazy_pieces none c.changed ++ [Out.restore, Out.reset]

/-- The piece is a relative-row move. -/
def Out.is_row_move : Out → Bool
  | .down _ => true
  | .up _ => true
  | _ => false

/-- The piece is a 24-bit colour escape. -/
def Out.is_color : Out → Bool
  | .fore _ => true
  | .back _ => true
  | _ => false

/-- Every colour escape of the output is followed, later in the output, by the
default-colour reset. -/
def colors_closed : List Out → Bool
  | [] => true
  | t :: rest => (!t.is_color || decide (Out.reset ∈ rest)) && colors_closed rest

/-- The shape of what a diff redraw writes for the changed cell `p`: the move to its
column, then the pieces `mid`, then the pending symbol. -/
def Canvas.diff_piece (c : Canvas) (p : Nat × Nat) (mid : List Out) : List Out :=
  [Out.column (c.offset_x + p.1 + 1)] ++ mid ++ [Out.text (c.pending p.1 p.2).symbol]

/-- The cell `p` comes before the cell `q` in display order: in a row above, or in the
same row in a column further right. -/
def display_before (p q : Nat × Nat) : Prop :=
  p.2 < q.2 ∨ (p.2 = q.2 ∧ q.1 < p.1)

/-! ## The terminal

The terminal is not part of the program. It is modelled as the specification describes
it: a cursor, a current foreground and background colour, a saved cursor, and a grid of
cells; a symbol takes one column. -/

/-- A colour of the terminal: its default colour or a 24-bit colour. -/
inductive Colour where
  | default
  | rgb (c : RGB)
deriving DecidableEq, Repr

/-- What a cell of the terminal shows. -/
structure Cell where
  symbol : List Char
  fore : Colour
  back : Colour
deriving DecidableEq, Repr

/-- The state of the terminal; `cells col row` is the cell at a column and a row. -/
structure Terminal where
  col : Nat
  row : Nat
  fore : Colour
  back : Colour
  saved_col : Nat
  saved_row : Nat
  cells : Nat → Nat → Cell

/-- The effect of one piece of output on the terminal: cursor save and restore, relative
row moves, the absolute column move (columns count from 1), colour set and reset, and
text, which is stored at the cursor with the current colours and moves the cursor one
column on; the line end moves to the first column of the next row. -/
def Terminal.step (t : Terminal) : Out → Terminal
  | .save => { t with saved_col := t.col, saved_row := t.row }
  | .restore => { t with col := t.saved_col, row := t.saved_row }
  | .down n => { t with row := t.row + n }
  | .up n => { t with row := t.row - n }
  | .column n => { t with col := n - 1 }
  | .fore c => { t with fore := .rgb c }
  | .back c => { t with back := .rgb c }
  | .reset => { t with fore := .default, back := .default }
  | .text s =>
    { t with
      cells := fun cx cy =>
        if cx = t.col ∧ cy = t.row then { symbol := s, fore := t.fore, back := t.back }
        else t.cells cx cy
      col := t.col + 1 }
  | .crlf => { t with col := 0, row := t.row + 1 }

/-- The terminal after a list of pieces of output. -/
def Terminal.run (t : Terminal) (output : List Out) : Terminal :=
  output.foldl Terminal.step t

/-- A cell of the terminal shows a tile: it holds the symbol and the background colour of
the tile, and with `with_fore` also its foreground colour. -/
def Cell.shows (cell : Cell) (tile : Tile) (with_fore : Bool) : Prop :=
  cell.symbol = tile.symbol ∧ cell.back = .rgb tile.back_color ∧
    (with_fore = true → cell.fore = .rgb tile.fore_color)

/-- The footprint of the canvas on the terminal, with the canvas rows starting `offset_y`
rows below the row `base_row`, shows the tiles `tiles`: the cell of `(x, y)`, at column
`offset_x + x`, shows the tile `tiles x y`. -/
def Terminal.shows (t : Terminal) (c : Canvas) (base_row : Nat) (tiles : Nat → Nat → Tile)
    (with_fore : Bool) : Prop :=
  ∀ x y, x < c.width → y < c.height →
    (t.cells (c.offset_x + x) (base_row + c.offset_y + y)).shows (tiles x y) with_fore

/-- The cell of the terminal that shows a tile with its symbol and both colours. -/
def Tile.as_cell (t : Tile) : Cell :=
  { symbol := t.symbol, fore := .rgb t.fore_color, back := .rgb t.back_color }

/-- The row of the changed cell written last, 0 before any is written: the value of the
local `last_y` of `Canvas::lazy_display`. -/
def last_row (pred : Option (Nat × Nat)) : Nat :=
  match pred with
  | some q => q.2
  | none => 0

/-- Whether a diff redraw writes the changed cell `cur` with its colour escapes, after
the changed cell `pred`. -/
def Canvas.lazy_escapes (c : Canvas) (pred : Option (Nat × Nat)) (cur : Nat × Nat) : Bool :=
  match pred with
  | some q => (c.pending q.1 q.2).colors_differ (c.pending cur.1 cur.2)
  | none => true

/-- The number of places of a string at which the string `pat` starts. -/
def occurrences (pat : List Char) : List Char → Nat
  | [] => 0
  | a :: s => (if pat.isPrefixOf (a :: s) then 1 else 0) + occurrences pat s

/-- The colour escapes at the start of the string of a tile: the escape of the foreground
colour unless the symbol is a blank, and the escape of the background colour. -/
def Tile.escapes (t : Tile) : List Out :=
  (if t.symbol ≠ [' '] then [Out.fore t.fore_color] else []) ++ [Out.back t.back_color]

/-- The changed cell written just before each changed cell of a list, none before the
first. -/
def predecessors (cells : List (Nat × Nat)) : List (Option (Nat × Nat)) :=
  none :: cells.map some

/-- The tile the render loop paints for the cell `(x, y)` of a grid: a blank on white for
a live cell, a blank on black for a dead one. -/
def cell_tile (g : Grid) (x y : Nat) : Tile :=
  Tile.of_color (if g.get_tile (x : Int) (y : Int) = some true then ⟨255, 255, 255⟩ else ⟨0, 0, 0⟩)

/-- The pending tiles while the painting pass is in row `y` and has painted `j` cells of
it: the tiles of the grid cells in the rows above and of the first `j` cells of the row,
each in two columns, and the tiles of the canvas `canvas` elsewhere. -/
def painted (g : Grid) (canvas : Canvas) (y j : Nat) (x1 y1 : Nat) : Tile :=
  if y1 < y ∨ (y1 = y ∧ x1 / 2 < j) then cell_tile g (x1 / 2) y1 else canvas.pending x1 y1

/-- The canvas `c1` is the canvas `c0` with the pending tiles `tiles` in its columns: it
holds its tiles, and its dimensions, offsets, last-emitted tiles and flag are those of
`c0`. -/
def Canvas.repainted (c0 c1 : Canvas) (tiles : Nat → Nat → Tile) : Prop :=
  c1.WF ∧ c1.width = c0.width ∧ c1.height = c0.height ∧ c1.offset_x = c0.offset_x ∧
    c1.offset_y = c0.offset_y ∧ c1.prev_buffer = c0.prev_buffer ∧
    c1.should_full_display = c0.should_full_display ∧
    ∀ x1 y1, x1 < c0.width → c1.pending x1 y1 = tiles x1 y1

/-! ## Fixtures: the render surface -/

/-- The letter `a`, in a colour on a colour. -/
def tile_a : Tile :=
  { symbol := ['a'], fore_color := ⟨255, 0, 0⟩, back_color := ⟨0, 0, 255⟩ }

/-- The letter `b`, in the colours of `tile_a`. -/
def tile_b : Tile :=
  { symbol := ['b'], fore_color := ⟨255, 0, 0⟩, back_color := ⟨0, 0, 255⟩ }

/-- A blank in the colours of `tile_a`. -/
def tile_blank : Tile :=
  { symbol := [' '], fore_color := ⟨255, 0, 0⟩, back_color := ⟨0, 0, 255⟩ }

/-- A canvas of two columns and one row that has displayed `b a`. -/
def canvas_ba : Canvas :=
  { width := 2
    height := 1
    offset_x := 0
    offset_y := 0
    prev_buffer := [tile_b, tile_a]
    tile_buffer := [tile_b, tile_a]
    should_full_display := false }

/-- A canvas of one column and two rows, at the offset (3, 4), with `a` pending in the
second row. -/
def canvas_tall : Canvas :=
  { width := 1
    height := 2
    offset_x := 3
    offset_y := 4
    prev_buffer := [Tile.blank, Tile.blank]
    tile_buffer := [Tile.blank, tile_a]
    should_full_display := true }

/-- The canvas that has displayed `b a`, with `a b` pending. -/
def canvas_ab : Canvas :=
  { canvas_ba with tile_buffer := [tile_a, tile_b] }

/-- The canvas that has displayed `b a`, with a blank pending in place of the `a`. -/
def canvas_b_blank : Canvas :=
  { canvas_ba with tile_buffer := [tile_b, tile_blank] }

/-- A terminal with the cursor at the origin and the default colours that shows `b a` in
the colours of the tiles in its first row and blanks elsewhere. -/
def terminal_ba : Terminal :=
  { col := 0
    row := 0
    fore := .default
    back := .default
    saved_col := 0
    saved_row := 0
    cells := fun cx cy =>
      if cx = 0 ∧ cy = 0 then tile_b.as_cell
      else if cx = 1 ∧ cy = 0 then tile_a.as_cell
      else { symbol := [' '], fore := .default, back := .default } }

/-- A new canvas of two columns and one row with `b` and a blank of the same colours
pending: nothing is displayed yet, the full-redraw flag is set. -/
def canvas_new_b_blank : Canvas :=
  { Canvas.new 2 1 0 0 with tile_buffer := [tile_b, tile_blank] }

/-- A terminal with the cursor at the origin, the default colours and blanks everywhere. -/
def terminal_empty : Terminal :=
  { col := 0
    row := 0
    fore := .default
    back := .default
    saved_col := 0
    saved_row := 0
    cells := fun _ _ => { symbol := [' '], fore := .default, back := .default } }

/-- A grid of one cell, alive; the second element of the buffer is the row terminator. -/
def live_cell : Grid :=
  { height := 1, width := 1, buffer := [true, true] }

/-- The canvas of `main` for a grid of one cell after the render loop has painted the live
cell and before it has displayed it: two blanks on white pending, nothing emitted yet. -/
def canvas_painted : Canvas :=
  { Canvas.new 2 1 0 0 with
    tile_buffer := [Tile.of_color ⟨255, 255, 255⟩, Tile.of_color ⟨255, 255, 255⟩] }

/-- The machine for the grid of one live cell in both grids, after the thread of `update`
has spawned its row thread, the thread of `draw` has taken the lock, the row thread has
updated its cell and `draw` has painted the cell: `draw` still holds the lock. -/
def machine_painting : Machine :=
  { s := { ProgramState.init live_cell live_cell with
      grid_b := { height := 1, width := 1, buffer := [false, true] } }
    canvas := canvas_painted
    mutex := some .draw
    draw := .painting []
    update := .rows [(0, [])] }

/-! ## Buffer accesses -/

theorem index_range (W H x y : Int) (hx : 0 ≤ x) (hxW : x ≤ W) (hy : 0 ≤ y) (hyH : y < H) :
    0 ≤ (W + 1) * y + x ∧ (W + 1) * y + x < (W + 1) * H := by
  have h1 : 0 ≤ (W + 1) * y := mul_nonneg (by omega) hy
  have h2 : (W + 1) * (y + 1) ≤ (W + 1) * H := mul_le_mul_of_nonneg_left (by omega) (by omega)
  constructor
  · omega
  · nlinarith

theorem index_inj (W x y x' y' : Int) (hx : 0 ≤ x) (hxW : x ≤ W) (hx' : 0 ≤ x') (hxW' : x' ≤ W)
    (h : (W + 1) * y + x = (W + 1) * y' + x') : x = x' ∧ y = y' := by
  have hy : y = y' := by
    by_contra hne
    rcases lt_or_gt_of_ne hne with hlt | hgt
    · have : (W + 1) * (y + 1) ≤ (W + 1) * y' := mul_le_mul_of_nonneg_left (by omega) (by omega)
      nlinarith
    · have : (W + 1) * (y' + 1) ≤ (W + 1) * y := mul_le_mul_of_nonneg_left (by omega) (by omega)
      nlinarith
  subst hy
  exact ⟨by omega, rfl⟩

theorem Grid.exists_iff (g : Grid) (x y : Int) : g.exists x y = true ↔ g.in_bounds x y := by
  unfold Grid.exists Grid.in_bounds
  split_ifs <;> simp <;> omega

theorem Grid.read_some (g : Grid) (i : Int) (h0 : 0 ≤ i) (h1 : i < g.buffer.length) :
    ∃ b, g.read i = some b := by
  unfold Grid.read
  have : i.toNat < g.buffer.length := by omega
  rw [if_neg (by omega)]
  exact ⟨g.buffer[i.toNat], List.getElem?_eq_getElem this⟩

theorem Grid.read_write (g g' : Grid) (i : Int) (v : Bool) (h : g.write i v = some g') (j : Int) :
    g'.read j = if j = i then some v else g.read j := by
  unfold Grid.write at h
  split_ifs at h with h1 h2
  simp only [Option.some.injEq] at h
  subst h
  unfold Grid.read
  by_cases hj : j < 0
  · have hji : j ≠ i := by omega
    simp [hj, hji]
  · simp only [hj, if_false]
    by_cases hji : j = i
    · subst hji; simp [h2]
    · simp only [hji, if_false]
      rw [List.getElem?_set_ne]
      omega

theorem Grid.write_dims (g g' : Grid) (i : Int) (v : Bool) (h : g.write i v = some g') :
    g'.width = g.width ∧ g'.height = g.height ∧ g'.buffer.length = g.buffer.length := by
  unfold Grid.write at h
  split_ifs at h with h1 h2
  simp only [Option.some.injEq] at h
  subst h
  simp

theorem Grid.write_some (g : Grid) (i : Int) (v : Bool) (h0 : 0 ≤ i) (h1 : i < g.buffer.length) :
    ∃ g', g.write i v = some g' := by
  unfold Grid.write
  rw [if_neg (by omega), if_pos (by omega)]
  exact ⟨_, rfl⟩

/-! ## Tiles -/

theorem Grid.get_tile_some (g : Grid) (hg : g.WF) (x y : Int) (hb : g.in_bounds x y) :
    ∃ b, g.get_tile x y = some b := by
  obtain ⟨hw, hh, hlen⟩ := hg
  obtain ⟨hx, hxW, hy, hyH⟩ := hb
  have hr := index_range g.width g.height x y hx (by omega) hy hyH
  exact g.read_some _ hr.1 (by omega)

theorem Grid.count_step_eq (g : Grid) (hg : g.WF) (x y i j c : Int) (hij : ¬ (i = 0 ∧ j = 0)) :
    g.count_step x y i j c
      = some (c + if (decide (g.in_bounds (x + i) (y + j)) && g.alive (x + i) (y + j)) = true
          then 1 else 0) := by
  unfold Grid.count_step
  have h0 : (i == 0 && j == 0) = false := by
    simpa using hij
  simp only [h0, Bool.false_eq_true, if_false]
  by_cases hb : g.in_bounds (x + i) (y + j)
  · have he : g.exists (x + i) (y + j) = true := (g.exists_iff _ _).2 hb
    obtain ⟨b, hb'⟩ := g.get_tile_some hg _ _ hb
    cases b <;> simp [he, hb', hb, Grid.alive]
  · have he : g.exists (x + i) (y + j) = false := by
      rw [← Bool.not_eq_true, g.exists_iff]; exact hb
    simp [he, hb]

theorem Grid.count_step_centre (g : Grid) (x y c : Int) : g.count_step x y 0 0 c = some c := by
  simp [Grid.count_step]

theorem Grid.count_neighbours_eq (g : Grid) (hg : g.WF) (x y : Int) :
    g.count_neighbours x y = some (g.live_neighbours x y : Int) := by
  have e1 := fun c => g.count_step_eq hg x y (-1) (-1) c (by decide)
  have e2 := fun c => g.count_step_eq hg x y (-1) 0 c (by decide)
  have e3 := fun c => g.count_step_eq hg x y (-1) 1 c (by decide)
  have e4 := fun c => g.count_step_eq hg x y 0 (-1) c (by decide)
  have e5 := fun c => g.count_step_eq hg x y 0 1 c (by decide)
  have e6 := fun c => g.count_step_eq hg x y 1 (-1) c (by decide)
  have e7 := fun c => g.count_step_eq hg x y 1 0 c (by decide)
  have e8 := fun c => g.count_step_eq hg x y 1 1 c (by decide)
  unfold Grid.count_neighbours Grid.live_neighbours moore
  simp only [List.foldlM, Option.pure_def, Option.bind_eq_bind, e1, e2, e3, e4, e5, e6, e7, e8,
    g.count_step_centre, Option.some_bind, List.countP_cons, List.countP_nil, Option.some.injEq]
  push_cast
  ring

theorem Grid.set_tile_spec (g : Grid) (hg : g.WF) (x y : Int) (hb : g.in_bounds x y) (v : Bool) :
    ∃ g', g.set_tile x y v = some g' ∧ g'.WF ∧ g'.width = g.width ∧ g'.height = g.height ∧
      ∀ j, g'.read j = if j = (g.width + 1) * y + x then some v else g.read j := by
  obtain ⟨hw, hh, hlen⟩ := hg
  obtain ⟨hx, hxW, hy, hyH⟩ := hb
  have hr := index_range g.width g.height x y hx (by omega) hy hyH
  obtain ⟨g', hg'⟩ := g.write_some ((g.width + 1) * y + x) v hr.1 (by omega)
  obtain ⟨d1, d2, d3⟩ := g.write_dims g' _ v hg'
  refine ⟨g', hg', ⟨by omega, by omega, ?_⟩, d1, d2, g.read_write g' _ v hg'⟩
  rw [d1, d2, d3]; exact hlen

theorem Grid.get_set_tile (g g' : Grid) (x y : Int) (v : Bool) (hw : g'.width = g.width)
    (hrd : ∀ j, g'.read j = if j = (g.width + 1) * y + x then some v else g.read j) :
    g'.get_tile x y = some v := by
  unfold Grid.get_tile
  simp [hrd, hw]

theorem Grid.get_set_tile_ne (g g' : Grid) (x y x' y' : Int) (v : Bool) (hw : g'.width = g.width)
    (hrd : ∀ j, g'.read j = if j = (g.width + 1) * y + x then some v else g.read j)
    (hx : 0 ≤ x ∧ x ≤ g.width) (hx' : 0 ≤ x' ∧ x' ≤ g.width) (hne : ¬ (x' = x ∧ y' = y)) :
    g'.get_tile x' y' = g.get_tile x' y' := by
  unfold Grid.get_tile
  simp only [hrd, hw]
  rw [if_neg]
  intro h
  exact hne (index_inj g.width x' y' x y hx'.1 hx'.2 hx.1 hx.2 h)

theorem end_state_eq_testBit (n : Nat) (alive : Bool) (c : Nat) :
    end_state (n : Int) alive (c : Int) = n.testBit (9 * (if alive then 1 else 0) + c) := by
  unfold end_state
  have hk : (((if alive then 1 else 0) * 9 + (c : Int)).toNat) = 9 * (if alive then 1 else 0) + c := by
    cases alive <;> simp
    omega
  rw [hk]
  generalize 9 * (if alive then 1 else 0) + c = k
  have h1 : ((n : Int) >>> k) = ((n >>> k : Nat) : Int) := rfl
  have h2 : Int.land ((n >>> k : Nat) : Int) 1 = ((n >>> k &&& 1 : Nat) : Int) := rfl
  rw [h1, h2, Nat.testBit, Nat.land_comm]
  have aux : ∀ m : Nat, ((m : Int) != 0) = (m != 0) := by
    intro m
    cases m with
    | zero => rfl
    | succ m =>
      have h3 : ((m + 1 : Nat) : Int) ≠ 0 := by omega
      simp only [bne, beq_eq_false_iff_ne.2 h3, beq_eq_false_iff_ne.2 (Nat.succ_ne_zero m)]
  exact aux _

theorem Grid.live_neighbours_le (g : Grid) (x y : Int) : g.live_neighbours x y ≤ 8 :=
  List.countP_le_length _

/-- What `update_tile` does to the destination: it returns, the dimensions stay, and the
buffer changes at the index of `(x, y)` only, to the bit of the rule that `end_state`
selects. -/
theorem Grid.update_tile_spec (G D : Grid) (x y r : Int) (hG : G.WF) (hD : D.WF)
    (hw : D.width = G.width) (hh : D.height = G.height) (hb : G.in_bounds x y) :
    ∃ D', D.update_tile G x y r = some D' ∧ D'.WF ∧ D'.width = D.width ∧ D'.height = D.height ∧
      ∀ j, D'.read j = if j = (D.width + 1) * y + x
        then some (end_state r (G.alive x y) (G.live_neighbours x y)) else D.read j := by
  obtain ⟨a, ha⟩ := G.get_tile_some hG x y hb
  have hal : G.alive x y = a := by
    cases a <;> simp [Grid.alive, ha]
  have hbD : D.in_bounds x y := by
    unfold Grid.in_bounds at hb ⊢
    rw [hw, hh]; exact hb
  obtain ⟨D', h1, h2, h3, h4, h5⟩ := D.set_tile_spec hD x y hbD
    (end_state r (G.alive x y) (G.live_neighbours x y))
  refine ⟨D', ?_, h2, h3, h4, h5⟩
  unfold Grid.update_tile
  simp only [ha, G.count_neighbours_eq hG x y]
  rw [← hal]; exact h1

/-- C1: for a source grid `G`, a destination `D` of the same dimensions, an in-bounds
`(x, y)` and a rule `0 ≤ r < 2^18`, `D.update_tile(G, x, y, r)` returns and leaves at
`(x, y)` of the destination bit number `9*a + n` of `r`, where `a` is 1 if the cell
`(x, y)` of `G` is alive and 0 otherwise and `n ≤ 8` is the number of live cells among
the Moore neighbours of `(x, y)` that lie inside `G`. -/
theorem update_tile_rule_lookup (G D : Grid) (x y r : Int) (hG : G.WF) (hD : D.WF)
    (hw : D.width = G.width) (hh : D.height = G.height) (hb : G.in_bounds x y)
    (hr0 : 0 ≤ r) (hr1 : r < 2 ^ 18) :
    ∃ D', D.update_tile G x y r = some D' ∧
      D'.get_tile x y
        = some (r.toNat.testBit (9 * (if G.alive x y then 1 else 0) + G.live_neighbours x y)) ∧
      G.live_neighbours x y ≤ 8 := by
  obtain ⟨D', h1, -, hw', -, hrd⟩ := Grid.update_tile_spec G D x y r hG hD hw hh hb
  refine ⟨D', h1, ?_, G.live_neighbours_le x y⟩
  rw [Grid.get_set_tile D D' x y _ hw' hrd]
  have hr : r = ((r.toNat : Nat) : Int) := by omega
  rw [hr, end_state_eq_testBit, ← hr]

/-! ## Rule evaluation -/

/-- Witness of C1: the cell above the centre of the horizontal blinker. -/
theorem update_tile_rule_lookup_witness :
    ∃ D', dead_grid.update_tile horizontal_blinker 2 1 6152 = some D' ∧
      D'.get_tile 2 1 = some ((6152 : Int).toNat.testBit
        (9 * (if horizontal_blinker.alive 2 1 then 1 else 0)
          + horizontal_blinker.live_neighbours 2 1)) ∧
      horizontal_blinker.live_neighbours 2 1 ≤ 8 :=
  update_tile_rule_lookup horizontal_blinker dead_grid 2 1 6152 (by decide) (by decide)
    (by decide) (by decide) (by decide) (by decide) (by decide)

theorem end_state_conway (a : Bool) (n : Nat) (hn : n ≤ 8) :
    end_state 6152 a (n : Int) = decide (n = 3 ∨ (a = true ∧ n = 2)) := by
  have h := end_state_eq_testBit 6152 a n
  simp only [Nat.cast_ofNat] at h
  rw [h]
  interval_cases n <;> cases a <;> decide

/-- C2: the rule value 6152 that `main` starts with is classic Life: `update_tile` with
rule 6152 returns and makes the cell alive exactly when its live-neighbour count is 3, or
the cell was alive in the source grid and the count is 2; otherwise the cell is dead. -/
theorem default_rule_is_conway (G D : Grid) (x y : Int) (hG : G.WF) (hD : D.WF)
    (hw : D.width = G.width) (hh : D.height = G.height) (hb : G.in_bounds x y) :
    (ProgramState.init G D).rule = 6152 ∧
    ∃ D', D.update_tile G x y 6152 = some D' ∧
      D'.get_tile x y = some (decide (G.live_neighbours x y = 3
        ∨ (G.alive x y = true ∧ G.live_neighbours x y = 2))) := by
  refine ⟨rfl, ?_⟩
  obtain ⟨D', h1, -, hw', -, hrd⟩ := Grid.update_tile_spec G D x y 6152 hG hD hw hh hb
  refine ⟨D', h1, ?_⟩
  rw [Grid.get_set_tile D D' x y _ hw' hrd, end_state_conway _ _ (G.live_neighbours_le x y)]

/-- Witness of C2: the centre of the horizontal blinker. -/
theorem default_rule_is_conway_witness :
    (ProgramState.init horizontal_blinker dead_grid).rule = 6152 ∧
    ∃ D', dead_grid.update_tile horizontal_blinker 2 2 6152 = some D' ∧
      D'.get_tile 2 2 = some (decide (horizontal_blinker.live_neighbours 2 2 = 3
        ∨ (horizontal_blinker.alive 2 2 = true ∧ horizontal_blinker.live_neighbours 2 2 = 2))) :=
  default_rule_is_conway horizontal_blinker dead_grid 2 2 (by decide) (by decide) (by decide)
    (by decide) (by decide)

theorem moore_offsets (d : Int × Int) (hd : d ∈ moore) :
    d.1 ∈ [(-1 : Int), 0, 1] ∧ d.2 ∈ [(-1 : Int), 0, 1] := by
  unfold moore at hd
  simp only [List.mem_cons, List.mem_singleton, List.not_mem_nil, or_false] at hd
  rcases hd with h | h | h | h | h | h | h | h <;> subst h <;> decide

/-- C3: `update_tile` depends only on the 3x3 neighbourhood. If two source grids of the
same dimensions agree on every in-bounds cell `(x+i, y+j)` with `i, j ∈ {-1, 0, 1}`, then
`update_tile` from the one and from the other both return and write the same value at
`(x, y)`, whatever the grids hold elsewhere. -/
theorem update_tile_local (G1 G2 D1 D2 : Grid) (x y r : Int)
    (hG1 : G1.WF) (hG2 : G2.WF) (hD1 : D1.WF) (hD2 : D2.WF)
    (hw : G2.width = G1.width) (hh : G2.height = G1.height)
    (hw1 : D1.width = G1.width) (hh1 : D1.height = G1.height)
    (hw2 : D2.width = G1.width) (hh2 : D2.height = G1.height)
    (hb : G1.in_bounds x y)
    (hagree : ∀ i ∈ [(-1 : Int), 0, 1], ∀ j ∈ [(-1 : Int), 0, 1],
      G1.in_bounds (x + i) (y + j) → G1.get_tile (x + i) (y + j) = G2.get_tile (x + i) (y + j)) :
    ∃ D1' D2', D1.update_tile G1 x y r = some D1' ∧ D2.update_tile G2 x y r = some D2' ∧
      D1'.get_tile x y = D2'.get_tile x y := by
  have hb2 : G2.in_bounds x y := by
    unfold Grid.in_bounds at hb ⊢
    rw [hw, hh]; exact hb
  obtain ⟨D1', h1, -, hw1', -, hrd1⟩ := Grid.update_tile_spec G1 D1 x y r hG1 hD1 hw1 hh1 hb
  obtain ⟨D2', h2, -, hw2', -, hrd2⟩ :=
    Grid.update_tile_spec G2 D2 x y r hG2 hD2 (hw2.trans hw.symm) (hh2.trans hh.symm) hb2
  refine ⟨D1', D2', h1, h2, ?_⟩
  rw [Grid.get_set_tile D1 D1' x y _ hw1' hrd1, Grid.get_set_tile D2 D2' x y _ hw2' hrd2]
  have hbounds : ∀ u v, G2.in_bounds u v ↔ G1.in_bounds u v := by
    intro u v
    unfold Grid.in_bounds
    rw [hw, hh]
  have halive : G1.alive x y = G2.alive x y := by
    have h0 := hagree 0 (by decide) 0 (by decide)
    simp only [add_zero] at h0
    unfold Grid.alive
    rw [h0 hb]
  have hcount : G1.live_neighbours x y = G2.live_neighbours x y := by
    unfold Grid.live_neighbours
    apply List.countP_congr
    intro d hd
    obtain ⟨hd1, hd2⟩ := moore_offsets d hd
    by_cases hin : G1.in_bounds (x + d.1) (y + d.2)
    · have hin2 := (hbounds _ _).2 hin
      simp [hin, hin2, Grid.alive, hagree d.1 hd1 d.2 hd2 hin]
    · have hin2 : ¬ G2.in_bounds (x + d.1) (y + d.2) := fun h => hin ((hbounds _ _).1 h)
      simp [hin, hin2]
  rw [halive, hcount]

/-- Witness of C3: the horizontal blinker and the same grid with the far corner (4,4)
alive agree around (2,1). -/
theorem update_tile_local_witness :
    ∃ D1' D2', dead_grid.update_tile horizontal_blinker 2 1 6152 = some D1' ∧
      vertical_blinker.update_tile
        { horizontal_blinker with buffer := horizontal_blinker.buffer.set 28 true } 2 1 6152
        = some D2' ∧
      D1'.get_tile 2 1 = D2'.get_tile 2 1 :=
  update_tile_local horizontal_blinker
    { horizontal_blinker with buffer := horizontal_blinker.buffer.set 28 true }
    dead_grid vertical_blinker 2 1 6152 (by decide) (by decide) (by decide) (by decide)
    (by decide) (by decide) (by decide) (by decide) (by decide) (by decide) (by decide)
    (by decide)

/-! ## Memory safety and frame of `update_tile` -/

theorem Grid.read_none_iff (g : Grid) (i : Int) :
    g.read i = none ↔ ¬ (0 ≤ i ∧ i < g.buffer.length) := by
  unfold Grid.read
  by_cases h : i < 0
  · simp only [h, if_true, true_iff]; omega
  · simp only [h, if_false, List.getElem?_eq_none_iff]; omega

theorem Grid.write_none_iff (g : Grid) (i : Int) (v : Bool) :
    g.write i v = none ↔ ¬ (0 ≤ i ∧ i < g.buffer.length) := by
  unfold Grid.write
  split_ifs with h1 h2
  · simp only [true_iff]; omega
  · simp only [reduceCtorEq, false_iff]; omega
  · simp only [true_iff]; omega

/-- C4: `update_tile` stays inside the buffers. For a source and a destination of the same
dimensions and an in-bounds `(x, y)`, corners and edges included (a grid with an in-bounds
cell has width and height at least 1): the call returns, where a read or write outside a buffer is the only way it cannot;
every index it reads in the source and the index it writes in the destination is at least
0 and below `(W+1)*H`, the size of the buffer; and `exists(x', y')` holds exactly when
`0 ≤ x' < W` and `0 ≤ y' < H`. -/
theorem update_tile_in_buffer (G D : Grid) (x y r : Int) (hG : G.WF) (hD : D.WF)
    (hw : D.width = G.width) (hh : D.height = G.height)
    (hb : G.in_bounds x y) :
    (D.update_tile G x y r).isSome = true ∧
    (∀ (g : Grid) (i : Int), g.read i = none ↔ ¬ (0 ≤ i ∧ i < g.buffer.length)) ∧
    (∀ (g : Grid) (i : Int) (v : Bool), g.write i v = none ↔ ¬ (0 ≤ i ∧ i < g.buffer.length)) ∧
    (G.buffer.length : Int) = (G.width + 1) * G.height ∧
    (D.buffer.length : Int) = (G.width + 1) * G.height ∧
    (∀ idx ∈ G.update_tile_reads x y, 0 ≤ idx ∧ idx < (G.width + 1) * G.height) ∧
    (0 ≤ D.update_tile_write x y ∧ D.update_tile_write x y < (G.width + 1) * G.height) ∧
    (∀ x' y', G.exists x' y' = true ↔ (0 ≤ x' ∧ x' < G.width ∧ 0 ≤ y' ∧ y' < G.height)) := by
  obtain ⟨D', h1, -⟩ := Grid.update_tile_spec G D x y r hG hD hw hh hb
  have hrange : ∀ u v, G.in_bounds u v →
      0 ≤ (G.width + 1) * v + u ∧ (G.width + 1) * v + u < (G.width + 1) * G.height := by
    intro u v huv
    exact index_range G.width G.height u v huv.1 (le_of_lt huv.2.1) huv.2.2.1 huv.2.2.2
  refine ⟨by rw [h1]; rfl, Grid.read_none_iff, Grid.write_none_iff, hG.2.2, ?_, ?_, ?_, ?_⟩
  · rw [hD.2.2, hw, hh]
  · intro idx hidx
    unfold Grid.update_tile_reads at hidx
    rcases List.mem_cons.1 hidx with h | h
    · rw [h]; exact hrange x y hb
    · obtain ⟨i, -, hi⟩ := List.mem_flatMap.1 h
      obtain ⟨j, -, hj⟩ := List.mem_flatMap.1 hi
      split_ifs at hj with c1 c2
      · simp at hj
      · simp at hj
      · rw [List.mem_singleton.1 hj]
        have he : G.exists (x + i) (y + j) = true := by simpa using c2
        exact hrange _ _ ((G.exists_iff _ _).1 he)
  · unfold Grid.update_tile_write
    rw [hw]; exact hrange x y hb
  · intro x' y'
    exact G.exists_iff x' y'

/-- Witness of C4: the corner (0,0) of the horizontal blinker. -/
theorem update_tile_in_buffer_witness :
    (dead_grid.update_tile horizontal_blinker 0 0 6152).isSome = true ∧
    (∀ (g : Grid) (i : Int), g.read i = none ↔ ¬ (0 ≤ i ∧ i < g.buffer.length)) ∧
    (∀ (g : Grid) (i : Int) (v : Bool), g.write i v = none ↔ ¬ (0 ≤ i ∧ i < g.buffer.length)) ∧
    (horizontal_blinker.buffer.length : Int)
      = (horizontal_blinker.width + 1) * horizontal_blinker.height ∧
    (dead_grid.buffer.length : Int)
      = (horizontal_blinker.width + 1) * horizontal_blinker.height ∧
    (∀ idx ∈ horizontal_blinker.update_tile_reads 0 0,
      0 ≤ idx ∧ idx < (horizontal_blinker.width + 1) * horizontal_blinker.height) ∧
    (0 ≤ dead_grid.update_tile_write 0 0 ∧
      dead_grid.update_tile_write 0 0
        < (horizontal_blinker.width + 1) * horizontal_blinker.height) ∧
    (∀ x' y', horizontal_blinker.exists x' y' = true ↔
      (0 ≤ x' ∧ x' < horizontal_blinker.width ∧ 0 ≤ y' ∧ y' < horizontal_blinker.height)) :=
  update_tile_in_buffer horizontal_blinker dead_grid 0 0 6152 (by decide) (by decide)
    (by decide) (by decide) (by decide)

/-! ## The two grid objects of the program state -/

@[simp]
theorem ProgramState.deref_store_self (s : ProgramState) (p : GridPtr) (g : Grid) :
    (s.store p g).deref p = g := by
  cases p <;> rfl

theorem ProgramState.deref_store_ne (s : ProgramState) (p q : GridPtr) (g : Grid) (h : q ≠ p) :
    (s.store p g).deref q = s.deref q := by
  cases p <;> cases q <;> first | rfl | exact absurd rfl h

@[simp]
theorem ProgramState.store_store (s : ProgramState) (p : GridPtr) (g g' : Grid) :
    (s.store p g).store p g' = s.store p g' := by
  cases p <;> rfl

@[simp]
theorem ProgramState.store_prev (s : ProgramState) (p : GridPtr) (g : Grid) :
    (s.store p g).prev = s.prev := by
  cases p <;> rfl

@[simp]
theorem ProgramState.store_next (s : ProgramState) (p : GridPtr) (g : Grid) :
    (s.store p g).next = s.next := by
  cases p <;> rfl

@[simp]
theorem ProgramState.store_rule (s : ProgramState) (p : GridPtr) (g : Grid) :
    (s.store p g).rule = s.rule := by
  cases p <;> rfl

theorem ProgramState.store_deref (s : ProgramState) (p : GridPtr) : s.store p (s.deref p) = s := by
  cases p <;> rfl

/-- One call of the row threads: it returns, and the state afterwards is the state before
with the grid `next` points to replaced by one that differs at the index of `(x, y)`
only. -/
theorem ProgramState.update_cell_spec (s : ProgramState) (x y : Int) (hs : s.WF)
    (hb : (s.deref s.prev).in_bounds x y) :
    ∃ D', s.update_cell x y = some (s.store s.next D') ∧ D'.WF ∧
      D'.width = (s.deref s.next).width ∧ D'.height = (s.deref s.next).height ∧
      ∀ j, D'.read j = if j = ((s.deref s.prev).width + 1) * y + x
        then some ((s.deref s.prev).rule_result s.rule x y) else (s.deref s.next).read j := by
  obtain ⟨hne, hG, hD, hw, hh⟩ := hs
  obtain ⟨D', h1, h2, h3, h4, h5⟩ :=
    Grid.update_tile_spec (s.deref s.prev) (s.deref s.next) x y s.rule hG hD hw hh hb
  refine ⟨D', ?_, h2, h3, h4, ?_⟩
  · unfold ProgramState.update_cell
    rw [h1]
  · intro j
    rw [h5 j, hw]
    rfl

/-- C7: `update_tile` writes exactly one cell. With the destination `*next` and the source
`*prev` two different grids of the same dimensions and `(x, y)` in bounds, the call
`next->update_tile(*prev, x, y, rule)` returns and afterwards the source grid is what it
was (every cell, width and height), the destination has the width and height it had, and
every cell of the destination other than `(x, y)` holds what it held; the pointers and the
rule are untouched. -/
theorem update_tile_frame (s : ProgramState) (x y : Int) (hs : s.WF)
    (hb : (s.deref s.prev).in_bounds x y) :
    ∃ s', s.update_cell x y = some s' ∧
      s'.deref s.prev = s.deref s.prev ∧
      (s'.deref s.next).width = (s.deref s.next).width ∧
      (s'.deref s.next).height = (s.deref s.next).height ∧
      (∀ x' y', (s.deref s.next).in_bounds x' y' → ¬ (x' = x ∧ y' = y) →
        (s'.deref s.next).get_tile x' y' = (s.deref s.next).get_tile x' y') ∧
      s'.prev = s.prev ∧ s'.next = s.next ∧ s'.rule = s.rule := by
  obtain ⟨D', h1, -, h3, h4, h5⟩ := s.update_cell_spec x y hs hb
  obtain ⟨hne, hG, hD, hw, hh⟩ := hs
  refine ⟨_, h1, s.deref_store_ne _ _ _ hne, ?_, ?_, ?_, by simp, by simp, by simp⟩
  · rw [s.deref_store_self]; exact h3
  · rw [s.deref_store_self]; exact h4
  · intro x' y' hb' hne'
    rw [s.deref_store_self]
    rw [← hw] at h5
    have hx : 0 ≤ x ∧ x ≤ (s.deref s.next).width := by
      rw [hw]; exact ⟨hb.1, le_of_lt hb.2.1⟩
    exact Grid.get_set_tile_ne (s.deref s.next) D' x y x' y' _ h3 h5 hx
      ⟨hb'.1, le_of_lt hb'.2.1⟩ hne'

/-- Witness of C7: the cell (2,1) of a dead grid computed from the horizontal blinker. -/
theorem update_tile_frame_witness :
    ∃ s', (ProgramState.init horizontal_blinker dead_grid).update_cell 2 1 = some s' ∧
      s'.deref .grid_a = horizontal_blinker ∧
      (s'.deref .grid_b).width = dead_grid.width ∧
      (s'.deref .grid_b).height = dead_grid.height ∧
      (∀ x' y', dead_grid.in_bounds x' y' → ¬ (x' = 2 ∧ y' = 1) →
        (s'.deref .grid_b).get_tile x' y' = dead_grid.get_tile x' y') ∧
      s'.prev = .grid_a ∧ s'.next = .grid_b ∧ s'.rule = 6152 :=
  update_tile_frame (ProgramState.init horizontal_blinker dead_grid) 2 1 (by decide) (by decide)

/-! ## One generation -/

theorem mem_int_range (n k : Int) : k ∈ int_range n ↔ 0 ≤ k ∧ k < n := by
  unfold int_range
  simp only [List.mem_map, List.mem_range]
  constructor
  · rintro ⟨a, ha, rfl⟩
    omega
  · rintro ⟨h0, h1⟩
    exact ⟨k.toNat, by omega, by omega⟩

theorem mem_cells_of_rows (W H : Int) (c : Int × Int) :
    c ∈ cells_of_rows W (int_range H) ↔ (0 ≤ c.1 ∧ c.1 < W) ∧ (0 ≤ c.2 ∧ c.2 < H) := by
  unfold cells_of_rows
  simp only [List.mem_flatMap, List.mem_map, mem_int_range]
  constructor
  · rintro ⟨y, hy, x, hx, rfl⟩
    exact ⟨hx, hy⟩
  · rintro ⟨hx, hy⟩
    exact ⟨c.2, hy, c.1, hx, rfl⟩

theorem Grid.ext_read (g1 g2 : Grid) (hw : g1.width = g2.width) (hh : g1.height = g2.height)
    (hr : ∀ j, g1.read j = g2.read j) : g1 = g2 := by
  obtain ⟨h1, w1, b1⟩ := g1
  obtain ⟨h2, w2, b2⟩ := g2
  simp only at hw hh
  subst hw hh
  have : b1 = b2 := by
    apply List.ext_getElem?
    intro n
    have h := hr (n : Int)
    simpa [Grid.read] using h
  rw [this]

theorem index_decode (W x y : Int) (hx : 0 ≤ x) (hxW : x ≤ W) :
    ((W + 1) * y + x) % (W + 1) = x ∧ ((W + 1) * y + x) / (W + 1) = y := by
  have hpos : 0 < W + 1 := by omega
  constructor
  · rw [add_comm, Int.add_mul_emod_self_left]
    exact Int.emod_eq_of_lt hx (by omega)
  · rw [add_comm, Int.add_mul_ediv_left _ _ (ne_of_gt hpos), Int.ediv_eq_zero_of_lt hx (by omega)]
    simp

theorem ProgramState.run_rows_eq_run_cells (s : ProgramState) (x_limit : Int) (rows : List Int) :
    s.run_rows x_limit rows = s.run_cells (cells_of_rows x_limit rows) := by
  induction rows generalizing s with
  | nil => rfl
  | cons y ys ih =>
    unfold ProgramState.run_rows ProgramState.run_cells cells_of_rows
    rw [List.foldlM_cons, List.flatMap_cons, List.foldlM_append, List.foldlM_map]
    have hrow : s.row_task x_limit y
        = List.foldlM (fun s x => s.update_cell x y) s (int_range x_limit) := rfl
    rw [hrow]
    cases List.foldlM (fun s x => s.update_cell x y) s (int_range x_limit) with
    | none => rfl
    | some s1 => exact ih s1

/-- The state after a list of cell updates, all in bounds: the grid `next` points to holds
the rule result of the source at the index of every cell of the list, and what it held
before at every other index. -/
theorem ProgramState.run_cells_spec (cells : List (Int × Int)) (s : ProgramState) (hs : s.WF)
    (hc : ∀ c ∈ cells, (s.deref s.prev).in_bounds c.1 c.2) :
    ∃ D', s.run_cells cells = some (s.store s.next D') ∧ D'.WF ∧
      D'.width = (s.deref s.next).width ∧ D'.height = (s.deref s.next).height ∧
      ∀ j, D'.read j =
        if j ∈ cells.map (fun c => ((s.deref s.prev).width + 1) * c.2 + c.1)
        then some ((s.deref s.prev).rule_result s.rule
          (j % ((s.deref s.prev).width + 1)) (j / ((s.deref s.prev).width + 1)))
        else (s.deref s.next).read j := by
  induction cells generalizing s with
  | nil =>
    refine ⟨s.deref s.next, ?_, hs.2.2.1, rfl, rfl, ?_⟩
    · rw [s.store_deref]; rfl
    · intro j; simp
  | cons c cs ih =>
    have hcb := hc c (List.mem_cons_self _ _)
    obtain ⟨D1, h1, hD1, hw1, hh1, hrd1⟩ := s.update_cell_spec c.1 c.2 hs hcb
    obtain ⟨hne, hG, hD, hw, hh⟩ := hs
    have hprev : (s.store s.next D1).deref s.prev = s.deref s.prev :=
      s.deref_store_ne _ _ _ hne
    have hs1 : (s.store s.next D1).WF := by
      unfold ProgramState.WF
      simp only [ProgramState.store_prev, ProgramState.store_next,
        ProgramState.deref_store_self, hprev]
      exact ⟨hne, hG, hD1, hw1.trans hw, hh1.trans hh⟩
    obtain ⟨D', h2, hD', hw2, hh2, hrd2⟩ := ih (s.store s.next D1) hs1 (by
      intro c' hc'
      rw [ProgramState.store_prev, hprev]
      exact hc c' (List.mem_cons_of_mem _ hc'))
    simp only [ProgramState.store_prev, ProgramState.store_next, ProgramState.store_rule,
      ProgramState.deref_store_self, ProgramState.store_store, hprev] at h2 hw2 hh2 hrd2
    refine ⟨D', ?_, hD', hw2.trans hw1, hh2.trans hh1, ?_⟩
    · unfold ProgramState.run_cells
      rw [List.foldlM_cons, h1]
      exact h2
    · intro j
      rw [hrd2 j, hrd1 j]
      have hdec := index_decode (s.deref s.prev).width c.1 c.2 hcb.1 (le_of_lt hcb.2.1)
      by_cases hj : j = ((s.deref s.prev).width + 1) * c.2 + c.1
      · subst hj
        simp only [List.map_cons, List.mem_cons, true_or, if_true, hdec.1, hdec.2, ite_self]
      · simp only [List.map_cons, List.mem_cons, hj, false_or, if_false]

theorem ProgramState.run_cells_perm (s : ProgramState) (hs : s.WF) (cells1 cells2 : List (Int × Int))
    (hp : cells1.Perm cells2)
    (hc : ∀ c ∈ cells2, (s.deref s.prev).in_bounds c.1 c.2) :
    s.run_cells cells1 = s.run_cells cells2 := by
  have hc1 : ∀ c ∈ cells1, (s.deref s.prev).in_bounds c.1 c.2 :=
    fun c h => hc c (hp.mem_iff.1 h)
  obtain ⟨D1, h1, -, hw1, hh1, hrd1⟩ := ProgramState.run_cells_spec cells1 s hs hc1
  obtain ⟨D2, h2, -, hw2, hh2, hrd2⟩ := ProgramState.run_cells_spec cells2 s hs hc
  have hD : D1 = D2 := by
    apply Grid.ext_read D1 D2 (hw1.trans hw2.symm) (hh1.trans hh2.symm)
    intro j
    rw [hrd1 j, hrd2 j]
    have hmem := (hp.map (fun c => ((s.deref s.prev).width + 1) * c.2 + c.1)).mem_iff (a := j)
    by_cases hj : j ∈ cells2.map (fun c => ((s.deref s.prev).width + 1) * c.2 + c.1)
    · rw [if_pos hj, if_pos (hmem.2 hj)]
    · rw [if_neg hj, if_neg (fun h => hj (hmem.1 h))]
  rw [h1, h2, hD]

theorem ProgramState.cells_in_bounds (s : ProgramState) :
    ∀ c ∈ cells_of_rows (s.deref s.prev).get_width (int_range (s.deref s.prev).get_height),
      (s.deref s.prev).in_bounds c.1 c.2 := by
  intro c hc
  obtain ⟨hx, hy⟩ := (mem_cells_of_rows _ _ c).1 hc
  exact ⟨hx.1, hx.2, hy.1, hy.2⟩

/-- C5: one generation does not depend on the order of the cell updates. With `*prev` and
`*next` two different grids of the same dimensions, the sequential row-major run of the row
tasks returns, and it yields the same state, hence the same destination grid, as the cell
updates taken in any order (any permutation of the W*H calls, which is what a schedule
of the row threads amounts to when each call is one step) and as the row tasks taken in
any permutation of the rows. -/
theorem generation_order_independent (s : ProgramState) (hs : s.WF)
    (cells : List (Int × Int)) (rows : List Int)
    (hcells : cells.Perm
      (cells_of_rows (s.deref s.prev).get_width (int_range (s.deref s.prev).get_height)))
    (hrows : rows.Perm (int_range (s.deref s.prev).get_height)) :
    (∃ s', s.run_rows (s.deref s.prev).get_width (int_range (s.deref s.prev).get_height)
      = some s') ∧
    s.run_cells cells
      = s.run_rows (s.deref s.prev).get_width (int_range (s.deref s.prev).get_height) ∧
    s.run_rows (s.deref s.prev).get_width rows
      = s.run_rows (s.deref s.prev).get_width (int_range (s.deref s.prev).get_height) := by
  refine ⟨?_, ?_, ?_⟩
  · obtain ⟨D', h1, -⟩ := ProgramState.run_cells_spec _ s hs s.cells_in_bounds
    exact ⟨_, (s.run_rows_eq_run_cells _ _).trans h1⟩
  · rw [s.run_rows_eq_run_cells]
    exact s.run_cells_perm hs _ _ hcells s.cells_in_bounds
  · rw [s.run_rows_eq_run_cells, s.run_rows_eq_run_cells]
    apply s.run_cells_perm hs _ _ _ s.cells_in_bounds
    unfold cells_of_rows
    exact hrows.flatMap_right _

theorem ProgramState.swap_deref (s : ProgramState) (p : GridPtr) : s.swap.deref p = s.deref p := by
  cases p <;> rfl

theorem ProgramState.swap_prev (s : ProgramState) : s.swap.prev = s.next := rfl

theorem ProgramState.swap_next (s : ProgramState) : s.swap.next = s.prev := rfl

/-- The row tasks of one generation, run row after row: they return, and the grid they
leave behind `next` has the dimensions it had and holds at every in-bounds cell the rule
result computed from the grid behind `prev`. -/
theorem ProgramState.generation_spec (s : ProgramState) (hs : s.WF) :
    ∃ D', s.run_rows (s.deref s.prev).get_width (int_range (s.deref s.prev).get_height)
        = some (s.store s.next D') ∧
      D'.width = (s.deref s.next).width ∧ D'.height = (s.deref s.next).height ∧
      ∀ x y, (s.deref s.prev).in_bounds x y →
        D'.get_tile x y = some ((s.deref s.prev).rule_result s.rule x y) := by
  obtain ⟨D', h1, -, hw1, hh1, hrd⟩ := ProgramState.run_cells_spec _ s hs s.cells_in_bounds
  have hrun := (s.run_rows_eq_run_cells (s.deref s.prev).get_width
    (int_range (s.deref s.prev).get_height)).trans h1
  obtain ⟨hne, hG, hD, hw, hh⟩ := hs
  refine ⟨D', hrun, hw1, hh1, fun x y hb => ?_⟩
  unfold Grid.get_tile
  rw [hrd, hw1, hw]
  have hmem : ((s.deref s.prev).width + 1) * y + x ∈ List.map
      (fun c => ((s.deref s.prev).width + 1) * c.2 + c.1)
      (cells_of_rows (s.deref s.prev).get_width (int_range (s.deref s.prev).get_height)) :=
    List.mem_map.2 ⟨(x, y), (mem_cells_of_rows _ _ _).2 ⟨⟨hb.1, hb.2.1⟩, hb.2.2⟩, rfl⟩
  have hdec := index_decode (s.deref s.prev).width x y hb.1 (le_of_lt hb.2.1)
  rw [if_pos hmem, hdec.1, hdec.2]

/-- Witness of C5: the four cell updates of a 2x2 grid in another order, and its two rows
swapped. -/
theorem generation_order_independent_witness :
    (∃ s', (ProgramState.init small_grid small_scratch).run_rows 2 (int_range 2) = some s') ∧
    (ProgramState.init small_grid small_scratch).run_cells [(1, 1), (0, 0), (1, 0), (0, 1)]
      = (ProgramState.init small_grid small_scratch).run_rows 2 (int_range 2) ∧
    (ProgramState.init small_grid small_scratch).run_rows 2 [1, 0]
      = (ProgramState.init small_grid small_scratch).run_rows 2 (int_range 2) :=
  generation_order_independent (ProgramState.init small_grid small_scratch) (by decide)
    [(1, 1), (0, 0), (1, 0), (0, 1)] [1, 0] (by decide) (by decide)

/-- C6: one iteration of the simulation loop publishes a complete generation. With the
current grid `C = *prev` and the scratch grid `S = *next` two different grids of the same
dimensions, `S` with any contents, the iteration returns and afterwards `prev` points to
the former scratch grid, which holds at every in-bounds cell the rule result computed from
`C` at that cell and has the width and height it had; `next` points to `C`, which is
what it was. -/
theorem update_iteration_publishes (s : ProgramState) (hs : s.WF) :
    ∃ s', s.update_iteration = some s' ∧ s'.prev = s.next ∧ s'.next = s.prev ∧
      (∀ x y, (s.deref s.prev).in_bounds x y →
        (s'.deref s'.prev).get_tile x y = some ((s.deref s.prev).rule_result s.rule x y)) ∧
      s'.deref s'.next = s.deref s.prev ∧
      (s'.deref s'.prev).width = (s.deref s.next).width ∧
      (s'.deref s'.prev).height = (s.deref s.next).height ∧
      s'.rule = s.rule := by
  obtain ⟨D', hrun, hw1, hh1, hcells⟩ := s.generation_spec hs
  have hcur : (s.store s.next D').swap.deref (s.store s.next D').swap.prev = D' := by
    rw [ProgramState.swap_deref, ProgramState.swap_prev, ProgramState.store_next,
      ProgramState.deref_store_self]
  refine ⟨(s.store s.next D').swap, ?_, ?_, ?_, ?_, ?_, ?_, ?_, ?_⟩
  · unfold ProgramState.update_iteration
    simp only [hrun]
  · rw [ProgramState.swap_prev, ProgramState.store_next]
  · rw [ProgramState.swap_next, ProgramState.store_prev]
  · intro x y hb
    rw [hcur]
    exact hcells x y hb
  · rw [ProgramState.swap_deref, ProgramState.swap_next, ProgramState.store_prev]
    exact s.deref_store_ne _ _ _ hs.1
  · rw [hcur]; exact hw1
  · rw [hcur]; exact hh1
  · cases hn : s.next <;> rfl

/-- Witness of C6: one iteration from the horizontal blinker. -/
theorem update_iteration_publishes_witness :
    ∃ s', (ProgramState.init horizontal_blinker dead_grid).update_iteration = some s' ∧
      s'.prev = .grid_b ∧ s'.next = .grid_a ∧
      (∀ x y, horizontal_blinker.in_bounds x y →
        (s'.deref s'.prev).get_tile x y = some (horizontal_blinker.rule_result 6152 x y)) ∧
      s'.deref s'.next = horizontal_blinker ∧
      (s'.deref s'.prev).width = dead_grid.width ∧
      (s'.deref s'.prev).height = dead_grid.height ∧
      s'.rule = 6152 :=
  update_iteration_publishes (ProgramState.init horizontal_blinker dead_grid) (by decide)

/-! ## Construction -/

theorem Grid.Writes.refl (g : Grid) (f : Int → Bool) : g.Writes g f [] :=
  ⟨rfl, rfl, rfl, fun j => by simp⟩

theorem Grid.Writes.trans {g g1 g2 : Grid} {f : Int → Bool} {S1 S2 : List Int}
    (h1 : g.Writes g1 f S1) (h2 : g1.Writes g2 f S2) : g.Writes g2 f (S1 ++ S2) := by
  obtain ⟨a1, b1, c1, d1⟩ := h1
  obtain ⟨a2, b2, c2, d2⟩ := h2
  refine ⟨a2.trans a1, b2.trans b1, c2.trans c1, fun j => ?_⟩
  rw [d2 j, d1 j]
  by_cases hj2 : j ∈ S2
  · simp [hj2]
  · by_cases hj1 : j ∈ S1 <;> simp [hj1, hj2]

theorem Grid.write_writes (g : Grid) (f : Int → Bool) (i : Int) (h0 : 0 ≤ i)
    (h1 : i < g.buffer.length) : ∃ g', g.write i (f i) = some g' ∧ g.Writes g' f [i] := by
  obtain ⟨g', hg'⟩ := g.write_some i (f i) h0 h1
  obtain ⟨d1, d2, d3⟩ := g.write_dims g' i (f i) hg'
  refine ⟨g', hg', d1, d2, d3, fun j => ?_⟩
  rw [g.read_write g' i (f i) hg' j]
  by_cases hj : j = i
  · subst hj; simp
  · simp [hj]

/-- A loop whose every iteration writes some indices writes the indices of all its
iterations. -/
theorem Grid.foldlM_writes {α : Type} (f : Int → Bool) (idxs : α → List Int)
    (step : Grid → α → Option Grid) (l : List α) (g0 g : Grid)
    (hw : g.width = g0.width) (hh : g.height = g0.height)
    (hl : g.buffer.length = g0.buffer.length)
    (hstep : ∀ (g : Grid) (a : α), a ∈ l → g.width = g0.width → g.height = g0.height →
      g.buffer.length = g0.buffer.length → ∃ g', step g a = some g' ∧ g.Writes g' f (idxs a)) :
    ∃ g', l.foldlM step g = some g' ∧ g.Writes g' f (l.flatMap idxs) := by
  induction l generalizing g with
  | nil => exact ⟨g, rfl, Grid.Writes.refl g f⟩
  | cons a as ih =>
    obtain ⟨g1, h1, w1⟩ := hstep g a (List.mem_cons_self _ _) hw hh hl
    obtain ⟨g2, h2, w2⟩ := ih g1 (w1.1.trans hw) (w1.2.1.trans hh) (w1.2.2.1.trans hl)
      (fun g b hb => hstep g b (List.mem_cons_of_mem _ hb))
    refine ⟨g2, ?_, ?_⟩
    · rw [List.foldlM_cons, h1]; exact h2
    · rw [List.flatMap_cons]; exact w1.trans w2

theorem Grid.Writes.congr {g g' : Grid} {f : Int → Bool} {S S' : List Int}
    (h : g.Writes g' f S) (hS : ∀ j, j ∈ S ↔ j ∈ S') : g.Writes g' f S' := by
  obtain ⟨a, b, c, d⟩ := h
  refine ⟨a, b, c, fun j => ?_⟩
  rw [d j]
  by_cases hj : j ∈ S
  · rw [if_pos hj, if_pos ((hS j).1 hj)]
  · rw [if_neg hj, if_neg (fun h' => hj ((hS j).2 h'))]

/-- The loop `for(x=0; x<width; x++) set_tile(x, y, val x)` over one row writes the cells
of the row. -/
theorem Grid.set_row_writes (g : Grid) (hg : g.WF) (y : Int) (hy0 : 0 ≤ y) (hy1 : y < g.height)
    (val : Int → Bool) (f : Int → Bool)
    (hval : ∀ x, 0 ≤ x → x < g.width → val x = f ((g.width + 1) * y + x)) :
    ∃ g', (int_range g.width).foldlM (fun g x => g.set_tile x y (val x)) g = some g' ∧
      g.Writes g' f ((int_range g.width).flatMap (fun x => [(g.width + 1) * y + x])) := by
  apply Grid.foldlM_writes f (fun x => [(g.width + 1) * y + x])
    (fun g x => g.set_tile x y (val x)) (int_range g.width) g g rfl rfl rfl
  intro g1 x hx hw1 hh1 hl1
  obtain ⟨hx0, hx1⟩ := (mem_int_range _ _).1 hx
  have hr := index_range g.width g.height x y hx0 (le_of_lt hx1) hy0 hy1
  have hlen : ((g1.buffer.length : Nat) : Int) = (g.width + 1) * g.height := by
    rw [hl1]; exact hg.2.2
  unfold Grid.set_tile
  simp only [hw1, hval x hx0 hx1]
  exact g1.write_writes f _ hr.1 (by omega)

theorem mem_row_cells (W y j : Int) :
    j ∈ (int_range W).flatMap (fun x => [(W + 1) * y + x])
      ↔ ∃ x, 0 ≤ x ∧ x < W ∧ j = (W + 1) * y + x := by
  simp only [List.mem_flatMap, List.mem_singleton, mem_int_range]
  constructor
  · rintro ⟨x, ⟨h0, h1⟩, rfl⟩
    exact ⟨x, h0, h1, rfl⟩
  · rintro ⟨x, h0, h1, rfl⟩
    exact ⟨x, ⟨h0, h1⟩, rfl⟩

theorem to_int_eq (n : Nat) (h : (n : Int) ≤ INT_MAX) : to_int n = (n : Int) := by
  unfold to_int
  unfold INT_MAX at h
  omega

theorem length_le_max_line_length (lines : List Line) :
    ∀ l ∈ lines, l.length ≤ max_line_length lines := by
  induction lines with
  | nil =>
    intro l hl
    cases hl
  | cons l0 ls ih =>
    intro l hl
    have hm : max_line_length (l0 :: ls) = max l0.length (max_line_length ls) := rfl
    rw [hm]
    rcases List.mem_cons.1 hl with rfl | h
    · exact le_max_left _ _
    · exact le_trans (ih l h) (le_max_right _ _)

/-- The second loop body of `Grid::Grid(std::string)` writes the whole row `y`, the cell
behind its last column included. -/
theorem Grid.init_row_writes (g : Grid) (hg : g.WF) (line : Line)
    (hline : (line.length : Int) ≤ INT_MAX) (y : Int) (hy0 : 0 ≤ y)
    (hy1 : y < g.height) (f : Int → Bool)
    (hcell : ∀ x, 0 ≤ x → x < g.width → f ((g.width + 1) * y + x)
      = (if x < (line.length : Int) then line.getD x.toNat ' ' != ' ' else false))
    (hend : f ((g.width + 1) * y + g.width) = true) :
    ∃ g' S, g.init_row line y = some g' ∧ g.Writes g' f S ∧
      ∀ j, j ∈ S ↔ ∃ x, 0 ≤ x ∧ x ≤ g.width ∧ j = (g.width + 1) * y + x := by
  obtain ⟨g1, h1, w1⟩ := g.set_row_writes hg y hy0 hy1
    (fun x => if x < (line.length : Int) then line.getD x.toNat ' ' != ' ' else false) f
    (fun x h0 h1 => (hcell x h0 h1).symm)
  have hr := index_range g.width g.height g.width y hg.1 le_rfl hy0 hy1
  have hlen : ((g1.buffer.length : Nat) : Int) = (g.width + 1) * g.height := by
    rw [w1.2.2.1]; exact hg.2.2
  obtain ⟨g2, h2, w2⟩ := g1.write_writes f ((g.width + 1) * y + g.width) hr.1 (by omega)
  refine ⟨g2, _, ?_, w1.trans w2, ?_⟩
  · unfold Grid.init_row
    simp only [to_int_eq _ hline, h1, w1.1]
    rw [← hend]; exact h2
  · intro j
    rw [List.mem_append, mem_row_cells, List.mem_singleton]
    constructor
    · rintro (⟨x, h0, h1, rfl⟩ | rfl)
      · exact ⟨x, h0, le_of_lt h1, rfl⟩
      · exact ⟨g.width, hg.1, le_rfl, rfl⟩
    · rintro ⟨x, h0, h1, rfl⟩
      rcases lt_or_eq_of_le h1 with h | h
      · exact Or.inl ⟨x, h0, h, rfl⟩
      · right; rw [h]

theorem Grid.Writes.wf {g g' : Grid} {f : Int → Bool} {S : List Int} (h : g.Writes g' f S)
    (hg : g.WF) : g'.WF := by
  obtain ⟨a, b, c, -⟩ := h
  unfold Grid.WF
  rw [a, b, c]
  exact hg

theorem measure_lines_aux (lines : List Line) (w0 h0 : Int) (hw0 : 0 ≤ w0)
    (hlen : ∀ l ∈ lines, (l.length : Int) ≤ INT_MAX) (hh : h0 + lines.length ≤ INT_MAX) :
    lines.foldlM
      (fun wh line =>
        let line_size : Int := to_int line.length
        let width : Int := if wh.1 > line_size then wh.1 else to_int line.length
        if wh.2 + 1 ≤ INT_MAX then some (width, wh.2 + 1) else none)
      (w0, h0) = some (max w0 (max_line_length lines), h0 + lines.length) := by
  induction lines generalizing w0 h0 with
  | nil =>
    simp only [List.foldlM_nil, max_line_length, List.map_nil, List.foldr_nil, List.length_nil]
    refine congrArg some (Prod.ext ?_ ?_)
    · simp only [Nat.cast_zero]; omega
    · simp
  | cons l ls ih =>
    have hl := to_int_eq l.length (hlen l (List.mem_cons_self _ _))
    simp only [List.length_cons, Nat.cast_add, Nat.cast_one] at hh
    have hls0 : (0 : Int) ≤ ls.length := Int.natCast_nonneg _
    rw [List.foldlM_cons]
    simp only [hl]
    rw [if_pos (by omega)]
    simp only [Option.some_bind, Option.bind_eq_bind]
    rw [ih _ _ (by split_ifs <;> omega) (fun l' h' => hlen l' (List.mem_cons_of_mem _ h'))
      (by omega)]
    have hm : max_line_length (l :: ls) = max l.length (max_line_length ls) := rfl
    rw [hm]
    simp only [List.length_cons]
    push_cast
    refine congrArg some (Prod.ext ?_ ?_)
    · simp only
      split_ifs with h <;> omega
    · simp only
      ring

/-- Within the range of `int` the first loop counts the lines and finds the longest. -/
theorem measure_lines_eq (lines : List Line)
    (hfit : ((max_line_length lines : Int) + 1) * lines.length ≤ INT_MAX) :
    measure_lines lines = some ((max_line_length lines : Int), (lines.length : Int)) := by
  have hW0 : (0 : Int) ≤ max_line_length lines := Int.natCast_nonneg _
  have hH0 : (0 : Int) ≤ lines.length := Int.natCast_nonneg _
  have hH : (lines.length : Int) ≤ INT_MAX := by nlinarith
  have hlen : ∀ l ∈ lines, (l.length : Int) ≤ INT_MAX := by
    intro l hl
    have h1 : (l.length : Int) ≤ max_line_length lines := by
      exact_mod_cast length_le_max_line_length lines l hl
    have h2 : (1 : Int) ≤ lines.length := by
      have := List.length_pos_of_mem hl
      omega
    nlinarith
  unfold measure_lines
  rw [measure_lines_aux _ _ _ le_rfl hlen (by omega)]
  refine congrArg some (Prod.ext ?_ ?_)
  · simp only; omega
  · simp

/-- The second loop of `Grid::Grid(std::string)`, started at row `y0` with the lines `ls`
left to read, writes the rows `y0 .. y0 + ls.length - 1` and leaves the counter behind the
last of them. -/
theorem Grid.from_lines_loop (f : Int → Bool) (W : Int) (ls : List Line)
    (hlines : ∀ l ∈ ls, (l.length : Int) ≤ INT_MAX) (y0 : Int) (g : Grid)
    (hg : g.WF) (hW : g.width = W) (hy0 : 0 ≤ y0) (hfit : y0 + ls.length ≤ g.height)
    (hcell : ∀ (k : Nat) (line : Line), ls[k]? = some line → ∀ x, 0 ≤ x → x < W →
      f ((W + 1) * (y0 + k) + x)
        = (if x < (line.length : Int) then line.getD x.toNat ' ' != ' ' else false))
    (hend : ∀ y, f ((W + 1) * y + W) = true) :
    ∃ g' S, ls.foldlM Grid.from_lines_step (g, y0) = some (g', y0 + ls.length) ∧
      g.Writes g' f S ∧
      ∀ j, j ∈ S ↔ ∃ x y, 0 ≤ x ∧ x ≤ W ∧ y0 ≤ y ∧ y < y0 + ls.length ∧ j = (W + 1) * y + x := by
  induction ls generalizing g y0 with
  | nil =>
    refine ⟨g, [], ?_, Grid.Writes.refl g f, ?_⟩
    · simp
    · intro j
      simp only [List.not_mem_nil, List.length_nil, Nat.cast_zero, add_zero, false_iff]
      rintro ⟨x, y, -, -, h1, h2, -⟩
      omega
  | cons line rest ih =>
    simp only [List.length_cons, Nat.cast_add, Nat.cast_one] at hfit ⊢
    have hrest0 : (0 : Int) ≤ rest.length := Int.natCast_nonneg _
    subst hW
    obtain ⟨g1, S1, h1, w1, hS1⟩ := g.init_row_writes hg line
      (hlines line (List.mem_cons_self _ _)) y0 hy0 (by omega) f
      (fun x hx0 hx1 => by
        have := hcell 0 line (by simp) x hx0 hx1
        simpa using this)
      (hend y0)
    obtain ⟨g2, S2, h2, w2, hS2⟩ := ih (fun l hl => hlines l (List.mem_cons_of_mem _ hl))
      (y0 + 1) g1 (w1.wf hg) w1.1 (by omega)
      (by rw [w1.2.1]; omega)
      (fun k l hk x hx0 hx1 => by
        have := hcell (k + 1) l (by simpa using hk) x hx0 hx1
        rw [← this]
        push_cast
        ring_nf)
    refine ⟨g2, S1 ++ S2, ?_, w1.trans w2, ?_⟩
    · rw [List.foldlM_cons]
      have hstep : Grid.from_lines_step (g, y0) line = some (g1, y0 + 1) := by
        unfold Grid.from_lines_step
        simp only [h1]
      rw [hstep]
      simp only [Option.some_bind, Option.bind_eq_bind]
      rw [h2]
      congr 2
      ring
    · intro j
      rw [List.mem_append, hS1, hS2]
      constructor
      · rintro (⟨x, hx0, hx1, rfl⟩ | ⟨x, y, hx0, hx1, hy0', hy1', rfl⟩)
        · exact ⟨x, y0, hx0, hx1, le_rfl, by omega, rfl⟩
        · exact ⟨x, y, hx0, hx1, by omega, by omega, rfl⟩
      · rintro ⟨x, y, hx0, hx1, hy0', hy1', rfl⟩
        by_cases hy : y = y0
        · subst hy
          exact Or.inl ⟨x, hx0, hx1, rfl⟩
        · exact Or.inr ⟨x, y, hx0, hx1, by omega, by omega, rfl⟩

theorem new_bool_length (n : Int) (fresh : Nat → Bool) (hn : 0 ≤ n) :
    ((new_bool n fresh).length : Int) = n := by
  unfold new_bool
  rw [List.length_map, List.length_range]
  omega

theorem new_buffer_eq (w h : Int) (fresh : Nat → Bool) (hw : 0 ≤ w) (hh : 0 ≤ h)
    (hfit : (w + 1) * h ≤ INT_MAX) (hw1 : w + 1 ≤ INT_MAX) :
    new_buffer w h fresh = some (new_bool ((w + 1) * h) fresh) := by
  unfold new_buffer
  rw [if_pos ⟨hw1, mul_nonneg (by omega) hh, hfit⟩]

/-- The lines fit: the buffer size `(width+1)*height` of the grid for them is in the range
of `int`; then so are the number of the lines, the length of every line, and the width
plus one. -/
theorem lines_fit (lines : List Line)
    (hfit : ((max_line_length lines : Int) + 1) * lines.length ≤ INT_MAX) :
    (lines.length : Int) ≤ INT_MAX ∧ (max_line_length lines : Int) + 1 ≤ INT_MAX ∧
      ∀ l ∈ lines, (l.length : Int) ≤ INT_MAX := by
  have hW0 : (0 : Int) ≤ max_line_length lines := Int.natCast_nonneg _
  have hH0 : (0 : Int) ≤ lines.length := Int.natCast_nonneg _
  refine ⟨by nlinarith, ?_, ?_⟩
  · cases lines with
    | nil => exact (by decide : ((max_line_length [] : Nat) : Int) + 1 ≤ INT_MAX)
    | cons l ls =>
      have h2 : (1 : Int) ≤ (l :: ls).length := by
        simp only [List.length_cons, Nat.cast_add, Nat.cast_one]
        omega
      nlinarith
  · intro l hl
    have h1 : (l.length : Int) ≤ max_line_length lines := by
      exact_mod_cast length_le_max_line_length lines l hl
    have h2 : (1 : Int) ≤ lines.length := by
      have := List.length_pos_of_mem hl
      omega
    nlinarith

theorem from_lines_unfold (lines : List Line) (fresh : Nat → Bool) (wh : Int × Int)
    (buffer : List Bool) (hm : measure_lines lines = some wh)
    (hb : new_buffer wh.1 wh.2 fresh = some buffer) :
    Grid.from_lines lines fresh
      = (lines.foldlM Grid.from_lines_step
          (Grid.mk wh.2 wh.1 buffer, (0 : Int))).map Prod.fst := by
  unfold Grid.from_lines
  rw [hm]
  simp only
  rw [hb]

/-- What `Grid::Grid(std::string)` builds from lines that fit: a grid with one row for each
line, as wide as the longest line, every row ending in `true` behind its last column, and
each cell holding whether the line has a character other than a space at its column. -/
theorem Grid.from_lines_reads (lines : List Line) (fresh : Nat → Bool)
    (hfit : ((max_line_length lines : Int) + 1) * lines.length ≤ INT_MAX) :
    ∃ g, Grid.from_lines lines fresh = some g ∧ g.WF ∧
      g.height = lines.length ∧ g.width = max_line_length lines ∧
      (∀ y, 0 ≤ y → y < g.height → g.read ((g.width + 1) * y + g.width) = some true) ∧
      (∀ x y, g.in_bounds x y → ∃ line, lines[y.toNat]? = some line ∧
        g.get_tile x y
          = some (if x < (line.length : Int) then line.getD x.toNat ' ' != ' ' else false)) := by
  have hW0 : (0 : Int) ≤ max_line_length lines := Int.natCast_nonneg _
  have hH0 : (0 : Int) ≤ lines.length := Int.natCast_nonneg _
  have hg0 : Grid.WF (Grid.mk (lines.length : Int) (max_line_length lines : Int)
      (new_bool (((max_line_length lines : Int) + 1) * (lines.length : Int)) fresh)) :=
    ⟨hW0, hH0, new_bool_length _ _ (mul_nonneg (by omega) hH0)⟩
  obtain ⟨g', S, h1, w1, hS⟩ := Grid.from_lines_loop
    (fun j => if j % ((max_line_length lines : Int) + 1) = (max_line_length lines : Int) then true
      else
        if j % ((max_line_length lines : Int) + 1)
            < ((lines.getD (j / ((max_line_length lines : Int) + 1)).toNat []).length : Int)
        then (lines.getD (j / ((max_line_length lines : Int) + 1)).toNat []).getD
            (j % ((max_line_length lines : Int) + 1)).toNat ' ' != ' '
        else false)
    (max_line_length lines : Int) lines (lines_fit lines hfit).2.2 0 _ hg0 rfl le_rfl (by simp)
    (fun k line hk x hx0 hx1 => by
      have hdec := index_decode (max_line_length lines : Int) x ((0 : Int) + k) hx0 (le_of_lt hx1)
      simp only [hdec.1, hdec.2]
      have hne : x ≠ (max_line_length lines : Int) := ne_of_lt hx1
      have hk' : lines.getD ((0 : Int) + (k : Int)).toNat [] = line := by
        have : ((0 : Int) + (k : Int)).toNat = k := by omega
        rw [this, List.getD_eq_getElem?_getD, hk]
        rfl
      rw [if_neg hne, hk'])
    (fun y => by
      have hdec := index_decode (max_line_length lines : Int) (max_line_length lines : Int) y
        hW0 le_rfl
      simp only [hdec.1, if_true])
  refine ⟨g', ?_, w1.wf hg0, w1.2.1, w1.1, ?_, ?_⟩
  · rw [from_lines_unfold lines fresh _ _ (measure_lines_eq lines hfit)
      (new_buffer_eq _ _ fresh hW0 hH0 hfit (lines_fit lines hfit).2.1), h1]
    rfl
  · intro y hy0 hy1
    rw [w1.1] at *
    rw [w1.2.1] at hy1
    simp only at hy1
    rw [w1.2.2.2, if_pos ((hS _).2 ⟨_, y, hW0, le_rfl, hy0, by omega, rfl⟩)]
    have hdec := index_decode (max_line_length lines : Int) (max_line_length lines : Int) y
      hW0 le_rfl
    simp only [hdec.1, if_true]
  · rintro x y ⟨hx0, hx1, hy0, hy1⟩
    rw [w1.1] at hx1
    rw [w1.2.1] at hy1
    simp only at hx1 hy1
    have hlt : y.toNat < lines.length := by omega
    refine ⟨lines[y.toNat], List.getElem?_eq_getElem hlt, ?_⟩
    unfold Grid.get_tile
    simp only [w1.1]
    rw [w1.2.2.2, if_pos ((hS _).2 ⟨x, y, hx0, le_of_lt hx1, hy0, by omega, rfl⟩)]
    have hdec := index_decode (max_line_length lines : Int) x y hx0 (le_of_lt hx1)
    have hne : x ≠ (max_line_length lines : Int) := ne_of_lt hx1
    have hk' : lines.getD y.toNat [] = lines[y.toNat] := by
      rw [List.getD_eq_getElem?_getD, List.getElem?_eq_getElem hlt]
      rfl
    simp only [hdec.1, hdec.2, if_neg hne, hk']

/-- C10: the grid built from a pattern. For every list of lines that fit, the size
`(width+1)*height` of the buffer for them being in the range of `int`, in which the
constructor computes it, the constructor returns a grid whose height is the number of
lines and whose width is the maximum line length (0 for no lines); every in-bounds
`(x, y)` has a line `y`, and the cell is alive exactly when `x` is less than the length of
that line and the character of the line at position `x` is not the space; a position at or
beyond the end of a shorter line is dead. -/
theorem from_lines_pattern (lines : List Line) (fresh : Nat → Bool)
    (hfit : ((max_line_length lines : Int) + 1) * lines.length ≤ INT_MAX) :
    ∃ g, Grid.from_lines lines fresh = some g ∧
      g.height = lines.length ∧ g.width = max_line_length lines ∧
      max_line_length [] = 0 ∧
      ∀ x y, g.in_bounds x y → ∃ row, lines[y.toNat]? = some row ∧
        g.get_tile x y
          = some (decide (x.toNat < row.length ∧ row[x.toNat]? ≠ some ' ')) ∧
        (row.length ≤ x.toNat → g.get_tile x y = some false) := by
  obtain ⟨g, h1, -, hh, hw, -, hcells⟩ := Grid.from_lines_reads lines fresh hfit
  refine ⟨g, h1, hh, hw, rfl, fun x y hb => ?_⟩
  obtain ⟨row, hrow, htile⟩ := hcells x y hb
  have hx0 : 0 ≤ x := hb.1
  refine ⟨row, hrow, ?_, ?_⟩
  · rw [htile]
    by_cases hlt : x.toNat < row.length
    · have hlt' : x < (row.length : Int) := by omega
      rw [if_pos hlt', List.getD_eq_getElem?_getD, List.getElem?_eq_getElem hlt]
      simp only [Option.getD_some, hlt, true_and, ne_eq, Option.some.injEq, decide_not]
      by_cases hc : row[x.toNat] = ' '
      · simp [hc]
      · simp [hc]
    · have hlt' : ¬ x < (row.length : Int) := by omega
      rw [if_neg hlt']
      simp [hlt]
  · intro hge
    have hlt' : ¬ x < (row.length : Int) := by omega
    rw [htile, if_neg hlt']

/-- Witness of C10: the pattern of the horizontal blinker, five lines of five characters. -/
theorem from_lines_pattern_witness :
    ((max_line_length horizontal_blinker_lines : Int) + 1) * horizontal_blinker_lines.length
      ≤ INT_MAX ∧
    ∃ g, Grid.from_lines horizontal_blinker_lines (fun _ => true) = some g ∧
      g.height = horizontal_blinker_lines.length ∧ g.width = max_line_length horizontal_blinker_lines ∧
      max_line_length [] = 0 ∧
      ∀ x y, g.in_bounds x y → ∃ row, horizontal_blinker_lines[y.toNat]? = some row ∧
        g.get_tile x y
          = some (decide (x.toNat < row.length ∧ row[x.toNat]? ≠ some ' ')) ∧
        (row.length ≤ x.toNat → g.get_tile x y = some false) :=
  ⟨by decide, from_lines_pattern horizontal_blinker_lines (fun _ => true) (by decide)⟩

theorem index_encode (W H j : Int) (hW : 0 ≤ W) (hj0 : 0 ≤ j) (hj1 : j < (W + 1) * H) :
    j = (W + 1) * (j / (W + 1)) + j % (W + 1) ∧ 0 ≤ j % (W + 1) ∧ j % (W + 1) ≤ W ∧
      0 ≤ j / (W + 1) ∧ j / (W + 1) < H := by
  have hpos : 0 < W + 1 := by omega
  have h1 := Int.emod_nonneg j (ne_of_gt hpos)
  have h2 := Int.emod_lt_of_pos j hpos
  have h3 := Int.ediv_add_emod j (W + 1)
  have h4 : 0 ≤ j / (W + 1) := Int.ediv_nonneg hj0 (le_of_lt hpos)
  refine ⟨by omega, h1, by omega, h4, ?_⟩
  by_contra hge
  have : (W + 1) * H ≤ (W + 1) * (j / (W + 1)) :=
    mul_le_mul_of_nonneg_left (by omega) (le_of_lt hpos)
  omega

/-- Two grids of the same dimensions are the same grid when they agree on every cell and
on the element behind the last column of every row. -/
theorem Grid.eq_of_rows (g1 g2 : Grid) (h1 : g1.WF) (h2 : g2.WF) (hw : g1.width = g2.width)
    (hh : g1.height = g2.height)
    (hend : ∀ y, 0 ≤ y → y < g1.height →
      g1.read ((g1.width + 1) * y + g1.width) = g2.read ((g1.width + 1) * y + g1.width))
    (hcell : ∀ x y, g1.in_bounds x y → g1.get_tile x y = g2.get_tile x y) : g1 = g2 := by
  apply Grid.ext_read g1 g2 hw hh
  intro j
  have hl1 := h1.2.2
  have hl2 := h2.2.2
  rw [← hw, ← hh] at hl2
  by_cases hj : 0 ≤ j ∧ j < (g1.width + 1) * g1.height
  · obtain ⟨e1, e2, e3, e4, e5⟩ := index_encode g1.width g1.height j h1.1 hj.1 hj.2
    rw [e1]
    rcases lt_or_eq_of_le e3 with hlt | heq
    · have := hcell (j % (g1.width + 1)) (j / (g1.width + 1)) ⟨e2, hlt, e4, e5⟩
      unfold Grid.get_tile at this
      rw [← hw] at this
      exact this
    · have := hend (j / (g1.width + 1)) e4 e5
      rw [heq]
      exact this
  · rw [(g1.read_none_iff j).2 (by omega), (g2.read_none_iff j).2 (by omega)]

/-- What `Grid::Grid(int w, int h)` builds when the size of the buffer is in the range of
`int`: a grid of width `w` and height `h` with every cell dead and every row ending in
`true` behind its last column. -/
theorem Grid.new_reads (w h : Int) (fresh : Nat → Bool) (hw : 0 ≤ w) (hh : 0 ≤ h)
    (hfit : (w + 1) * h ≤ INT_MAX) (hw1 : w + 1 ≤ INT_MAX) :
    ∃ g, Grid.new w h fresh = some g ∧ g.WF ∧ g.width = w ∧ g.height = h ∧
      (∀ y, 0 ≤ y → y < g.height → g.read ((g.width + 1) * y + g.width) = some true) ∧
      (∀ x y, g.in_bounds x y → g.get_tile x y = some false) := by
  have hg0 : Grid.WF (Grid.mk h w (new_bool ((w + 1) * h) fresh)) :=
    ⟨hw, hh, new_bool_length _ _ (mul_nonneg (by omega) hh)⟩
  have hwf : ∀ g : Grid, g.width = w → g.height = h →
      g.buffer.length = (new_bool ((w + 1) * h) fresh).length → g.WF := by
    intro g a b c
    unfold Grid.WF
    rw [a, b, c]
    exact hg0
  obtain ⟨g1, h1, w1⟩ := Grid.foldlM_writes (fun j => decide (j % (w + 1) = w))
    (fun i => (int_range w).flatMap (fun x => [(w + 1) * i + x]))
    (fun g i => (int_range g.width).foldlM (fun g j => g.set_tile j i false) g)
    (int_range h) (Grid.mk h w (new_bool ((w + 1) * h) fresh)) _ rfl rfl rfl
    (fun g i hi a b c => by
      obtain ⟨hi0, hi1⟩ := (mem_int_range _ _).1 hi
      simp only at a b c
      have := g.set_row_writes (hwf g a b c) i hi0 (by rw [b]; exact hi1) (fun _ => false)
        (fun j => decide (j % (w + 1) = w))
        (fun x hx0 hx1 => by
          rw [a] at hx1 ⊢
          have hdec := index_decode w x i hx0 (le_of_lt hx1)
          beta_reduce
          rw [hdec.1]
          exact (decide_eq_false (ne_of_lt hx1)).symm)
      rw [a] at this
      beta_reduce at this ⊢
      rw [a]
      exact this)
  obtain ⟨g2, h2, w2⟩ := Grid.foldlM_writes (fun j => decide (j % (w + 1) = w))
    (fun i => [(w + 1) * i + w])
    (fun g i => g.write ((g.width + 1) * i + g.width) true)
    (int_range h) g1 g1 rfl rfl rfl
    (fun g i hi a b c => by
      obtain ⟨hi0, hi1⟩ := (mem_int_range _ _).1 hi
      have a' : g.width = w := a.trans w1.1
      have hr := index_range w h w i hw le_rfl hi0 hi1
      have hlen : ((g.buffer.length : Nat) : Int) = (w + 1) * h := by
        rw [c, w1.2.2.1]; exact hg0.2.2
      have := g.write_writes (fun j => decide (j % (w + 1) = w)) ((w + 1) * i + w) hr.1
        (by omega)
      have hdec := index_decode w w i hw le_rfl
      simp only [hdec.1, decide_True] at this
      beta_reduce
      rw [a']
      exact this)
  have w12 := w1.trans w2
  refine ⟨g2, ?_, w12.wf hg0, w12.1, w12.2.1, ?_, ?_⟩
  · unfold Grid.new
    rw [new_buffer_eq w h fresh hw hh hfit hw1]
    simp only [h1, w1.2.1]
    exact h2
  · intro y hy0 hy1
    rw [w12.1] at *
    rw [w12.2.1] at hy1
    simp only at hy1
    have hmem : (w + 1) * y + w ∈ (int_range h).flatMap (fun i => [(w + 1) * i + w]) :=
      List.mem_flatMap.2 ⟨y, (mem_int_range _ _).2 ⟨hy0, hy1⟩, List.mem_singleton.2 rfl⟩
    rw [w12.2.2.2, if_pos (List.mem_append_right _ hmem)]
    have hdec := index_decode w w y hw le_rfl
    simp only [hdec.1, decide_True]
  · rintro x y ⟨hx0, hx1, hy0, hy1⟩
    rw [w12.1] at hx1
    rw [w12.2.1] at hy1
    simp only at hx1 hy1
    unfold Grid.get_tile
    simp only [w12.1]
    have hmem : (w + 1) * y + x
        ∈ (int_range h).flatMap (fun i => (int_range w).flatMap (fun x => [(w + 1) * i + x])) :=
      List.mem_flatMap.2 ⟨y, (mem_int_range _ _).2 ⟨hy0, hy1⟩,
        (mem_row_cells w y _).2 ⟨x, hx0, hx1, rfl⟩⟩
    rw [w12.2.2.2, if_pos (List.mem_append_left _ hmem)]
    have hdec := index_decode w x y hx0 (le_of_lt hx1)
    simp only [hdec.1, decide_eq_false (ne_of_lt hx1)]

/-- The grid `Grid::Grid(int w, int h)` builds does not depend on what the memory of the
new buffer held. -/
theorem Grid.new_fresh (w h : Int) (hw : 0 ≤ w) (hh : 0 ≤ h) (hfit : (w + 1) * h ≤ INT_MAX)
    (hw1 : w + 1 ≤ INT_MAX) (fresh1 fresh2 : Nat → Bool) :
    Grid.new w h fresh1 = Grid.new w h fresh2 := by
  obtain ⟨g1, e1, wf1, a1, b1, s1, c1⟩ := Grid.new_reads w h fresh1 hw hh hfit hw1
  obtain ⟨g2, e2, wf2, a2, b2, s2, c2⟩ := Grid.new_reads w h fresh2 hw hh hfit hw1
  rw [e1, e2]
  congr 1
  apply Grid.eq_of_rows g1 g2 wf1 wf2 (a1.trans a2.symm) (b1.trans b2.symm)
  · intro y hy0 hy1
    rw [s1 y hy0 hy1]
    have := s2 y hy0 (by rw [b2, ← b1]; exact hy1)
    rw [a2, ← a1] at this
    exact this.symm
  · intro x y hb
    rw [c1 x y hb]
    have hb2 : g2.in_bounds x y := by
      unfold Grid.in_bounds at hb ⊢
      rw [a2, b2, ← a1, ← b1]; exact hb
    exact (c2 x y hb2).symm

/-- The grid `Grid::Grid(std::string)` builds does not depend on what the memory of the
new buffer held. -/
theorem Grid.from_lines_fresh (lines : List Line)
    (hfit : ((max_line_length lines : Int) + 1) * lines.length ≤ INT_MAX)
    (fresh1 fresh2 : Nat → Bool) :
    Grid.from_lines lines fresh1 = Grid.from_lines lines fresh2 := by
  obtain ⟨g1, e1, wf1, b1, a1, s1, c1⟩ := Grid.from_lines_reads lines fresh1 hfit
  obtain ⟨g2, e2, wf2, b2, a2, s2, c2⟩ := Grid.from_lines_reads lines fresh2 hfit
  rw [e1, e2]
  congr 1
  apply Grid.eq_of_rows g1 g2 wf1 wf2 (a1.trans a2.symm) (b1.trans b2.symm)
  · intro y hy0 hy1
    rw [s1 y hy0 hy1]
    have := s2 y hy0 (by rw [b2, ← b1]; exact hy1)
    rw [a2, ← a1] at this
    exact this.symm
  · intro x y hb
    have hb2 : g2.in_bounds x y := by
      unfold Grid.in_bounds at hb ⊢
      rw [a2, b2, ← a1, ← b1]; exact hb
    obtain ⟨r1, hr1, t1⟩ := c1 x y hb
    obtain ⟨r2, hr2, t2⟩ := c2 x y hb2
    have : r1 = r2 := Option.some.inj (hr1.symm.trans hr2)
    subst this
    rw [t1, t2]

/-- C8: the blinker under the classic rule 6152. The 5x5 grid built from the pattern of the
horizontal blinker has exactly the cells (1,2), (2,2), (3,2) alive; one generation from
it into the all-dead 5x5 grid that `Grid(5, 5)` builds yields exactly the grid whose live
cells are (2,1), (2,2), (2,3), the vertical blinker; and one generation from the vertical
blinker, into an all-dead grid or into the grid the first generation came from, yields the
horizontal blinker again. -/
theorem blinker_golden :
    (∀ fresh, Grid.from_lines horizontal_blinker_lines fresh = some horizontal_blinker) ∧
    (∀ fresh, Grid.from_lines vertical_blinker_lines fresh = some vertical_blinker) ∧
    (∀ fresh, Grid.new 5 5 fresh = some dead_grid) ∧
    (∀ x ∈ int_range 5, ∀ y ∈ int_range 5,
      (horizontal_blinker.get_tile x y = some (decide (y = 2 ∧ (x = 1 ∨ x = 2 ∨ x = 3)))) ∧
      (vertical_blinker.get_tile x y = some (decide (x = 2 ∧ (y = 1 ∨ y = 2 ∨ y = 3)))) ∧
      dead_grid.get_tile x y = some false) ∧
    (ProgramState.init horizontal_blinker dead_grid).rule = 6152 ∧
    (ProgramState.init horizontal_blinker dead_grid).update_iteration
      = some { ProgramState.init horizontal_blinker vertical_blinker with
          prev := .grid_b, next := .grid_a } ∧
    ProgramState.update_iteration { ProgramState.init horizontal_blinker vertical_blinker with
          prev := .grid_b, next := .grid_a }
      = some (ProgramState.init horizontal_blinker vertical_blinker) ∧
    (ProgramState.init vertical_blinker dead_grid).update_iteration
      = some { ProgramState.init vertical_blinker horizontal_blinker with
          prev := .grid_b, next := .grid_a } := by
  refine ⟨fun fresh => (Grid.from_lines_fresh _ (by decide) fresh (fun _ => false)).trans
      (by decide),
    fun fresh => (Grid.from_lines_fresh _ (by decide) fresh (fun _ => false)).trans (by decide),
    fun fresh => (Grid.new_fresh 5 5 (by decide) (by decide) (by decide) (by decide) fresh
      (fun _ => false)).trans (by decide),
    by decide, rfl, ?_, ?_, ?_⟩
  · decide
  · decide
  · decide

/-! ## A lone live cell -/

theorem moore_nodup : moore.Nodup := by decide

theorem Grid.live_neighbours_lone (g : Grid) (x0 y0 : Int)
    (hdead : ∀ x y, g.in_bounds x y → ¬ (x = x0 ∧ y = y0) → g.alive x y = false) (x y : Int) :
    g.live_neighbours x y ≤ 1 ∧ ((x = x0 ∧ y = y0) → g.live_neighbours x y = 0) := by
  have hp : ∀ d : Int × Int,
      (decide (g.in_bounds (x + d.1) (y + d.2)) && g.alive (x + d.1) (y + d.2)) = true →
      d = (x0 - x, y0 - y) := by
    intro d hd
    simp only [Bool.and_eq_true, decide_eq_true_eq] at hd
    by_contra hne
    have hne' : ¬ (x + d.1 = x0 ∧ y + d.2 = y0) := by
      rintro ⟨h1, h2⟩
      apply hne
      ext
      · simp only; omega
      · simp only; omega
    rw [hdead _ _ hd.1 hne'] at hd
    exact absurd hd.2 (by decide)
  constructor
  · unfold Grid.live_neighbours
    calc List.countP _ moore
        ≤ List.countP (fun d => decide (d = (x0 - x, y0 - y))) moore :=
          List.countP_mono_left (fun d _ hd => decide_eq_true (hp d hd))
      _ = @List.count _ instBEqOfDecidableEq (x0 - x, y0 - y) moore := rfl
      _ ≤ 1 := List.nodup_iff_count_le_one.1 moore_nodup _
  · rintro ⟨rfl, rfl⟩
    unfold Grid.live_neighbours
    rw [List.countP_eq_zero]
    intro d hd hpd
    have := hp d hpd
    simp only [sub_self] at this
    subst this
    exact absurd hd (by decide)

/-- C9: a lone live cell dies. In a grid whose only live cell is `(x0, y0)`, at a corner,
on an edge or inside, one generation under the classic rule 6152 returns and yields a
grid in which every cell, the one that was alive included, is dead: no cell has more than one live neighbour, since the
cells beyond an edge do not exist and nothing wraps around. -/
theorem lone_cell_dies (s : ProgramState) (hs : s.WF) (hr : s.rule = 6152) (x0 y0 : Int)
    (h0 : (s.deref s.prev).in_bounds x0 y0) (hlive : (s.deref s.prev).alive x0 y0 = true)
    (hdead : ∀ x y, (s.deref s.prev).in_bounds x y → ¬ (x = x0 ∧ y = y0) →
      (s.deref s.prev).alive x y = false) :
    ∃ s', s.update_iteration = some s' ∧
      (s.deref s.prev).get_tile x0 y0 = some true ∧
      (s'.deref s'.prev).get_tile x0 y0 = some false ∧
      ∀ x y, (s.deref s.prev).in_bounds x y → (s'.deref s'.prev).get_tile x y = some false := by
  obtain ⟨D', hrun, -, -, hcells⟩ := s.generation_spec hs
  have hcur : (s.store s.next D').swap.deref (s.store s.next D').swap.prev = D' := by
    rw [ProgramState.swap_deref, ProgramState.swap_prev, ProgramState.store_next,
      ProgramState.deref_store_self]
  have h1 : s.update_iteration = some (s.store s.next D').swap := by
    unfold ProgramState.update_iteration
    simp only [hrun]
  have hall : ∀ x y, (s.deref s.prev).in_bounds x y → D'.get_tile x y = some false := ?_
  · refine ⟨_, h1, by simpa [Grid.alive] using hlive, ?_, ?_⟩
    · rw [hcur]; exact hall x0 y0 h0
    · intro x y hb
      rw [hcur]; exact hall x y hb
  intro x y hb
  rw [hcells x y hb, hr]
  unfold Grid.rule_result
  rw [end_state_conway _ _ ((s.deref s.prev).live_neighbours_le x y)]
  obtain ⟨hle, hzero⟩ := (s.deref s.prev).live_neighbours_lone x0 y0 hdead x y
  by_cases hxy : x = x0 ∧ y = y0
  · rw [hzero hxy]
    simp
  · rw [hdead x y hb hxy]
    have : (s.deref s.prev).live_neighbours x y ≠ 3 := by omega
    simp [this]

/-- Witness of C9: the corner (0,0) of a 2x2 grid as the only live cell, computed into a
grid that holds values left over. -/
theorem lone_cell_dies_witness :
    ∃ s', (ProgramState.init lone_corner small_scratch).update_iteration = some s' ∧
      lone_corner.get_tile 0 0 = some true ∧
      (s'.deref s'.prev).get_tile 0 0 = some false ∧
      ∀ x y, lone_corner.in_bounds x y → (s'.deref s'.prev).get_tile x y = some false :=
  lone_cell_dies (ProgramState.init lone_corner small_scratch) (by decide) rfl 0 0
    (by decide) (by decide) (by
      intro x y hb hne
      obtain ⟨hx0, hx1, hy0, hy1⟩ := hb
      have hx1' : x < 2 := hx1
      have hy1' : y < 2 := hy1
      have hx : x = 0 ∨ x = 1 := by omega
      have hy : y = 0 ∨ y = 1 := by omega
      rcases hx with rfl | rfl <;> rcases hy with rfl | rfl
      · exact absurd ⟨rfl, rfl⟩ hne
      · decide
      · decide
      · decide)

/-! ## The render surface: cell access -/

theorem tile_read_ok (buffer : List Tile) (index : Nat) (h : index < buffer.length) :
    tile_read buffer index = .ok buffer[index] := by
  unfold tile_read
  rw [List.getElem?_eq_getElem h]

theorem tile_write_ok (buffer : List Tile) (index : Nat) (t : Tile) (h : index < buffer.length) :
    tile_write buffer index t = .ok (buffer.set index t) := by
  unfold tile_write
  rw [if_pos h]

theorem canvas_index_lt (W H x y : Nat) (hx : x < W) (hy : y < H) : y * W + x < H * W := by
  have h1 : (y + 1) * W ≤ H * W := Nat.mul_le_mul_right W hy
  have h2 : (y + 1) * W = y * W + W := Nat.succ_mul y W
  omega

/-- C11: cell access fails loudly exactly when out of bounds. `canvas(x, y)` raises the
out-of-bounds error exactly when `x ≥ W` or `y ≥ H`; then a read and an assignment through
it end in that error and yield no changed canvas. Otherwise it denotes the pending tile at
index `y*W + x`: a read returns that tile, and an assignment returns a canvas that differs
in that one pending tile only, with every other pending tile, the last-emitted tiles, the
dimensions, the offsets and the flag as they were. -/
theorem canvas_cell_bounds (c : Canvas) (hc : c.WF) (x y : Nat) (t : Tile) :
    (c.cell x y = .error (.out_of_bounds c.width c.height x y) ↔ (x ≥ c.width ∨ y ≥ c.height)) ∧
    ((x ≥ c.width ∨ y ≥ c.height) →
      c.get x y = .error (.out_of_bounds c.width c.height x y) ∧
      c.assign x y t = .error (.out_of_bounds c.width c.height x y)) ∧
    (¬ (x ≥ c.width ∨ y ≥ c.height) →
      c.cell x y = .ok (y * c.width + x) ∧
      c.get x y = .ok (c.pending x y) ∧
      c.tile_buffer[y * c.width + x]? = some (c.pending x y) ∧
      ∃ c', c.assign x y t = .ok c' ∧
        c'.tile_buffer[y * c.width + x]? = some t ∧
        (∀ j, j ≠ y * c.width + x → c'.tile_buffer[j]? = c.tile_buffer[j]?) ∧
        c'.prev_buffer = c.prev_buffer ∧ c'.width = c.width ∧ c'.height = c.height ∧
        c'.offset_x = c.offset_x ∧ c'.offset_y = c.offset_y ∧
        c'.should_full_display = c.should_full_display) := by
  refine ⟨?_, ?_, ?_⟩
  · unfold Canvas.cell
    by_cases h : x ≥ c.width ∨ y ≥ c.height
    · simp [h]
    · simp only [h, if_false, iff_false]
      intro h'
      cases h'
  · intro h
    unfold Canvas.get Canvas.assign Canvas.cell
    simp [h]
  · intro h
    have hx : x < c.width := by omega
    have hy : y < c.height := by omega
    have hlt : y * c.width + x < c.tile_buffer.length := by
      rw [hc.2]; exact canvas_index_lt _ _ _ _ hx hy
    have hcell : c.cell x y = .ok (y * c.width + x) := by
      unfold Canvas.cell
      rw [if_neg h]
    have hpend : c.pending x y = c.tile_buffer[y * c.width + x] := by
      unfold Canvas.pending
      rw [List.getD_eq_getElem?_getD, List.getElem?_eq_getElem hlt]
      rfl
    refine ⟨hcell, ?_, ?_, ?_⟩
    · unfold Canvas.get
      rw [hcell, hpend]
      exact tile_read_ok _ _ hlt
    · rw [hpend, List.getElem?_eq_getElem hlt]
    · refine ⟨{ c with tile_buffer := c.tile_buffer.set (y * c.width + x) t }, ?_, ?_, ?_,
        rfl, rfl, rfl, rfl, rfl, rfl⟩
      · unfold Canvas.assign
        rw [hcell]
        simp only [tile_write_ok _ _ t hlt]
      · simp [hlt]
      · intro j hj
        simp only
        rw [List.getElem?_set_ne (Ne.symm hj)]

/-- Witness of C11: the cell (0,1) of the tall canvas. -/
theorem canvas_cell_bounds_witness :
    (canvas_tall.cell 0 1 = .error (.out_of_bounds canvas_tall.width canvas_tall.height 0 1)
      ↔ (0 ≥ canvas_tall.width ∨ 1 ≥ canvas_tall.height)) ∧
    ((0 ≥ canvas_tall.width ∨ 1 ≥ canvas_tall.height) →
      canvas_tall.get 0 1 = .error (.out_of_bounds canvas_tall.width canvas_tall.height 0 1) ∧
      canvas_tall.assign 0 1 tile_b
        = .error (.out_of_bounds canvas_tall.width canvas_tall.height 0 1)) ∧
    (¬ (0 ≥ canvas_tall.width ∨ 1 ≥ canvas_tall.height) →
      canvas_tall.cell 0 1 = .ok (1 * canvas_tall.width + 0) ∧
      canvas_tall.get 0 1 = .ok (canvas_tall.pending 0 1) ∧
      canvas_tall.tile_buffer[1 * canvas_tall.width + 0]? = some (canvas_tall.pending 0 1) ∧
      ∃ c', canvas_tall.assign 0 1 tile_b = .ok c' ∧
        c'.tile_buffer[1 * canvas_tall.width + 0]? = some tile_b ∧
        (∀ j, j ≠ 1 * canvas_tall.width + 0 → c'.tile_buffer[j]? = canvas_tall.tile_buffer[j]?) ∧
        c'.prev_buffer = canvas_tall.prev_buffer ∧ c'.width = canvas_tall.width ∧
        c'.height = canvas_tall.height ∧
        c'.offset_x = canvas_tall.offset_x ∧ c'.offset_y = canvas_tall.offset_y ∧
        c'.should_full_display = canvas_tall.should_full_display) :=
  canvas_cell_bounds canvas_tall (by decide) 0 1 tile_b

/-! ## The render surface: resize -/

/-- C12, the code at inputs where the claim fails. `resize` takes both limits of its copy
from the widths. Resizing the 2x1 canvas to its own size 2x1 reads the row 1 that does not
exist and ends in the out-of-bounds error; resizing the 1x2 canvas to its own size 1x2
copies the first row only, so the pending `a` at (0,1) is a blank afterwards; and resizing
a 2x2 canvas to 2x1 writes behind the end of the new buffers. -/
theorem resize_limits_from_width :
    canvas_ba.resize 2 1 = .error (.out_of_bounds 2 1 0 1) ∧
    (∃ c', canvas_tall.resize 1 2 = .ok c' ∧ canvas_tall.pending 0 1 = tile_a ∧
      c'.pending 0 1 = Tile.blank) ∧
    (Canvas.new 2 2 0 0).resize 2 1 = .error .out_of_buffer := by
  exact ⟨rfl, ⟨_, rfl, by decide, by decide⟩, rfl⟩

/-! ## The prompt of the control loop -/

/-- C20, the code at an input where the claim fails. With `frame_rate` 1, the key `f`, a
line that is no number and then the end of the input, the prompt loop is left at the end
of the input with `val` holding the 0 the failed read stored, and the reconfiguration
stores it: `frame_rate` is 0 afterwards, not 1. With the end of the input at the first
read, the tunable receives whatever the uninitialised `val` holds. -/
theorem reconfigure_at_end_of_input :
    (ProgramState.init horizontal_blinker dead_grid).frame_rate = 1 ∧
    reconfigure (ProgramState.init horizontal_blinker dead_grid) 'f' 7
        [.parse_failure 0, .end_of_input]
      = some { ProgramState.init horizontal_blinker dead_grid with frame_rate := 0 } ∧
    (∀ val : Int, reconfigure (ProgramState.init horizontal_blinker dead_grid) 'u' val
        [.end_of_input]
      = some { ProgramState.init horizontal_blinker dead_grid with sim_rate := val }) ∧
    reconfigure (ProgramState.init horizontal_blinker dead_grid) 'r' 7
        [.parsed (-5), .end_of_input]
      = some { ProgramState.init horizontal_blinker dead_grid with rule := -5 } := by
  refine ⟨rfl, by decide, fun val => rfl, by decide⟩

/-! ## Loops that can fail -/

/-- A loop whose every iteration returns and takes the invariant from `j` to `j+1`
returns, with the invariant at the length of the list. -/
theorem foldlM_except_inv {σ α ε : Type} (f : σ → α → Except ε σ) (l : List α)
    (P : Nat → σ → Prop) (s0 : σ) (h0 : P 0 s0)
    (hstep : ∀ (j : Nat) (hj : j < l.length) (s : σ), P j s →
      ∃ s', f s l[j] = .ok s' ∧ P (j + 1) s') :
    ∃ s', l.foldlM f s0 = .ok s' ∧ P l.length s' := by
  induction l generalizing P s0 with
  | nil => exact ⟨s0, rfl, h0⟩
  | cons a as ih =>
    obtain ⟨s1, h1, p1⟩ := hstep 0 (by simp) s0 h0
    obtain ⟨s2, h2, p2⟩ := ih (fun j s => P (j + 1) s) s1 p1
      (fun j hj s hp => hstep (j + 1) (by simp; omega) s hp)
    refine ⟨s2, ?_, p2⟩
    rw [List.foldlM_cons]
    simp only [List.getElem_cons_zero] at h1
    rw [h1]
    exact h2

theorem down_range_length (n : Nat) : (down_range n).length = n := by
  simp [down_range]

theorem down_range_getElem (n j : Nat) (hj : j < (down_range n).length) :
    (down_range n)[j] = n - 1 - j := by
  unfold down_range
  rw [List.getElem_reverse, List.getElem_range]
  simp

theorem take_succ_getElem {α : Type} (l : List α) (j : Nat) (hj : j < l.length) :
    l.take (j + 1) = l.take j ++ [l[j]] := by
  rw [List.take_succ, List.getElem?_eq_getElem hj]
  rfl

/-! ## The full redraw -/

theorem Canvas.read_pending (c : Canvas) (hc : c.WF) (x y : Nat) (hx : x < c.width)
    (hy : y < c.height) : tile_read c.tile_buffer (y * c.width + x) = .ok (c.pending x y) := by
  have hlt : y * c.width + x < c.tile_buffer.length := by
    rw [hc.2]; exact canvas_index_lt _ _ _ _ hx hy
  rw [tile_read_ok _ _ hlt]
  unfold Canvas.pending
  rw [List.getD_eq_getElem?_getD, List.getElem?_eq_getElem hlt]
  rfl

theorem Canvas.getElem?_pending (c : Canvas) (hc : c.WF) (x y : Nat) (hx : x < c.width)
    (hy : y < c.height) : c.tile_buffer[y * c.width + x]? = some (c.pending x y) := by
  have hlt : y * c.width + x < c.tile_buffer.length := by
    rw [hc.2]; exact canvas_index_lt _ _ _ _ hx hy
  unfold Canvas.pending
  rw [List.getD_eq_getElem?_getD, List.getElem?_eq_getElem hlt]
  rfl

/-- What the inner loop of `full_display` does to the row `y`, started with `mismatch`
set: it returns, has written the pieces of the row, and has copied the pending tiles of
the row into `prev_buffer`. -/
theorem Canvas.full_cells_spec (c : Canvas) (hc : c.WF) (y : Nat) (hy : y < c.height)
    (st0 : FullState) (hlen : st0.prev_buffer.length = c.height * c.width) :
    ∃ st, (down_range c.width).foldlM (fun st x => c.full_cell y x st)
        { st0 with mismatch := true } = .ok st ∧
      st.output = st0.output ++ (down_range c.width).flatMap (c.full_piece y) ∧
      st.prev_buffer.length = c.height * c.width ∧
      ∀ i, st.prev_buffer[i]? =
        if y * c.width ≤ i ∧ i < y * c.width + c.width then c.tile_buffer[i]?
        else st0.prev_buffer[i]? := by
  have h := foldlM_except_inv (fun st x => c.full_cell y x st) (down_range c.width)
    (fun j st =>
      st.output = st0.output ++ ((down_range c.width).take j).flatMap (c.full_piece y) ∧
      st.mismatch = decide (j = 0) ∧
      (0 < j → st.last_tile = some (c.pending (c.width - j) y)) ∧
      st.prev_buffer.length = c.height * c.width ∧
      ∀ i, st.prev_buffer[i]? =
        if y * c.width + (c.width - j) ≤ i ∧ i < y * c.width + c.width then c.tile_buffer[i]?
        else st0.prev_buffer[i]?)
    { st0 with mismatch := true }
    ⟨by simp, by simp, by omega, hlen, fun i => by
      simp only
      rw [if_neg (by omega)]⟩
    (by
      intro j hj st ⟨ho, hm, hl, hpl, hp⟩
      rw [down_range_length] at hj
      rw [down_range_getElem _ _ (by rw [down_range_length]; exact hj)]
      have hx : c.width - 1 - j < c.width := by omega
      have hidx : y * c.width + (c.width - 1 - j) < c.height * c.width :=
        canvas_index_lt _ _ _ _ hx hy
      have hmis : (match st.last_tile with
          | some last =>
            (st.mismatch || last.fore_color.ne (c.pending (c.width - 1 - j) y).fore_color)
              || last.back_color.ne (c.pending (c.width - 1 - j) y).back_color
          | none => st.mismatch)
          = decide (c.width - 1 - j + 1 = c.width ∨
              (c.pending (c.width - 1 - j + 1) y).colors_differ
                (c.pending (c.width - 1 - j) y) = true) := by
        by_cases hj0 : j = 0
        · subst hj0
          simp only [decide_True] at hm
          have h0 : c.width - 1 + 1 = c.width := by omega
          rw [hm]
          cases st.last_tile <;> simp [h0]
        · have hlast := hl (by omega)
          have h1 : c.width - 1 - j + 1 = c.width - j := by omega
          have h2 : ¬ (c.width - j = c.width) := by omega
          rw [hlast, hm, h1]
          simp [hj0, h2, Tile.colors_differ]
      have hcell : c.full_cell y (c.width - 1 - j) st = .ok
          { output := st.output ++ [Out.column (c.offset_x + (c.width - 1 - j) + 1)] ++
              (if c.width - 1 - j + 1 = c.width ∨
                  (c.pending (c.width - 1 - j + 1) y).colors_differ
                    (c.pending (c.width - 1 - j) y) = true
                then (c.pending (c.width - 1 - j) y).to_string
                else (c.pending (c.width - 1 - j) y).raw_symbol)
            last_tile := some (c.pending (c.width - 1 - j) y)
            mismatch := false
            prev_buffer := st.prev_buffer.set (y * c.width + (c.width - 1 - j))
              (c.pending (c.width - 1 - j) y) } := by
        unfold Canvas.full_cell
        simp only [c.read_pending hc _ y hx hy, hmis,
          tile_write_ok st.prev_buffer _ (c.pending (c.width - 1 - j) y) (by rw [hpl]; exact hidx)]
        by_cases hcond : c.width - 1 - j + 1 = c.width ∨
            (c.pending (c.width - 1 - j + 1) y).colors_differ
              (c.pending (c.width - 1 - j) y) = true
        · simp [hcond]
        · simp [hcond]
      beta_reduce
      refine ⟨_, hcell, ?_, ?_, ?_, ?_, ?_⟩
      · simp only
        rw [take_succ_getElem _ _ (by rw [down_range_length]; exact hj),
          down_range_getElem _ _ (by rw [down_range_length]; exact hj), List.flatMap_append,
          ho]
        simp only [List.flatMap_cons, List.flatMap_nil, List.append_nil, Canvas.full_piece,
          List.append_assoc]
      · simp
      · intro _
        simp only
        congr 2
        omega
      · simp only [List.length_set]
        exact hpl
      · intro i
        simp only
        by_cases hi : i = y * c.width + (c.width - 1 - j)
        · subst hi
          rw [List.getElem?_set_self (by rw [hpl]; exact hidx), if_pos (by omega),
            c.getElem?_pending hc _ y hx hy]
        · rw [List.getElem?_set_ne (Ne.symm hi), hp i]
          by_cases h1 : y * c.width + (c.width - j) ≤ i ∧ i < y * c.width + c.width
          · rw [if_pos h1, if_pos (by omega)]
          · rw [if_neg h1, if_neg (by omega)])
  obtain ⟨st, h1, ho, -, -, hpl, hp⟩ := h
  rw [down_range_length] at ho hp
  refine ⟨st, h1, ?_, hpl, ?_⟩
  · rw [ho]
    have : (down_range c.width).take c.width = down_range c.width := by
      apply List.take_of_length_le
      rw [down_range_length]
    rw [this]
  · intro i
    rw [hp i]
    simp only [Nat.sub_self, Nat.add_zero]

theorem Canvas.header_eq (c : Canvas) :
    (if c.offset_y ≠ 0 then [Out.save] ++ [Out.down c.offset_y] else [Out.save]) = c.header := by
  unfold Canvas.header
  split_ifs <;> rfl

theorem take_range_flatMap_succ {β : Type} (n k : Nat) (hk : k < n) (f : Nat → List β) :
    ((List.range n).take (k + 1)).flatMap f = ((List.range n).take k).flatMap f ++ f k := by
  rw [take_succ_getElem _ _ (by rw [List.length_range]; exact hk), List.getElem_range,
    List.flatMap_append]
  simp

/-- The full redraw returns; afterwards the last-emitted tiles are the pending ones and the
flag is clear, and what it wrote is `full_output`. -/
theorem Canvas.full_display_eq (c : Canvas) (hc : c.WF) :
    c.full_display = .ok
      ({ c with prev_buffer := c.tile_buffer, should_full_display := false }, c.full_output) := by
  have h := foldlM_except_inv (fun st y => c.full_row y st) (List.range c.height)
    (fun k st =>
      st.output = c.header ++ ((List.range c.height).take k).flatMap c.full_row_output ∧
      st.prev_buffer.length = c.height * c.width ∧
      ∀ i, st.prev_buffer[i]? =
        if i < k * c.width then c.tile_buffer[i]? else c.prev_buffer[i]?)
    { output := c.header, last_tile := none, mismatch := true, prev_buffer := c.prev_buffer }
    ⟨by simp, hc.1, fun i => by simp⟩
    (by
      intro k hk st ⟨ho, hpl, hp⟩
      rw [List.length_range] at hk
      rw [List.getElem_range]
      obtain ⟨st1, h1, ho1, hpl1, hp1⟩ := c.full_cells_spec hc k hk st hpl
      beta_reduce
      refine ⟨{ st1 with output := st1.output ++ [Out.reset] ++ [Out.crlf] }, ?_, ?_, hpl1, ?_⟩
      · unfold Canvas.full_row
        rw [h1]
      · simp only
        rw [take_range_flatMap_succ _ _ hk, ho1, ho]
        simp [Canvas.full_row_output]
      · intro i
        simp only
        rw [hp1 i, hp i]
        have hsucc : (k + 1) * c.width = k * c.width + c.width := Nat.succ_mul k c.width
        by_cases h1 : k * c.width ≤ i ∧ i < k * c.width + c.width
        · rw [if_pos h1, if_pos (by omega)]
        · rw [if_neg h1]
          by_cases h2 : i < k * c.width
          · rw [if_pos h2, if_pos (by omega)]
          · rw [if_neg h2, if_neg (by omega)])
  obtain ⟨st, h1, ho, hpl, hp⟩ := h
  rw [List.length_range] at ho hp
  have hprev : st.prev_buffer = c.tile_buffer := by
    apply List.ext_getElem?
    intro i
    rw [hp i]
    by_cases hi : i < c.height * c.width
    · rw [if_pos hi]
    · rw [if_neg hi, List.getElem?_eq_none (by rw [hc.1]; omega),
        List.getElem?_eq_none (by rw [hc.2]; omega)]
  have htake : (List.range c.height).take c.height = List.range c.height := by
    apply List.take_of_length_le
    rw [List.length_range]
  unfold Canvas.full_display
  simp only [Canvas.header_eq]
  rw [h1]
  simp only [hprev, ho, htake, Canvas.full_output]

/-! ## The diff redraw -/

theorem RGB.ne_iff (a b : RGB) : a.ne b = true ↔ a ≠ b := by
  obtain ⟨r1, g1, b1⟩ := a
  obtain ⟨r2, g2, b2⟩ := b
  simp only [RGB.ne, RGB.eq, Bool.not_eq_true', Bool.and_eq_false_iff, beq_eq_false_iff_ne, ne_eq,
    RGB.mk.injEq]
  constructor
  · rintro ((h | h) | h) ⟨e1, e2, e3⟩
    · exact h e1.symm
    · exact h e2.symm
    · exact h e3.symm
  · intro h
    by_cases e1 : r2 = r1
    · by_cases e2 : g2 = g1
      · right
        intro e3
        exact h ⟨e1.symm, e2.symm, e3.symm⟩
      · exact Or.inl (Or.inr e2)
    · exact Or.inl (Or.inl e1)

theorem touched_iff (a b : Tile) : touched a b = true ↔ a ≠ b := by
  obtain ⟨s1, f1, b1⟩ := a
  obtain ⟨s2, f2, b2⟩ := b
  simp only [touched, Bool.or_eq_true, RGB.ne_iff, bne_iff_ne, ne_eq, Tile.mk.injEq]
  tauto

theorem Canvas.read_emitted (c : Canvas) (hc : c.WF) (x y : Nat) (hx : x < c.width)
    (hy : y < c.height) : c.prev_buffer[y * c.width + x]? = some (c.emitted x y) := by
  have hlt : y * c.width + x < c.prev_buffer.length := by
    rw [hc.1]; exact canvas_index_lt _ _ _ _ hx hy
  unfold Canvas.emitted
  rw [List.getD_eq_getElem?_getD, List.getElem?_eq_getElem hlt]
  rfl

theorem Canvas.lazy_pieces_append (c : Canvas) (pred : Option (Nat × Nat))
    (l : List (Nat × Nat)) (p : Nat × Nat) :
    c.lazy_pieces pred (l ++ [p])
      = c.lazy_pieces pred l ++ c.lazy_piece ((l.getLast?).or pred) p := by
  induction l generalizing pred with
  | nil => simp [Canvas.lazy_pieces]
  | cons a as ih =>
    have hlast : (as.getLast?).or (some a) = ((a :: as).getLast?).or pred := by
      rw [List.getLast?_cons]
      cases as.getLast? <;> rfl
    rw [List.cons_append]
    show c.lazy_piece pred a ++ c.lazy_pieces (some a) (as ++ [p])
      = (c.lazy_piece pred a ++ c.lazy_pieces (some a) as)
        ++ c.lazy_piece (((a :: as).getLast?).or pred) p
    rw [ih, hlast, List.append_assoc]

/-- One iteration of the loops of `lazy_display`, at a cell whose last-emitted tile is
still the one the call started with: it returns; for a changed cell it has written the
piece of the cell and stored the pending tile, for an unchanged cell it has done
nothing. -/
theorem Canvas.lazy_cell_spec (c : Canvas) (hc : c.WF) (x y : Nat) (hx : x < c.width)
    (hy : y < c.height) (st : LazyState) (pred : Option (Nat × Nat))
    (hpl : st.prev_buffer.length = c.height * c.width)
    (hcur : st.prev_buffer[y * c.width + x]? = c.prev_buffer[y * c.width + x]?)
    (hregs : c.regs_match st pred) :
    ∃ st', c.lazy_cell y x st = .ok st' ∧
      st'.output = st.output ++ (if c.is_changed (x, y) = true then c.lazy_piece pred (x, y) else []) ∧
      c.regs_match st' (if c.is_changed (x, y) = true then some (x, y) else pred) ∧
      st'.prev_buffer.length = c.height * c.width ∧
      ∀ i, st'.prev_buffer[i]? =
        if i = y * c.width + x then c.tile_buffer[i]? else st.prev_buffer[i]? := by
  have hidx : y * c.width + x < c.height * c.width := canvas_index_lt _ _ _ _ hx hy
  have hread : tile_read st.prev_buffer (y * c.width + x) = .ok (c.emitted x y) := by
    unfold tile_read
    rw [hcur, c.read_emitted hc x y hx hy]
  have htouched : touched (c.emitted x y) (c.pending x y) = c.is_changed (x, y) := by
    rw [Bool.eq_iff_iff, touched_iff]
    simp [Canvas.is_changed]
  unfold Canvas.lazy_cell
  simp only [hread, c.read_pending hc x y hx hy, htouched]
  by_cases hch : c.is_changed (x, y) = true
  · simp only [hch, if_true]
    obtain ⟨hlt, hly, hfirst⟩ := hregs
    have hw := tile_write_ok st.prev_buffer (y * c.width + x) (c.pending x y)
      (by rw [hpl]; exact hidx)
    have hbuf : ∀ i, (st.prev_buffer.set (y * c.width + x) (c.pending x y))[i]? =
        if i = y * c.width + x then c.tile_buffer[i]? else st.prev_buffer[i]? := by
      intro i
      by_cases hi : i = y * c.width + x
      · subst hi
        rw [List.getElem?_set_self (by rw [hpl]; exact hidx), if_pos rfl,
          c.getElem?_pending hc x y hx hy]
      · rw [List.getElem?_set_ne (Ne.symm hi), if_neg hi]
    unfold Canvas.lazy_emit
    cases pred with
    | none =>
      simp only [Option.map_none', Option.isNone_none] at hlt hly hfirst
      simp only [hlt, hly, hfirst, hw]
      refine ⟨_, rfl, ?_, ⟨rfl, rfl, rfl⟩, ?_, hbuf⟩
      · simp only [Canvas.lazy_piece, List.append_assoc, if_true]
        split_ifs <;> simp
      · simp only [List.length_set]
        exact hpl
    | some q =>
      simp only [Option.map_some', Option.isNone_some] at hlt hly hfirst
      simp only [hlt, hly, hfirst, hw, Bool.false_or]
      refine ⟨_, rfl, ?_, ⟨rfl, rfl, rfl⟩, ?_, hbuf⟩
      · simp only [Canvas.lazy_piece, List.append_assoc, Tile.colors_differ]
        split_ifs <;> simp
      · simp only [List.length_set]
        exact hpl
  · simp only [hch, if_false, Bool.false_eq_true]
    refine ⟨st, rfl, by simp, hregs, hpl, fun i => ?_⟩
    by_cases hi : i = y * c.width + x
    · subst hi
      have heq : c.emitted x y = c.pending x y := by
        unfold Canvas.is_changed at hch
        simpa using hch
      rw [if_pos rfl, hcur, c.read_emitted hc x y hx hy, c.getElem?_pending hc x y hx hy, heq]
    · rw [if_neg hi]

theorem filter_take_succ_row (c : Canvas) (y j : Nat) (hj : j < c.width) :
    (((down_range c.width).take (j + 1)).map (fun x => (x, y))).filter c.is_changed
      = (((down_range c.width).take j).map (fun x => (x, y))).filter c.is_changed
        ++ (if c.is_changed (c.width - 1 - j, y) = true then [(c.width - 1 - j, y)] else []) := by
  rw [take_succ_getElem _ _ (by rw [down_range_length]; exact hj),
    down_range_getElem _ _ (by rw [down_range_length]; exact hj), List.map_append,
    List.filter_append]
  congr 1
  by_cases h : c.is_changed (c.width - 1 - j, y) = true
  · simp [h]
  · simp [h]

/-- The inner loop of `lazy_display` over the row `y`, started after the changed cells
`L0` of the rows above: it returns, has written the pieces of the changed cells of the
row, and has made the row of `prev_buffer` equal to the pending row. -/
theorem Canvas.lazy_cells_spec (c : Canvas) (hc : c.WF) (y : Nat) (hy : y < c.height)
    (st0 : LazyState) (L0 : List (Nat × Nat))
    (hout : st0.output = c.header ++ c.lazy_pieces none L0)
    (hregs : c.regs_match st0 L0.getLast?)
    (hpl : st0.prev_buffer.length = c.height * c.width)
    (hp : ∀ i, st0.prev_buffer[i]? =
      if i < y * c.width then c.tile_buffer[i]? else c.prev_buffer[i]?) :
    ∃ st, (down_range c.width).foldlM (fun st x => c.lazy_cell y x st) st0 = .ok st ∧
      st.output = c.header ++ c.lazy_pieces none
        (L0 ++ ((down_range c.width).map (fun x => (x, y))).filter c.is_changed) ∧
      c.regs_match st
        (L0 ++ ((down_range c.width).map (fun x => (x, y))).filter c.is_changed).getLast? ∧
      st.prev_buffer.length = c.height * c.width ∧
      ∀ i, st.prev_buffer[i]? =
        if i < (y + 1) * c.width then c.tile_buffer[i]? else c.prev_buffer[i]? := by
  have hsucc : (y + 1) * c.width = y * c.width + c.width := Nat.succ_mul y c.width
  have h := foldlM_except_inv (fun st x => c.lazy_cell y x st) (down_range c.width)
    (fun j st =>
      st.output = c.header ++ c.lazy_pieces none
        (L0 ++ (((down_range c.width).take j).map (fun x => (x, y))).filter c.is_changed) ∧
      c.regs_match st
        (L0 ++ (((down_range c.width).take j).map (fun x => (x, y))).filter c.is_changed).getLast? ∧
      st.prev_buffer.length = c.height * c.width ∧
      ∀ i, st.prev_buffer[i]? =
        if i < y * c.width ∨ (y * c.width + (c.width - j) ≤ i ∧ i < y * c.width + c.width)
        then c.tile_buffer[i]? else c.prev_buffer[i]?)
    st0
    ⟨by simpa using hout, by simpa using hregs, hpl, fun i => by
      rw [hp i]
      by_cases h1 : i < y * c.width
      · rw [if_pos h1, if_pos (Or.inl h1)]
      · rw [if_neg h1, if_neg (by omega)]⟩
    (by
      intro j hj st ⟨ho, hr, hl, hb⟩
      rw [down_range_length] at hj
      rw [down_range_getElem _ _ (by rw [down_range_length]; exact hj)]
      have hx : c.width - 1 - j < c.width := by omega
      have hcur : st.prev_buffer[y * c.width + (c.width - 1 - j)]?
          = c.prev_buffer[y * c.width + (c.width - 1 - j)]? := by
        rw [hb, if_neg (by omega)]
      obtain ⟨st', h1, ho', hr', hl', hb'⟩ :=
        c.lazy_cell_spec hc _ y hx hy st _ hl hcur hr
      beta_reduce
      refine ⟨st', h1, ?_, ?_, hl', ?_⟩
      · rw [filter_take_succ_row c y j hj, ho', ho]
        by_cases hch : c.is_changed (c.width - 1 - j, y) = true
        · rw [if_pos hch, if_pos hch, ← List.append_assoc L0, c.lazy_pieces_append,
            Option.or_none, List.append_assoc]
        · rw [if_neg hch, if_neg hch]
          simp
      · rw [filter_take_succ_row c y j hj]
        by_cases hch : c.is_changed (c.width - 1 - j, y) = true
        · rw [if_pos hch] at hr' ⊢
          rw [← List.append_assoc, List.getLast?_append]
          simpa using hr'
        · rw [if_neg hch] at hr' ⊢
          simpa using hr'
      · intro i
        rw [hb' i, hb i]
        by_cases hi : i = y * c.width + (c.width - 1 - j)
        · rw [if_pos hi, if_pos (by omega)]
        · rw [if_neg hi]
          by_cases h2 : i < y * c.width ∨
              (y * c.width + (c.width - j) ≤ i ∧ i < y * c.width + c.width)
          · rw [if_pos h2, if_pos (by omega)]
          · rw [if_neg h2, if_neg (by omega)])
  obtain ⟨st, h1, ho, hr, hl, hb⟩ := h
  rw [down_range_length] at ho hr hb
  have htake : (down_range c.width).take c.width = down_range c.width := by
    apply List.take_of_length_le
    rw [down_range_length]
  rw [htake] at ho hr
  refine ⟨st, h1, ho, hr, hl, fun i => ?_⟩
  rw [hb i]
  by_cases h2 : i < (y + 1) * c.width
  · rw [if_pos h2, if_pos (by omega)]
  · rw [if_neg h2, if_neg (by omega)]

/-- The diff redraw returns; afterwards the last-emitted tiles are the pending ones, and
what it wrote is `lazy_output`. -/
theorem Canvas.lazy_display_eq (c : Canvas) (hc : c.WF) :
    c.lazy_display = .ok ({ c with prev_buffer := c.tile_buffer }, c.lazy_output) := by
  have h := foldlM_except_inv
    (fun st y => (down_range c.width).foldlM (fun st x => c.lazy_cell y x st) st)
    (List.range c.height)
    (fun k st =>
      st.output = c.header ++ c.lazy_pieces none
        ((((List.range c.height).take k).flatMap
          (fun y => (down_range c.width).map (fun x => (x, y)))).filter c.is_changed) ∧
      c.regs_match st
        ((((List.range c.height).take k).flatMap
          (fun y => (down_range c.width).map (fun x => (x, y)))).filter c.is_changed).getLast? ∧
      st.prev_buffer.length = c.height * c.width ∧
      ∀ i, st.prev_buffer[i]? =
        if i < k * c.width then c.tile_buffer[i]? else c.prev_buffer[i]?)
    { output := c.header, last_tile := none, last_y := 0, last_x := -1, first := true,
      prev_buffer := c.prev_buffer }
    ⟨by simp [Canvas.lazy_pieces], ⟨rfl, rfl, rfl⟩, hc.1, fun i => by simp⟩
    (by
      intro k hk st ⟨ho, hr, hl, hb⟩
      rw [List.length_range] at hk
      rw [List.getElem_range]
      obtain ⟨st', h1, ho', hr', hl', hb'⟩ := c.lazy_cells_spec hc k hk st _ ho hr hl hb
      beta_reduce
      rw [take_range_flatMap_succ _ _ hk, List.filter_append]
      exact ⟨st', h1, ho', hr', hl', hb'⟩)
  obtain ⟨st, h1, ho, -, hl, hb⟩ := h
  rw [List.length_range] at ho hb
  have htake : (List.range c.height).take c.height = List.range c.height := by
    apply List.take_of_length_le
    rw [List.length_range]
  rw [htake] at ho
  have hprev : st.prev_buffer = c.tile_buffer := by
    apply List.ext_getElem?
    intro i
    rw [hb i]
    by_cases hi : i < c.height * c.width
    · rw [if_pos hi]
    · rw [if_neg hi, List.getElem?_eq_none (by rw [hc.1]; omega),
        List.getElem?_eq_none (by rw [hc.2]; omega)]
  unfold Canvas.lazy_display
  simp only [Canvas.header_eq]
  rw [h1]
  simp only [hprev, ho, Canvas.lazy_output, Canvas.changed, Canvas.order, List.append_assoc,
    List.cons_append, List.nil_append]

/-- What `display` returns, on either path. -/
theorem Canvas.display_eq (c : Canvas) (hc : c.WF) :
    c.display = .ok
      ({ c with prev_buffer := c.tile_buffer, should_full_display := false },
        if c.should_full_display = true then c.full_output else c.lazy_output) := by
  unfold Canvas.display
  by_cases h : c.should_full_display = true
  · rw [if_pos h, if_pos h]
    exact c.full_display_eq hc
  · rw [if_neg h, if_neg h, c.lazy_display_eq hc]
    have : c.should_full_display = false := by simpa using h
    congr 2
    rw [← this]

/-- C13: after `display()` returns, by the full redraw or by the diff redraw, the
last-emitted matrix is the pending matrix, cell for cell (symbol, foreground and
background), the pending matrix is what it was, and the full-redraw flag is clear; the
dimensions and the offsets are untouched. -/
theorem display_synchronises (c : Canvas) (hc : c.WF) :
    ∃ c' output, c.display = .ok (c', output) ∧
      c'.prev_buffer = c'.tile_buffer ∧
      (∀ x y, x < c.width → y < c.height → c'.emitted x y = c'.pending x y) ∧
      c'.tile_buffer = c.tile_buffer ∧
      c'.should_full_display = false ∧
      c'.width = c.width ∧ c'.height = c.height ∧
      c'.offset_x = c.offset_x ∧ c'.offset_y = c.offset_y := by
  unfold Canvas.display
  by_cases h : c.should_full_display = true
  · rw [if_pos h, c.full_display_eq hc]
    exact ⟨_, _, rfl, rfl, fun x y _ _ => rfl, rfl, rfl, rfl, rfl, rfl, rfl⟩
  · rw [if_neg h, c.lazy_display_eq hc]
    have hflag : c.should_full_display = false := by simpa using h
    exact ⟨_, _, rfl, rfl, fun x y _ _ => rfl, rfl, hflag, rfl, rfl, rfl, rfl⟩

/-- Witness of C13: the tall canvas, which takes the full redraw. -/
theorem display_synchronises_witness :
    ∃ c' output, canvas_tall.display = .ok (c', output) ∧
      c'.prev_buffer = c'.tile_buffer ∧
      (∀ x y, x < canvas_tall.width → y < canvas_tall.height →
        c'.emitted x y = c'.pending x y) ∧
      c'.tile_buffer = canvas_tall.tile_buffer ∧
      c'.should_full_display = false ∧
      c'.width = canvas_tall.width ∧ c'.height = canvas_tall.height ∧
      c'.offset_x = canvas_tall.offset_x ∧ c'.offset_y = canvas_tall.offset_y :=
  display_synchronises canvas_tall (by decide)

/-! ## The output of the display functions -/

theorem Canvas.mem_order (c : Canvas) (p : Nat × Nat) :
    p ∈ c.order ↔ p.1 < c.width ∧ p.2 < c.height := by
  unfold Canvas.order down_range
  simp only [List.mem_flatMap, List.mem_range, List.mem_map, List.mem_reverse]
  constructor
  · rintro ⟨y, hy, x, hx, rfl⟩
    exact ⟨hx, hy⟩
  · rintro ⟨hx, hy⟩
    exact ⟨p.2, hy, p.1, hx, rfl⟩

theorem Canvas.mem_changed (c : Canvas) (p : Nat × Nat) :
    p ∈ c.changed ↔ (p.1 < c.width ∧ p.2 < c.height) ∧ c.emitted p.1 p.2 ≠ c.pending p.1 p.2 := by
  unfold Canvas.changed
  rw [List.mem_filter, c.mem_order]
  simp [Canvas.is_changed]

/-- After a display nothing is changed. -/
theorem Canvas.changed_after_display (c : Canvas) :
    Canvas.changed { c with prev_buffer := c.tile_buffer, should_full_display := false } = [] := by
  unfold Canvas.changed
  rw [List.filter_eq_nil_iff]
  intro p _
  simp [Canvas.is_changed, Canvas.emitted, Canvas.pending]

/-- C16 as the code has it: once one `display()` call has completed, a second `display()`
call with nothing in between writes no tile symbol, no cursor move to a cell and no colour
escape. Its output is the frame of the diff redraw alone: the cursor save, the move down
by `offset_y` when that is not 0, the cursor restore and the default-colour reset; and it
leaves the canvas as it is. -/
theorem second_display_writes_frame (c : Canvas) (hc : c.WF) :
    ∃ c1 output1, c.display = .ok (c1, output1) ∧
      c1.display = .ok (c1, c.header ++ [Out.restore, Out.reset]) ∧
      c.header = [Out.save] ++ (if c.offset_y ≠ 0 then [Out.down c.offset_y] else []) := by
  refine ⟨_, _, c.display_eq hc, ?_, rfl⟩
  have hc1 : Canvas.WF { c with prev_buffer := c.tile_buffer, should_full_display := false } :=
    ⟨hc.2, hc.2⟩
  rw [Canvas.display_eq _ hc1]
  simp only [Bool.false_eq_true, if_false, Canvas.lazy_output, c.changed_after_display,
    Canvas.lazy_pieces, List.append_nil]
  rfl

/-- Witness of C16 as amended: the tall canvas. -/
theorem second_display_writes_frame_witness :
    ∃ c1 output1, canvas_tall.display = .ok (c1, output1) ∧
      c1.display = .ok (c1, canvas_tall.header ++ [Out.restore, Out.reset]) ∧
      canvas_tall.header
        = [Out.save] ++ (if canvas_tall.offset_y ≠ 0 then [Out.down canvas_tall.offset_y] else []) :=
  second_display_writes_frame canvas_tall (by decide)

/-- C16 as stated fails: after the first `display()` of a new 2x1 canvas with `b a`
pending has completed, the second `display()` writes the 16 bytes of the cursor save, the
cursor restore and the colour reset, not the empty string. -/
theorem second_display_output_not_empty :
    (∃ output1, Canvas.display { Canvas.new 2 1 0 0 with tile_buffer := [tile_b, tile_a] }
      = .ok (canvas_ba, output1)) ∧
    canvas_ba.display = .ok (canvas_ba, [Out.save, Out.restore, Out.reset]) ∧
    output_bytes [Out.save, Out.restore, Out.reset]
      = [ESC, '[', 's', ESC, '[', 'u', ESC, '[', '3', '9', 'm', ESC, '[', '4', '9', 'm'] ∧
    output_bytes [Out.save, Out.restore, Out.reset] ≠ [] := by
  refine ⟨⟨_, rfl⟩, rfl, rfl, by decide⟩

theorem Canvas.order_pairwise (c : Canvas) : c.order.Pairwise display_before := by
  unfold Canvas.order
  rw [List.pairwise_flatMap]
  constructor
  · intro y _
    rw [List.pairwise_map]
    unfold down_range
    rw [List.pairwise_reverse]
    exact (List.pairwise_lt_range c.width).imp (fun h => Or.inr ⟨rfl, h⟩)
  · refine (List.pairwise_lt_range c.height).imp ?_
    intro y1 y2 hlt p hp q hq
    obtain ⟨x1, -, rfl⟩ := List.mem_map.1 hp
    obtain ⟨x2, -, rfl⟩ := List.mem_map.1 hq
    exact Or.inl hlt

theorem Tile.to_string_shape (t : Tile) :
    ∃ m, t.to_string = m ++ [Out.text t.symbol] ∧ ∀ o ∈ m, o.is_color = true := by
  unfold Tile.to_string
  by_cases h : t.symbol ≠ [' ']
  · refine ⟨[Out.fore t.fore_color, Out.back t.back_color], by simp [h], ?_⟩
    intro o ho
    simp only [List.mem_cons, List.mem_singleton, List.not_mem_nil, or_false] at ho
    rcases ho with rfl | rfl <;> rfl
  · refine ⟨[Out.back t.back_color], by simp [h], ?_⟩
    intro o ho
    simp only [List.mem_singleton] at ho
    subst ho
    rfl

theorem Canvas.lazy_piece_shape (c : Canvas) (pred : Option (Nat × Nat)) (p : Nat × Nat) :
    ∃ m, c.lazy_piece pred p = c.diff_piece p m ∧
      ∀ o ∈ m, o.is_row_move = true ∨ o.is_color = true := by
  obtain ⟨mc, hmc, hcol⟩ := (c.pending p.1 p.2).to_string_shape
  have hrow : ∀ (last_y : Int), ∀ o ∈ (if (p.2 : Int) ≠ last_y then
      [if (p.2 : Int) - last_y > 0 then Out.down ((p.2 : Int) - last_y).natAbs
        else Out.up ((p.2 : Int) - last_y).natAbs]
      else []), o.is_row_move = true := by
    intro last_y o ho
    split_ifs at ho with h1 h2
    · simp only [List.mem_singleton] at ho; subst ho; rfl
    · simp only [List.mem_singleton] at ho; subst ho; rfl
    · simp at ho
  unfold Canvas.lazy_piece Canvas.diff_piece
  simp only
  generalize (match pred with
    | some q => (q.2 : Int)
    | none => 0) = last_y
  by_cases hm : (match pred with
      | some q => (c.pending q.1 q.2).colors_differ (c.pending p.1 p.2)
      | none => true) = true
  · rw [if_pos hm, hmc]
    refine ⟨(if (p.2 : Int) ≠ last_y then
      [if (p.2 : Int) - last_y > 0 then Out.down ((p.2 : Int) - last_y).natAbs
        else Out.up ((p.2 : Int) - last_y).natAbs]
      else []) ++ mc, by simp only [List.append_assoc], ?_⟩
    intro o ho
    rcases List.mem_append.1 ho with h | h
    · exact Or.inl (hrow _ o h)
    · exact Or.inr (hcol o h)
  · rw [if_neg hm]
    refine ⟨(if (p.2 : Int) ≠ last_y then
      [if (p.2 : Int) - last_y > 0 then Out.down ((p.2 : Int) - last_y).natAbs
        else Out.up ((p.2 : Int) - last_y).natAbs]
      else []), by simp only [Tile.raw_symbol, List.append_assoc], ?_⟩
    intro o ho
    exact Or.inl (hrow _ o ho)

theorem colors_closed_append (a b : List Out) (ha : colors_closed a = true)
    (hb : colors_closed b = true) : colors_closed (a ++ b) = true := by
  induction a with
  | nil => exact hb
  | cons t rest ih =>
    simp only [colors_closed, Bool.and_eq_true, Bool.or_eq_true, Bool.not_eq_true',
      decide_eq_true_eq] at ha
    simp only [List.cons_append, colors_closed, Bool.and_eq_true, Bool.or_eq_true,
      Bool.not_eq_true', decide_eq_true_eq, List.mem_append]
    refine ⟨?_, ih ha.2⟩
    rcases ha.1 with h | h
    · exact Or.inl h
    · exact Or.inr (List.mem_append_left _ h)

theorem colors_closed_before_reset (a b : List Out) (hr : Out.reset ∈ b)
    (hb : colors_closed b = true) : colors_closed (a ++ b) = true := by
  induction a with
  | nil => exact hb
  | cons t rest ih =>
    simp only [List.cons_append, colors_closed, Bool.and_eq_true, Bool.or_eq_true,
      Bool.not_eq_true', decide_eq_true_eq, List.mem_append]
    exact ⟨Or.inr (List.mem_append_right _ hr), ih⟩

theorem colors_closed_flatMap {α : Type} (l : List α) (f : α → List Out)
    (h : ∀ a ∈ l, colors_closed (f a) = true) : colors_closed (l.flatMap f) = true := by
  induction l with
  | nil => rfl
  | cons a as ih =>
    rw [List.flatMap_cons]
    exact colors_closed_append _ _ (h a (List.mem_cons_self _ _))
      (ih (fun b hb => h b (List.mem_cons_of_mem _ hb)))

/-- What `colors_closed` says: a colour escape anywhere in the output has the reset
somewhere behind it. -/
theorem colors_closed_spec (l : List Out) (h : colors_closed l = true) (l1 : List Out) (t : Out)
    (l2 : List Out) (hl : l = l1 ++ t :: l2) (ht : t.is_color = true) : Out.reset ∈ l2 := by
  induction l1 generalizing l with
  | nil =>
    subst hl
    simp only [List.nil_append, colors_closed, Bool.and_eq_true, Bool.or_eq_true,
      Bool.not_eq_true', decide_eq_true_eq] at h
    rcases h.1 with h1 | h1
    · rw [ht] at h1; cases h1
    · exact h1
  | cons a as ih =>
    subst hl
    simp only [List.cons_append, colors_closed, Bool.and_eq_true] at h
    exact ih _ h.2 rfl

theorem Canvas.header_shape (c : Canvas) :
    ∃ m, c.header = [Out.save] ++ m ∧ colors_closed c.header = true ∧
      (∀ o ∈ m, o ≠ Out.restore) := by
  unfold Canvas.header
  by_cases h : c.offset_y ≠ 0
  · rw [if_pos h]
    refine ⟨_, rfl, rfl, ?_⟩
    intro o ho
    simp only [List.mem_singleton] at ho
    subst ho
    exact fun h' => Out.noConfusion h'
  · rw [if_neg h]
    exact ⟨[], rfl, rfl, by simp⟩

theorem Tile.to_string_no_restore (t : Tile) : ∀ o ∈ t.to_string, o ≠ Out.restore := by
  obtain ⟨m, hm, hcol⟩ := t.to_string_shape
  rw [hm]
  intro o ho
  rcases List.mem_append.1 ho with h | h
  · intro he
    have := hcol o h
    rw [he] at this
    cases this
  · simp only [List.mem_singleton] at h
    subst h
    exact fun h' => Out.noConfusion h'

theorem Canvas.full_piece_no_restore (c : Canvas) (y x : Nat) :
    ∀ o ∈ c.full_piece y x, o ≠ Out.restore := by
  intro o ho
  unfold Canvas.full_piece at ho
  rcases List.mem_append.1 ho with h | h
  · simp only [List.mem_singleton] at h
    subst h
    exact fun h' => Out.noConfusion h'
  · split_ifs at h
    · exact Tile.to_string_no_restore _ o h
    · simp only [Tile.raw_symbol, List.mem_singleton] at h
      subst h
      exact fun h' => Out.noConfusion h'

theorem Canvas.full_row_output_shape (c : Canvas) (y : Nat) :
    colors_closed (c.full_row_output y) = true ∧ ∀ o ∈ c.full_row_output y, o ≠ Out.restore := by
  unfold Canvas.full_row_output
  refine ⟨colors_closed_before_reset _ _ (List.mem_cons_self _ _) rfl, ?_⟩
  intro o ho
  rcases List.mem_append.1 ho with h | h
  · obtain ⟨x, -, hx⟩ := List.mem_flatMap.1 h
    exact c.full_piece_no_restore y x o hx
  · simp only [List.mem_cons, List.mem_singleton, List.not_mem_nil, or_false] at h
    rcases h with rfl | rfl <;> exact fun h' => Out.noConfusion h'

theorem Canvas.lazy_pieces_no_restore (c : Canvas) (pred : Option (Nat × Nat))
    (l : List (Nat × Nat)) : ∀ o ∈ c.lazy_pieces pred l, o ≠ Out.restore := by
  induction l generalizing pred with
  | nil => simp [Canvas.lazy_pieces]
  | cons p rest ih =>
    intro o ho
    simp only [Canvas.lazy_pieces] at ho
    rcases List.mem_append.1 ho with h | h
    · obtain ⟨m, hm, hmid⟩ := c.lazy_piece_shape pred p
      rw [hm] at h
      unfold Canvas.diff_piece at h
      simp only [List.mem_append, List.mem_singleton] at h
      rcases h with (h | h) | h
      · subst h
        exact fun h' => Out.noConfusion h'
      · intro he
        have := hmid o h
        rw [he] at this
        rcases this with h1 | h1 <;> cases h1
      · subst h
        exact fun h' => Out.noConfusion h'
    · exact ih (some p) o h

theorem count_restore_frame (body tail : List Out) (hbody : ∀ o ∈ body, o ≠ Out.restore)
    (htail : ∀ o ∈ tail, o = Out.reset) :
    ([Out.save] ++ body ++ [Out.restore] ++ tail).count Out.restore = 1 := by
  have h1 : body.count Out.restore = 0 := by
    rw [List.count_eq_zero]
    intro h
    exact hbody _ h rfl
  have h2 : tail.count Out.restore = 0 := by
    rw [List.count_eq_zero]
    intro h
    have := htail _ h
    cases this
  simp only [List.count_append, h1, h2]
  decide

/-! ## The bytes of the output -/

theorem digitChar_plain : ∀ m < 10, Nat.digitChar m ≠ ESC ∧ Nat.digitChar m ≠ 'u' := by
  decide

theorem toDigitsCore_plain (fuel n : Nat) (ds : List Char)
    (h : ∀ ch ∈ ds, ch ≠ ESC ∧ ch ≠ 'u') :
    ∀ ch ∈ Nat.toDigitsCore 10 fuel n ds, ch ≠ ESC ∧ ch ≠ 'u' := by
  induction fuel generalizing n ds with
  | zero => exact h
  | succ f ih =>
    have hcons : ∀ ch ∈ Nat.digitChar (n % 10) :: ds, ch ≠ ESC ∧ ch ≠ 'u' := by
      intro ch hch
      rcases List.mem_cons.1 hch with rfl | h'
      · exact digitChar_plain _ (Nat.mod_lt _ (by decide))
      · exact h ch h'
    unfold Nat.toDigitsCore
    simp only
    split_ifs
    · exact hcons
    · exact ih _ _ hcons

theorem decimal_plain (n : Nat) : ∀ ch ∈ decimal n, ch ≠ ESC ∧ ch ≠ 'u' :=
  toDigitsCore_plain _ _ [] (by simp)

/-- A stretch without the escape character holds no start of the cursor restore. -/
theorem occurrences_skip (a b : List Char) (ha : ∀ ch ∈ a, ch ≠ ESC) :
    occurrences [ESC, '[', 'u'] (a ++ b) = occurrences [ESC, '[', 'u'] b := by
  induction a with
  | nil => rfl
  | cons ch rest ih =>
    have hne : ch ≠ ESC := ha ch (List.mem_cons_self _ _)
    have hpre : List.isPrefixOf [ESC, '[', 'u'] (ch :: (rest ++ b)) = false := by
      simp only [List.isPrefixOf, Bool.and_eq_false_imp, beq_iff_eq]
      intro h
      exact absurd h.symm hne
    rw [List.cons_append, occurrences, hpre, ih (fun c hc => ha c (List.mem_cons_of_mem _ hc))]
    simp

/-- An escape sequence other than the cursor restore: the escape character, an opening
bracket, a character that is no `u`, and a rest without the escape character. -/
theorem occurrences_escape (x : Char) (tl b : List Char) (hx : x ≠ 'u' ∧ x ≠ ESC)
    (htl : ∀ ch ∈ tl, ch ≠ ESC) :
    occurrences [ESC, '[', 'u'] (ESC :: '[' :: x :: tl ++ b) = occurrences [ESC, '[', 'u'] b := by
  have hpre : List.isPrefixOf [ESC, '[', 'u'] (ESC :: '[' :: x :: (tl ++ b)) = false := by
    simp only [List.isPrefixOf, beq_self_eq_true, Bool.true_and, Bool.and_true,
      beq_eq_false_iff_ne, ne_eq]
    exact fun h => hx.1 h.symm
  have hrest := occurrences_skip ('[' :: x :: tl) b (by
    intro ch hch
    rcases List.mem_cons.1 hch with rfl | hch
    · decide
    · rcases List.mem_cons.1 hch with rfl | hch
      · exact hx.2
      · exact htl ch hch)
  show occurrences [ESC, '[', 'u'] (ESC :: '[' :: x :: (tl ++ b)) = _
  rw [occurrences, hpre]
  simpa using hrest

/-- An escape sequence whose body, behind the opening bracket, is not empty and holds
neither the escape character nor a `u`, has no start of the cursor restore. -/
theorem occurrences_body (body b : List Char) (hne : body ≠ [])
    (hbody : ∀ ch ∈ body, ch ≠ ESC ∧ ch ≠ 'u') :
    occurrences [ESC, '[', 'u'] (ESC :: '[' :: body ++ b) = occurrences [ESC, '[', 'u'] b := by
  cases body with
  | nil => exact absurd rfl hne
  | cons x tl =>
    have hx := hbody x (List.mem_cons_self _ _)
    exact occurrences_escape x tl b ⟨hx.2, hx.1⟩
      (fun ch hch => (hbody ch (List.mem_cons_of_mem _ hch)).1)

theorem plain_append {a b : List Char} (ha : ∀ ch ∈ a, ch ≠ ESC ∧ ch ≠ 'u')
    (hb : ∀ ch ∈ b, ch ≠ ESC ∧ ch ≠ 'u') : ∀ ch ∈ a ++ b, ch ≠ ESC ∧ ch ≠ 'u' := by
  intro ch hch
  rcases List.mem_append.1 hch with h | h
  · exact ha ch h
  · exact hb ch h

theorem color_body_plain (k : Char) (hk : k ≠ ESC ∧ k ≠ 'u') (c : RGB) :
    ∀ ch ∈ [k, '8', ';', '2', ';'] ++ decimal c.red ++ [';'] ++ decimal c.green ++ [';']
      ++ decimal c.blue ++ ['m'], ch ≠ ESC ∧ ch ≠ 'u' := by
  have hlit : ∀ ch ∈ [k, '8', ';', '2', ';'], ch ≠ ESC ∧ ch ≠ 'u' := by
    intro ch hch
    rcases List.mem_cons.1 hch with rfl | hch
    · exact hk
    · exact (by decide : ∀ d ∈ ['8', ';', '2', ';'], d ≠ ESC ∧ d ≠ 'u') ch hch
  exact plain_append (plain_append (plain_append (plain_append (plain_append
    (plain_append hlit (decimal_plain _)) (by decide)) (decimal_plain _)) (by decide))
    (decimal_plain _)) (by decide)

/-- The starts of the cursor restore in the bytes of one piece of output: one in the
cursor restore itself, none in any other piece whose text holds no escape character. -/
theorem occurrences_piece (o : Out) (b : List Char)
    (ho : ∀ s, o = Out.text s → ∀ ch ∈ s, ch ≠ ESC) :
    occurrences [ESC, '[', 'u'] (o.bytes ++ b)
      = (if o = Out.restore then 1 else 0) + occurrences [ESC, '[', 'u'] b := by
  cases o with
  | save =>
    rw [if_neg (by decide)]
    simpa using occurrences_body ['s'] b (by decide) (by decide)
  | restore =>
    have h := occurrences_skip ['[', 'u'] b (by decide)
    show occurrences [ESC, '[', 'u'] (ESC :: '[' :: 'u' :: b) = _
    rw [occurrences]
    simpa [List.isPrefixOf] using h
  | down n =>
    rw [if_neg (by simp)]
    have h := occurrences_body (decimal n ++ ['B']) b (by simp)
      (plain_append (decimal_plain n) (by decide))
    simpa [Out.bytes] using h
  | up n =>
    rw [if_neg (by simp)]
    have h := occurrences_body (decimal n ++ ['A']) b (by simp)
      (plain_append (decimal_plain n) (by decide))
    simpa [Out.bytes] using h
  | column n =>
    rw [if_neg (by simp)]
    have h := occurrences_body (decimal n ++ ['G']) b (by simp)
      (plain_append (decimal_plain n) (by decide))
    simpa [Out.bytes] using h
  | fore c =>
    rw [if_neg (by simp)]
    have h := occurrences_body _ b (by simp) (color_body_plain '3' (by decide) c)
    simpa [Out.bytes] using h
  | back c =>
    rw [if_neg (by simp)]
    have h := occurrences_body _ b (by simp) (color_body_plain '4' (by decide) c)
    simpa [Out.bytes] using h
  | reset =>
    rw [if_neg (by decide)]
    have h1 := occurrences_body ['3', '9', 'm'] (ESC :: '[' :: '4' :: '9' :: 'm' :: b)
      (by decide) (by decide)
    have h2 := occurrences_body ['4', '9', 'm'] b (by decide) (by decide)
    simp only [List.cons_append, List.nil_append] at h1 h2
    show occurrences [ESC, '[', 'u']
      (ESC :: '[' :: '3' :: '9' :: 'm' :: ESC :: '[' :: '4' :: '9' :: 'm' :: b) = _
    rw [h1, h2]
    simp
  | text s =>
    rw [if_neg (by simp)]
    simpa [Out.bytes] using occurrences_skip s b (ho s rfl)
  | crlf =>
    rw [if_neg (by decide)]
    simpa [Out.bytes] using occurrences_skip ['\r', '\n'] b (by decide)

/-- The cursor restore starts in the bytes of an output as often as the output holds the
cursor restore, when no text of the output holds the escape character. -/
theorem occurrences_output (l : List Out)
    (hl : ∀ o ∈ l, ∀ s, o = Out.text s → ∀ ch ∈ s, ch ≠ ESC) :
    occurrences [ESC, '[', 'u'] (output_bytes l) = l.count Out.restore := by
  induction l with
  | nil => rfl
  | cons o rest ih =>
    have h := occurrences_piece o (output_bytes rest) (hl o (List.mem_cons_self _ _))
    have hrest := ih (fun p hp => hl p (List.mem_cons_of_mem _ hp))
    show occurrences [ESC, '[', 'u'] (o.bytes ++ output_bytes rest) = _
    rw [h, hrest, List.count_cons]
    by_cases ho : o = Out.restore
    · subst ho
      simp
      omega
    · have hne : (o == Out.restore) = false := by simpa using ho
      rw [if_neg ho, hne]
      simp

theorem Canvas.pending_plain (c : Canvas)
    (hsym : ∀ t ∈ c.tile_buffer, ∀ ch ∈ t.symbol, ch ≠ ESC) (x y : Nat) :
    ∀ ch ∈ (c.pending x y).symbol, ch ≠ ESC := by
  unfold Canvas.pending
  rw [List.getD_eq_getElem?_getD]
  cases h : c.tile_buffer[y * c.width + x]? with
  | none => exact (by decide : ∀ ch ∈ Tile.blank.symbol, ch ≠ ESC)
  | some t =>
    obtain ⟨hlt, hget⟩ := List.getElem?_eq_some.1 h
    exact hsym t (hget ▸ List.getElem_mem hlt)

theorem Tile.to_string_text (t : Tile) :
    (∀ o ∈ t.to_string, ∀ s, o = Out.text s → s = t.symbol) ∧
      (∀ o ∈ t.raw_symbol, ∀ s, o = Out.text s → s = t.symbol) := by
  constructor
  · intro o ho s hs
    subst hs
    unfold Tile.to_string at ho
    split_ifs at ho <;> simpa using ho
  · intro o ho s hs
    subst hs
    simpa [Tile.raw_symbol] using ho

/-- Every text a full redraw writes is the symbol of a pending tile. -/
theorem Canvas.full_output_text (c : Canvas) :
    ∀ o ∈ c.full_output, ∀ s, o = Out.text s → ∃ x y, s = (c.pending x y).symbol := by
  intro o ho s hs
  subst hs
  unfold Canvas.full_output Canvas.header at ho
  rcases List.mem_append.1 ho with h | h
  · rcases List.mem_append.1 h with h | h
    · split_ifs at h <;> simp at h
    · obtain ⟨y, -, hy⟩ := List.mem_flatMap.1 h
      unfold Canvas.full_row_output at hy
      rcases List.mem_append.1 hy with h' | h'
      · obtain ⟨x, -, hx⟩ := List.mem_flatMap.1 h'
        unfold Canvas.full_piece at hx
        rcases List.mem_append.1 hx with h'' | h''
        · simp at h''
        · split_ifs at h''
          · exact ⟨x, y, (Tile.to_string_text _).1 _ h'' _ rfl⟩
          · exact ⟨x, y, (Tile.to_string_text _).2 _ h'' _ rfl⟩
      · simp at h'
  · simp at h

theorem Canvas.lazy_pieces_text (c : Canvas) (cells : List (Nat × Nat)) :
    ∀ pred, ∀ o ∈ c.lazy_pieces pred cells, ∀ s, o = Out.text s →
      ∃ x y, s = (c.pending x y).symbol := by
  induction cells with
  | nil =>
    intro pred o ho
    simp [Canvas.lazy_pieces] at ho
  | cons cur rest ih =>
    intro pred o ho s hs
    unfold Canvas.lazy_pieces at ho
    rcases List.mem_append.1 ho with h | h
    · subst hs
      unfold Canvas.lazy_piece at h
      simp only at h
      rcases List.mem_append.1 h with h' | h'
      · rcases List.mem_append.1 h' with h'' | h''
        · simp at h''
        · split_ifs at h'' <;> simp at h''
      · split_ifs at h'
        · exact ⟨_, _, (Tile.to_string_text _).1 _ h' _ rfl⟩
        · exact ⟨_, _, (Tile.to_string_text _).2 _ h' _ rfl⟩
    · exact ih _ o h s hs

/-- Every text a diff redraw writes is the symbol of a pending tile. -/
theorem Canvas.lazy_output_text (c : Canvas) :
    ∀ o ∈ c.lazy_output, ∀ s, o = Out.text s → ∃ x y, s = (c.pending x y).symbol := by
  intro o ho s hs
  unfold Canvas.lazy_output Canvas.header at ho
  rcases List.mem_append.1 ho with h | h
  · rcases List.mem_append.1 h with h | h
    · subst hs
      split_ifs at h <;> simp at h
    · exact c.lazy_pieces_text _ _ o h s hs
  · subst hs
    simp at h

/-- C18: `display()` leaks neither cursor nor colour state. On either path it returns and
its output starts with the cursor save, holds exactly one cursor restore, and has nothing
behind the restore but the default-colour reset, so that every tile symbol and every cursor
move comes before the restore; and every colour escape of the output has the default-colour
reset somewhere behind it, so that no colour escape follows the last reset. The bytes of
the output start with `ESC [ s`, and, no tile symbol holding the escape character, the
bytes `ESC [ u` start at exactly one place of them. -/
theorem display_restores_state (c : Canvas) (hc : c.WF)
    (hsym : ∀ t ∈ c.tile_buffer, ∀ ch ∈ t.symbol, ch ≠ ESC) :
    ∃ c' output body tail, c.display = .ok (c', output) ∧
      output = [Out.save] ++ body ++ [Out.restore] ++ tail ∧
      (∀ o ∈ body, o ≠ Out.restore) ∧
      (∀ o ∈ tail, o = Out.reset) ∧
      output.count Out.restore = 1 ∧
      (∀ l1 t l2, output = l1 ++ t :: l2 → t.is_color = true → Out.reset ∈ l2) ∧
      (∃ rest, output_bytes output = [ESC, '[', 's'] ++ rest) ∧
      occurrences [ESC, '[', 'u'] (output_bytes output) = 1 := by
  obtain ⟨m, hm, hmc, hmr⟩ := c.header_shape
  by_cases hflag : c.should_full_display = true
  · have hdisp : c.display = .ok
        ({ c with prev_buffer := c.tile_buffer, should_full_display := false },
          c.full_output) := by
      unfold Canvas.display
      rw [if_pos hflag]
      exact c.full_display_eq hc
    have hbody : ∀ o ∈ m ++ (List.range c.height).flatMap c.full_row_output,
        o ≠ Out.restore := by
      intro o ho
      rcases List.mem_append.1 ho with h | h
      · exact hmr o h
      · obtain ⟨y, -, hy⟩ := List.mem_flatMap.1 h
        exact (c.full_row_output_shape y).2 o hy
    have heq : c.full_output = [Out.save]
        ++ (m ++ (List.range c.height).flatMap c.full_row_output) ++ [Out.restore] ++ [] := by
      unfold Canvas.full_output
      rw [hm]
      simp only [List.append_assoc, List.append_nil]
    have hclosed : colors_closed c.full_output = true := by
      unfold Canvas.full_output
      exact colors_closed_append _ _
        (colors_closed_append _ _ hmc
          (colors_closed_flatMap _ _ (fun y _ => (c.full_row_output_shape y).1))) rfl
    have hcount : c.full_output.count Out.restore = 1 := by
      rw [heq]
      exact count_restore_frame _ _ hbody (by simp)
    have hplain : ∀ o ∈ c.full_output, ∀ s, o = Out.text s → ∀ ch ∈ s, ch ≠ ESC := by
      intro o ho s hs
      obtain ⟨x, y, hxy⟩ := c.full_output_text o ho s hs
      rw [hxy]
      exact c.pending_plain hsym x y
    refine ⟨_, _, _, [], hdisp, heq, hbody, by simp, hcount, colors_closed_spec _ hclosed,
      ?_, ?_⟩
    · rw [heq]
      exact ⟨_, rfl⟩
    · rw [occurrences_output _ hplain, hcount]
  · have hdisp : c.display = .ok ({ c with prev_buffer := c.tile_buffer }, c.lazy_output) := by
      unfold Canvas.display
      rw [if_neg hflag]
      exact c.lazy_display_eq hc
    have hbody : ∀ o ∈ m ++ c.lazy_pieces none c.changed, o ≠ Out.restore := by
      intro o ho
      rcases List.mem_append.1 ho with h | h
      · exact hmr o h
      · exact c.lazy_pieces_no_restore none _ o h
    have heq : c.lazy_output = [Out.save]
        ++ (m ++ c.lazy_pieces none c.changed) ++ [Out.restore] ++ [Out.reset] := by
      unfold Canvas.lazy_output
      rw [hm]
      simp only [List.append_assoc, List.cons_append, List.nil_append]
    have hclosed : colors_closed c.lazy_output = true := by
      unfold Canvas.lazy_output
      exact colors_closed_before_reset _ _ (by simp) rfl
    have hcount : c.lazy_output.count Out.restore = 1 := by
      rw [heq]
      exact count_restore_frame _ _ hbody (by simp)
    have hplain : ∀ o ∈ c.lazy_output, ∀ s, o = Out.text s → ∀ ch ∈ s, ch ≠ ESC := by
      intro o ho s hs
      obtain ⟨x, y, hxy⟩ := c.lazy_output_text o ho s hs
      rw [hxy]
      exact c.pending_plain hsym x y
    refine ⟨_, _, _, [Out.reset], hdisp, heq, hbody, by simp, hcount,
      colors_closed_spec _ hclosed, ?_, ?_⟩
    · rw [heq]
      exact ⟨_, rfl⟩
    · rw [occurrences_output _ hplain, hcount]

/-- Witness of C18: the diff redraw of one changed cell. -/
theorem display_restores_state_witness :
    ∃ c' output body tail, canvas_b_blank.display = .ok (c', output) ∧
      output = [Out.save] ++ body ++ [Out.restore] ++ tail ∧
      (∀ o ∈ body, o ≠ Out.restore) ∧
      (∀ o ∈ tail, o = Out.reset) ∧
      output.count Out.restore = 1 ∧
      (∀ l1 t l2, output = l1 ++ t :: l2 → t.is_color = true → Out.reset ∈ l2) ∧
      (∃ rest, output_bytes output = [ESC, '[', 's'] ++ rest) ∧
      occurrences [ESC, '[', 'u'] (output_bytes output) = 1 :=
  display_restores_state canvas_b_blank (by decide) (by decide)

/-! ## Hiding the canvas -/

theorem Terminal.run_append (t : Terminal) (a b : List Out) :
    t.run (a ++ b) = (t.run a).run b := by
  unfold Terminal.run
  rw [List.foldl_append]

theorem Terminal.run_cons (t : Terminal) (o : Out) (rest : List Out) :
    t.run (o :: rest) = (t.step o).run rest := rfl

theorem Terminal.run_nil (t : Terminal) : t.run [] = t := rfl

/-- The effect of writing a tile, with its colour escapes or bare: the cell at the cursor
holds the symbol in the colours the terminal has afterwards, no other cell changes, the
row stays, and with the escapes the background is the one of the tile, and so is the
foreground unless the symbol is a blank. -/
theorem Terminal.emit_effect (t : Terminal) (tile : Tile) (esc : Bool) :
    (t.run (if esc = true then tile.to_string else tile.raw_symbol)).row = t.row ∧
    (t.run (if esc = true then tile.to_string else tile.raw_symbol)).back
      = (if esc = true then Colour.rgb tile.back_color else t.back) ∧
    (t.run (if esc = true then tile.to_string else tile.raw_symbol)).fore
      = (if esc = true ∧ tile.symbol ≠ [' '] then Colour.rgb tile.fore_color else t.fore) ∧
    ∀ cx cy, (t.run (if esc = true then tile.to_string else tile.raw_symbol)).cells cx cy
      = if cx = t.col ∧ cy = t.row then
          { symbol := tile.symbol
            fore := (if esc = true ∧ tile.symbol ≠ [' '] then Colour.rgb tile.fore_color
              else t.fore)
            back := (if esc = true then Colour.rgb tile.back_color else t.back) }
        else t.cells cx cy := by
  cases esc
  · simp [Tile.raw_symbol, Terminal.run, Terminal.step]
  · by_cases h : tile.symbol = [' ']
    · simp [Tile.to_string, h, Terminal.run, Terminal.step]
    · simp [Tile.to_string, h, Terminal.run, Terminal.step]

/-- A list of pieces written one after the other takes an invariant of the terminal from
0 to the length of the list. -/
theorem Terminal.run_flatMap_inv {α : Type} (l : List α) (f : α → List Out)
    (P : Nat → Terminal → Prop) (t0 : Terminal) (h0 : P 0 t0)
    (hstep : ∀ (j : Nat) (hj : j < l.length) (t : Terminal), P j t → P (j + 1) (t.run (f l[j]))) :
    P l.length (t0.run (l.flatMap f)) := by
  induction l generalizing P t0 with
  | nil => exact h0
  | cons a as ih =>
    rw [List.flatMap_cons, Terminal.run_append]
    exact ih (fun j t => P (j + 1) t) (t0.run (f a)) (hstep 0 (by simp) t0 h0)
      (fun j hj t hp => hstep (j + 1) (by simp; omega) t hp)

theorem Tile.colors_differ_false (a b : Tile) (h : ¬ (a.colors_differ b = true)) :
    a.fore_color = b.fore_color ∧ a.back_color = b.back_color := by
  unfold Tile.colors_differ at h
  simp only [Bool.or_eq_true, not_or] at h
  constructor
  · by_contra hne
    exact h.1 ((RGB.ne_iff _ _).2 hne)
  · by_contra hne
    exact h.2 ((RGB.ne_iff _ _).2 hne)

/-- What the output of one row of a full redraw does to the terminal: the cells of the
row at the cursor row show the pending tiles of the row, no cell of another row changes,
and the cursor ends one row down. -/
theorem Canvas.full_row_shows (c : Canvas) (k : Bool)
    (hk : k = true → ∀ x y, x < c.width → y < c.height → (c.pending x y).symbol ≠ [' '])
    (y : Nat) (hy : y < c.height) (t : Terminal) :
    (t.run (c.full_row_output y)).row = t.row + 1 ∧
    (∀ cx cy, cy ≠ t.row → (t.run (c.full_row_output y)).cells cx cy = t.cells cx cy) ∧
    ∀ x, x < c.width →
      ((t.run (c.full_row_output y)).cells (c.offset_x + x) t.row).shows (c.pending x y) k := by
  have h := Terminal.run_flatMap_inv (down_range c.width) (c.full_piece y)
    (fun j t1 =>
      t1.row = t.row ∧
      (∀ cx cy, cy ≠ t.row → t1.cells cx cy = t.cells cx cy) ∧
      (∀ x, c.width - j ≤ x → x < c.width →
        (t1.cells (c.offset_x + x) t.row).shows (c.pending x y) k) ∧
      (0 < j → t1.back = .rgb (c.pending (c.width - j) y).back_color ∧
        (k = true → t1.fore = .rgb (c.pending (c.width - j) y).fore_color)))
    t
    ⟨rfl, fun _ _ _ => rfl, fun x h1 h2 => by omega, fun h => by omega⟩
    (by
      intro j hj t1 ⟨hrow, hother, hcells, hcol⟩
      rw [down_range_length] at hj
      rw [down_range_getElem _ _ (by rw [down_range_length]; exact hj)]
      have hx : c.width - 1 - j < c.width := by omega
      have hpiece : c.full_piece y (c.width - 1 - j)
          = Out.column (c.offset_x + (c.width - 1 - j) + 1) ::
            (if decide (c.width - 1 - j + 1 = c.width ∨
                (c.pending (c.width - 1 - j + 1) y).colors_differ
                  (c.pending (c.width - 1 - j) y) = true) = true
              then (c.pending (c.width - 1 - j) y).to_string
              else (c.pending (c.width - 1 - j) y).raw_symbol) := by
        unfold Canvas.full_piece
        simp only [decide_eq_true_eq, List.singleton_append]
      rw [hpiece, Terminal.run_cons]
      obtain ⟨e1, e2, e3, e4⟩ := Terminal.emit_effect
        (t1.step (Out.column (c.offset_x + (c.width - 1 - j) + 1)))
        (c.pending (c.width - 1 - j) y)
        (decide (c.width - 1 - j + 1 = c.width ∨
          (c.pending (c.width - 1 - j + 1) y).colors_differ
            (c.pending (c.width - 1 - j) y) = true))
      have hstepcol : (t1.step (Out.column (c.offset_x + (c.width - 1 - j) + 1))).col
          = c.offset_x + (c.width - 1 - j) := by
        simp [Terminal.step]
      have hsteprow : (t1.step (Out.column (c.offset_x + (c.width - 1 - j) + 1))).row
          = t.row := hrow
      have hstepcells : (t1.step (Out.column (c.offset_x + (c.width - 1 - j) + 1))).cells
          = t1.cells := rfl
      have hstepback : (t1.step (Out.column (c.offset_x + (c.width - 1 - j) + 1))).back
          = t1.back := rfl
      have hstepfore : (t1.step (Out.column (c.offset_x + (c.width - 1 - j) + 1))).fore
          = t1.fore := rfl
      rw [hstepcol, hsteprow, hstepcells] at e4
      rw [hsteprow] at e1
      rw [hstepback] at e2 e4
      rw [hstepfore] at e3 e4
      have hback : (if decide (c.width - 1 - j + 1 = c.width ∨
            (c.pending (c.width - 1 - j + 1) y).colors_differ
              (c.pending (c.width - 1 - j) y) = true) = true
          then Colour.rgb (c.pending (c.width - 1 - j) y).back_color else t1.back)
          = Colour.rgb (c.pending (c.width - 1 - j) y).back_color := by
        by_cases hc : c.width - 1 - j + 1 = c.width ∨
            (c.pending (c.width - 1 - j + 1) y).colors_differ
              (c.pending (c.width - 1 - j) y) = true
        · simp [hc]
        · have hj0 : 0 < j := by omega
          have hidx : c.width - j = c.width - 1 - j + 1 := by omega
          rw [if_neg (by simpa using hc), (hcol hj0).1, hidx,
            (Tile.colors_differ_false _ _ (fun h => hc (Or.inr h))).2]
      have hfore : k = true → (if decide (c.width - 1 - j + 1 = c.width ∨
            (c.pending (c.width - 1 - j + 1) y).colors_differ
              (c.pending (c.width - 1 - j) y) = true) = true
            ∧ (c.pending (c.width - 1 - j) y).symbol ≠ [' ']
          then Colour.rgb (c.pending (c.width - 1 - j) y).fore_color else t1.fore)
          = Colour.rgb (c.pending (c.width - 1 - j) y).fore_color := by
        intro hkt
        have hsym := hk hkt _ y hx hy
        by_cases hc : c.width - 1 - j + 1 = c.width ∨
            (c.pending (c.width - 1 - j + 1) y).colors_differ
              (c.pending (c.width - 1 - j) y) = true
        · rw [if_pos ⟨by simpa using hc, hsym⟩]
        · have hj0 : 0 < j := by omega
          have hidx : c.width - j = c.width - 1 - j + 1 := by omega
          rw [if_neg (fun h => hc (by simpa using h.1)), (hcol hj0).2 hkt, hidx,
            (Tile.colors_differ_false _ _ (fun h => hc (Or.inr h))).1]
      refine ⟨e1, ?_, ?_, ?_⟩
      · intro cx cy hcy
        rw [e4, if_neg (fun h => hcy h.2)]
        exact hother cx cy hcy
      · intro x hx1 hx2
        rw [e4]
        by_cases hxe : x = c.width - 1 - j
        · subst hxe
          rw [if_pos ⟨rfl, rfl⟩]
          exact ⟨rfl, hback, hfore⟩
        · rw [if_neg (fun h => hxe (by omega))]
          exact hcells x (by omega) hx2
      · intro _
        have hidx : c.width - (j + 1) = c.width - 1 - j := by omega
        rw [hidx, e2, e3]
        exact ⟨hback, hfore⟩)
  rw [down_range_length] at h
  obtain ⟨hrow, hother, hcells, -⟩ := h
  unfold Canvas.full_row_output
  rw [Terminal.run_append]
  refine ⟨?_, ?_, ?_⟩
  · simp only [Terminal.run, List.foldl_cons, List.foldl_nil, Terminal.step]
    rw [← hrow]
    rfl
  · intro cx cy hcy
    exact hother cx cy hcy
  · intro x hx
    exact hcells x (by omega) hx

theorem Canvas.header_effect (c : Canvas) (t : Terminal) :
    (t.run c.header).row = t.row + c.offset_y ∧ (t.run c.header).cells = t.cells := by
  unfold Canvas.header
  by_cases h : c.offset_y ≠ 0
  · rw [if_pos h]
    exact ⟨rfl, rfl⟩
  · rw [if_neg h]
    have : c.offset_y = 0 := by simpa using h
    rw [this]
    exact ⟨rfl, rfl⟩

/-- After a full redraw the footprint shows the pending tiles: their symbols and
background colours, and also their foreground colours if no pending tile is a blank. -/
theorem Canvas.full_output_shows (c : Canvas) (k : Bool)
    (hk : k = true → ∀ x y, x < c.width → y < c.height → (c.pending x y).symbol ≠ [' '])
    (t : Terminal) : (t.run c.full_output).shows c t.row c.pending k := by
  obtain ⟨hr1, hc1⟩ := c.header_effect t
  have h := Terminal.run_flatMap_inv (List.range c.height) c.full_row_output
    (fun n t2 =>
      t2.row = (t.run c.header).row + n ∧
      ∀ y, y < n → ∀ x, x < c.width →
        (t2.cells (c.offset_x + x) ((t.run c.header).row + y)).shows (c.pending x y) k)
    (t.run c.header)
    ⟨rfl, fun y hy => by omega⟩
    (by
      intro n hn t2 ⟨hrow, hcells⟩
      rw [List.length_range] at hn
      rw [List.getElem_range]
      obtain ⟨e1, e2, e3⟩ := c.full_row_shows k hk n hn t2
      refine ⟨by rw [e1, hrow]; omega, ?_⟩
      intro y hy x hx
      by_cases hyn : y = n
      · subst hyn
        rw [← hrow]
        exact e3 x hx
      · rw [e2 _ _ (by rw [hrow]; omega)]
        exact hcells y (by omega) x hx)
  rw [List.length_range] at h
  obtain ⟨-, hcells⟩ := h
  unfold Canvas.full_output
  rw [Terminal.run_append, Terminal.run_append]
  intro x y hx hy
  have := hcells y hy x hx
  rw [hr1] at this
  exact this

/-- What the piece of one changed cell of a diff redraw does to the terminal, when the
cursor is in the row of the changed cell written before: the cell of `p` holds the pending
symbol in the colours the terminal has afterwards, no other cell changes, and the cursor
is in the row of `p`. -/
theorem Canvas.lazy_piece_effect (c : Canvas) (pred : Option (Nat × Nat)) (p : Nat × Nat)
    (t : Terminal) (R0 : Nat) (hrow : t.row = R0 + last_row pred) (hle : last_row pred ≤ p.2) :
    (t.run (c.lazy_piece pred p)).row = R0 + p.2 ∧
    (t.run (c.lazy_piece pred p)).back
      = (if c.lazy_escapes pred p = true then Colour.rgb (c.pending p.1 p.2).back_color
          else t.back) ∧
    (t.run (c.lazy_piece pred p)).fore
      = (if c.lazy_escapes pred p = true ∧ (c.pending p.1 p.2).symbol ≠ [' ']
          then Colour.rgb (c.pending p.1 p.2).fore_color else t.fore) ∧
    ∀ cx cy, (t.run (c.lazy_piece pred p)).cells cx cy
      = if cx = c.offset_x + p.1 ∧ cy = R0 + p.2 then
          { symbol := (c.pending p.1 p.2).symbol
            fore := (if c.lazy_escapes pred p = true ∧ (c.pending p.1 p.2).symbol ≠ [' ']
              then Colour.rgb (c.pending p.1 p.2).fore_color else t.fore)
            back := (if c.lazy_escapes pred p = true
              then Colour.rgb (c.pending p.1 p.2).back_color else t.back) }
        else t.cells cx cy := by
  have hpiece : c.lazy_piece pred p
      = Out.column (c.offset_x + p.1 + 1) ::
        ((if (p.2 : Int) ≠ (last_row pred : Int) then
          [if (p.2 : Int) - (last_row pred : Int) > 0
            then Out.down ((p.2 : Int) - (last_row pred : Int)).natAbs
            else Out.up ((p.2 : Int) - (last_row pred : Int)).natAbs]
          else []) ++
        (if c.lazy_escapes pred p = true then (c.pending p.1 p.2).to_string
          else (c.pending p.1 p.2).raw_symbol)) := by
    unfold Canvas.lazy_piece Canvas.lazy_escapes last_row
    cases pred <;> simp
  have hmove : ∃ t2 : Terminal,
      (t.step (Out.column (c.offset_x + p.1 + 1))).run
        (if (p.2 : Int) ≠ (last_row pred : Int) then
          [if (p.2 : Int) - (last_row pred : Int) > 0
            then Out.down ((p.2 : Int) - (last_row pred : Int)).natAbs
            else Out.up ((p.2 : Int) - (last_row pred : Int)).natAbs]
          else []) = t2 ∧
      t2.row = R0 + p.2 ∧ t2.col = c.offset_x + p.1 ∧ t2.cells = t.cells ∧
      t2.fore = t.fore ∧ t2.back = t.back := by
    refine ⟨_, rfl, ?_, ?_, ?_, ?_, ?_⟩
    · by_cases h : (p.2 : Int) ≠ (last_row pred : Int)
      · rw [if_pos h]
        have hpos : (p.2 : Int) - (last_row pred : Int) > 0 := by omega
        rw [if_pos hpos]
        simp only [Terminal.run, List.foldl_cons, List.foldl_nil, Terminal.step]
        rw [hrow]
        omega
      · rw [if_neg h]
        simp only [Terminal.run, List.foldl_nil, Terminal.step]
        rw [hrow]
        omega
    · split_ifs <;> simp [Terminal.run, Terminal.step]
    · split_ifs <;> rfl
    · split_ifs <;> rfl
    · split_ifs <;> rfl
  obtain ⟨t2, ht2, hr2, hc2, hcells2, hf2, hb2⟩ := hmove
  rw [hpiece, Terminal.run_cons, Terminal.run_append, ht2]
  obtain ⟨e1, e2, e3, e4⟩ := Terminal.emit_effect t2 (c.pending p.1 p.2) (c.lazy_escapes pred p)
  rw [hr2] at e1 e4
  rw [hc2, hcells2, hf2, hb2] at e4
  rw [hb2] at e2
  rw [hf2] at e3
  exact ⟨e1, e2, e3, e4⟩

/-- What the pieces of a list of changed cells do to the terminal: if every cell outside
the list shows its pending tile already, then afterwards every cell does. -/
theorem Canvas.lazy_pieces_show (c : Canvas) (k : Bool)
    (hk : k = true → ∀ x y, x < c.width → y < c.height → (c.pending x y).symbol ≠ [' '])
    (R0 : Nat) (l : List (Nat × Nat)) (pred : Option (Nat × Nat)) (t : Terminal)
    (hsorted : l.Pairwise display_before)
    (hbounds : ∀ p ∈ l, p.1 < c.width ∧ p.2 < c.height)
    (hle : ∀ p ∈ l, last_row pred ≤ p.2)
    (hrow : t.row = R0 + last_row pred)
    (hcol : ∀ q, pred = some q → t.back = .rgb (c.pending q.1 q.2).back_color ∧
      (k = true → t.fore = .rgb (c.pending q.1 q.2).fore_color))
    (hcells : ∀ x y, x < c.width → y < c.height → (x, y) ∉ l →
      (t.cells (c.offset_x + x) (R0 + y)).shows (c.pending x y) k) :
    ∀ x y, x < c.width → y < c.height →
      ((t.run (c.lazy_pieces pred l)).cells (c.offset_x + x) (R0 + y)).shows (c.pending x y) k := by
  induction l generalizing pred t with
  | nil =>
    intro x y hx hy
    exact hcells x y hx hy (List.not_mem_nil _)
  | cons p rest ih =>
    obtain ⟨e1, e2, e3, e4⟩ := c.lazy_piece_effect pred p t R0 hrow
      (hle p (List.mem_cons_self _ _))
    obtain ⟨hpx, hpy⟩ := hbounds p (List.mem_cons_self _ _)
    rw [List.pairwise_cons] at hsorted
    have hback : (if c.lazy_escapes pred p = true
        then Colour.rgb (c.pending p.1 p.2).back_color else t.back)
        = Colour.rgb (c.pending p.1 p.2).back_color := by
      by_cases hesc : c.lazy_escapes pred p = true
      · rw [if_pos hesc]
      · rw [if_neg hesc]
        cases pred with
        | none => exact absurd rfl hesc
        | some q =>
          rw [(hcol q rfl).1, (Tile.colors_differ_false _ _ hesc).2]
    have hfore : k = true → (if c.lazy_escapes pred p = true ∧ (c.pending p.1 p.2).symbol ≠ [' ']
        then Colour.rgb (c.pending p.1 p.2).fore_color else t.fore)
        = Colour.rgb (c.pending p.1 p.2).fore_color := by
      intro hkt
      have hsym := hk hkt p.1 p.2 hpx hpy
      by_cases hesc : c.lazy_escapes pred p = true
      · rw [if_pos ⟨hesc, hsym⟩]
      · rw [if_neg (fun h => hesc h.1)]
        cases pred with
        | none => exact absurd rfl hesc
        | some q =>
          rw [(hcol q rfl).2 hkt, (Tile.colors_differ_false _ _ hesc).1]
    show ∀ x y, x < c.width → y < c.height →
      ((t.run (c.lazy_piece pred p ++ c.lazy_pieces (some p) rest)).cells (c.offset_x + x)
        (R0 + y)).shows (c.pending x y) k
    rw [Terminal.run_append]
    apply ih (some p) (t.run (c.lazy_piece pred p)) hsorted.2
      (fun q hq => hbounds q (List.mem_cons_of_mem _ hq))
    · intro q hq
      rcases hsorted.1 q hq with h | h
      · exact le_of_lt h
      · exact le_of_eq h.1
    · exact e1
    · intro q hq
      cases hq
      rw [e2, e3]
      exact ⟨hback, hfore⟩
    · intro x y hx hy hnot
      rw [e4]
      by_cases hxy : (x, y) = p
      · subst hxy
        rw [if_pos ⟨rfl, rfl⟩]
        exact ⟨rfl, hback, hfore⟩
      · rw [if_neg]
        · apply hcells x y hx hy
          intro hmem
          rcases List.mem_cons.1 hmem with h | h
          · exact hxy h
          · exact hnot h
        · rintro ⟨h1, h2⟩
          apply hxy
          ext
          · simp only; omega
          · simp only; omega

/-- After a diff redraw the footprint shows the pending tiles, if it showed the
last-emitted ones before: their symbols and background colours, and also their foreground
colours if no pending tile is a blank. -/
theorem Canvas.lazy_output_shows (c : Canvas) (k : Bool)
    (hk : k = true → ∀ x y, x < c.width → y < c.height → (c.pending x y).symbol ≠ [' '])
    (t : Terminal) (hshow : t.shows c t.row c.emitted k) :
    (t.run c.lazy_output).shows c t.row c.pending k := by
  obtain ⟨hr1, hc1⟩ := c.header_effect t
  have h := c.lazy_pieces_show k hk (t.row + c.offset_y) c.changed none (t.run c.header)
    ((c.order_pairwise).filter _)
    (fun p hp => ((c.mem_changed p).1 hp).1)
    (fun p _ => Nat.zero_le _)
    (by rw [hr1]; rfl)
    (fun q hq => by cases hq)
    (by
      intro x y hx hy hnot
      rw [hc1]
      have heq : c.emitted x y = c.pending x y := by
        by_contra hne
        exact hnot ((c.mem_changed (x, y)).2 ⟨⟨hx, hy⟩, hne⟩)
      rw [← heq]
      exact hshow x y hx hy)
  unfold Canvas.lazy_output
  rw [Terminal.run_append, Terminal.run_append]
  intro x y hx hy
  exact h x y hx hy

/-! ## What the terminal shows after a display -/

theorem terminal_ba_shows_emitted (k : Bool) :
    terminal_ba.shows canvas_b_blank terminal_ba.row canvas_b_blank.emitted k := by
  intro x y hx hy
  have hx' : x < 2 := hx
  have hy' : y < 1 := hy
  have hy0 : y = 0 := by omega
  subst hy0
  have hx01 : x = 0 ∨ x = 1 := by omega
  rcases hx01 with rfl | rfl
  · exact ⟨rfl, rfl, fun _ => rfl⟩
  · exact ⟨rfl, rfl, fun _ => rfl⟩

theorem terminal_ba_shows_ab (k : Bool) :
    terminal_ba.shows canvas_ab terminal_ba.row canvas_ab.emitted k := by
  intro x y hx hy
  have hx' : x < 2 := hx
  have hy' : y < 1 := hy
  have hy0 : y = 0 := by omega
  subst hy0
  have hx01 : x = 0 ∨ x = 1 := by omega
  rcases hx01 with rfl | rfl
  · exact ⟨rfl, rfl, fun _ => rfl⟩
  · exact ⟨rfl, rfl, fun _ => rfl⟩

theorem canvas_ab_no_blank :
    ∀ x y, x < canvas_ab.width → y < canvas_ab.height → (canvas_ab.pending x y).symbol ≠ [' '] := by
  intro x y hx hy
  have hx' : x < 2 := hx
  have hy' : y < 1 := hy
  have hy0 : y = 0 := by omega
  subst hy0
  have hx01 : x = 0 ∨ x = 1 := by omega
  rcases hx01 with rfl | rfl <;> decide

/-- What `display()` does achieve on the terminal: after it every cell of the footprint
holds the symbol and the background colour of the pending tile, if the footprint held the symbols and the
background colours of the last-emitted tiles whenever the full-redraw flag is clear. With
`with_fore`, for a canvas none of whose pending tiles is a blank, the same holds with
the foreground colours added on both sides. The rows of the footprint start `offset_y` rows
below the row of the cursor. -/
theorem display_shows_pending (c : Canvas) (hc : c.WF) (t : Terminal) (with_fore : Bool)
    (hblank : with_fore = true →
      ∀ x y, x < c.width → y < c.height → (c.pending x y).symbol ≠ [' '])
    (hshow : c.should_full_display = false → t.shows c t.row c.emitted with_fore) :
    ∃ c' output, c.display = .ok (c', output) ∧
      (t.run output).shows c t.row c.pending with_fore := by
  unfold Canvas.display
  by_cases hflag : c.should_full_display = true
  · rw [if_pos hflag, c.full_display_eq hc]
    exact ⟨_, _, rfl, c.full_output_shows with_fore hblank t⟩
  · rw [if_neg hflag, c.lazy_display_eq hc]
    exact ⟨_, _, rfl, c.lazy_output_shows with_fore hblank t (hshow (by simpa using hflag))⟩

/-- An instance: `a b` written over `b a`, symbols and both colours. -/
theorem display_shows_pending_witness :
    ∃ c' output, canvas_ab.display = .ok (c', output) ∧
      (terminal_ba.run output).shows canvas_ab terminal_ba.row canvas_ab.pending true :=
  display_shows_pending canvas_ab (by decide) terminal_ba true
    (fun _ => canvas_ab_no_blank) (fun _ => terminal_ba_shows_ab true)

/-- The cell of a blank after a diff redraw: the terminal shows the last-emitted tiles
`b a` of the canvas, symbols and both colours, and the flag is clear; `display()` writes the
pending blank over the `a` without a foreground escape, so the cell keeps the default
foreground of the terminal, not the foreground of the pending tile. -/
theorem display_leaves_blank_foreground :
    canvas_b_blank.WF ∧ canvas_b_blank.should_full_display = false ∧
    terminal_ba.shows canvas_b_blank terminal_ba.row canvas_b_blank.emitted true ∧
    ∃ c' output, canvas_b_blank.display = .ok (c', output) ∧
      (terminal_ba.run output).cells 1 0
        = { symbol := [' '], fore := .default, back := .rgb ⟨0, 0, 255⟩ } ∧
      canvas_b_blank.pending 1 0 = tile_blank ∧
      ¬ (terminal_ba.run output).shows canvas_b_blank terminal_ba.row canvas_b_blank.pending
        true := by
  refine ⟨by decide, rfl, terminal_ba_shows_emitted true, _, _, rfl, by decide, by decide, ?_⟩
  intro h
  have h1 := (h 1 0 (by decide) (by decide)).2.2 rfl
  revert h1
  decide

/-- C14, the code at an input where the claim fails: the first `display()` of a new canvas
with `b` and a blank pending, both red on blue. The full redraw writes the blank first,
whose string has no foreground escape, and then the `b` bare, its colours being those of
the blank. On the terminal the `b` stands in the default foreground, not in the red of its
tile, and so does the blank. -/
theorem display_shows_wrong_foreground :
    canvas_new_b_blank.WF ∧ canvas_new_b_blank.should_full_display = true ∧
    canvas_new_b_blank.pending 0 0
      = { symbol := ['b'], fore_color := ⟨255, 0, 0⟩, back_color := ⟨0, 0, 255⟩ } ∧
    canvas_new_b_blank.pending 1 0
      = { symbol := [' '], fore_color := ⟨255, 0, 0⟩, back_color := ⟨0, 0, 255⟩ } ∧
    ∃ c' output, canvas_new_b_blank.display = .ok (c', output) ∧
      output = [Out.save, Out.column 2, Out.back ⟨0, 0, 255⟩, Out.text [' '], Out.column 1,
        Out.text ['b'], Out.reset, Out.crlf, Out.restore] ∧
      (terminal_empty.run output).cells 0 0
        = { symbol := ['b'], fore := .default, back := .rgb ⟨0, 0, 255⟩ } ∧
      (terminal_empty.run output).cells 1 0
        = { symbol := [' '], fore := .default, back := .rgb ⟨0, 0, 255⟩ } ∧
      ¬ (terminal_empty.run output).shows canvas_new_b_blank terminal_empty.row
        canvas_new_b_blank.pending true := by
  refine ⟨by decide, rfl, rfl, rfl, _, _, rfl, rfl, by decide, by decide, ?_⟩
  intro h
  have h1 := (h 0 0 (by decide) (by decide)).2.2 rfl
  revert h1
  decide

/-- Where the two redraws do agree: from the same canvas and the same terminal, whose
footprint holds the symbols and the background colours of the last-emitted tiles, the full
redraw and the diff redraw both return, leave the same canvas but for the flag, and leave in every
cell of the footprint the same symbol and the same background colour, those of the pending
tile. With `with_fore`, for a canvas none of whose pending tiles is a blank, the same
holds with the foreground colours added. -/
theorem redraw_paths_agree (c : Canvas) (hc : c.WF) (t : Terminal) (with_fore : Bool)
    (hblank : with_fore = true →
      ∀ x y, x < c.width → y < c.height → (c.pending x y).symbol ≠ [' '])
    (hshow : t.shows c t.row c.emitted with_fore) :
    ∃ c1 output1 c2 output2, c.full_display = .ok (c1, output1) ∧
      c.lazy_display = .ok (c2, output2) ∧
      c1.prev_buffer = c2.prev_buffer ∧ c1.tile_buffer = c2.tile_buffer ∧
      (t.run output1).shows c t.row c.pending with_fore ∧
      (t.run output2).shows c t.row c.pending with_fore ∧
      ∀ x y, x < c.width → y < c.height →
        ((t.run output1).cells (c.offset_x + x) (t.row + c.offset_y + y)).symbol
          = ((t.run output2).cells (c.offset_x + x) (t.row + c.offset_y + y)).symbol ∧
        ((t.run output1).cells (c.offset_x + x) (t.row + c.offset_y + y)).back
          = ((t.run output2).cells (c.offset_x + x) (t.row + c.offset_y + y)).back ∧
        (with_fore = true →
          ((t.run output1).cells (c.offset_x + x) (t.row + c.offset_y + y)).fore
            = ((t.run output2).cells (c.offset_x + x) (t.row + c.offset_y + y)).fore) := by
  have h1 := c.full_output_shows with_fore hblank t
  have h2 := c.lazy_output_shows with_fore hblank t hshow
  refine ⟨_, _, _, _, c.full_display_eq hc, c.lazy_display_eq hc, rfl, rfl, h1, h2, ?_⟩
  intro x y hx hy
  obtain ⟨a1, a2, a3⟩ := h1 x y hx hy
  obtain ⟨b1, b2, b3⟩ := h2 x y hx hy
  exact ⟨a1.trans b1.symm, a2.trans b2.symm, fun hk => (a3 hk).trans (b3 hk).symm⟩

/-- An instance of the two redraws: `a b` written over `b a`, symbols and both colours. -/
theorem redraw_paths_agree_witness :
    ∃ c1 output1 c2 output2, canvas_ab.full_display = .ok (c1, output1) ∧
      canvas_ab.lazy_display = .ok (c2, output2) ∧
      c1.prev_buffer = c2.prev_buffer ∧ c1.tile_buffer = c2.tile_buffer ∧
      (terminal_ba.run output1).shows canvas_ab terminal_ba.row canvas_ab.pending
        true ∧
      (terminal_ba.run output2).shows canvas_ab terminal_ba.row canvas_ab.pending
        true ∧
      ∀ x y, x < canvas_ab.width → y < canvas_ab.height →
        ((terminal_ba.run output1).cells (canvas_ab.offset_x + x)
            (terminal_ba.row + canvas_ab.offset_y + y)).symbol
          = ((terminal_ba.run output2).cells (canvas_ab.offset_x + x)
            (terminal_ba.row + canvas_ab.offset_y + y)).symbol ∧
        ((terminal_ba.run output1).cells (canvas_ab.offset_x + x)
            (terminal_ba.row + canvas_ab.offset_y + y)).back
          = ((terminal_ba.run output2).cells (canvas_ab.offset_x + x)
            (terminal_ba.row + canvas_ab.offset_y + y)).back ∧
        (true = true →
          ((terminal_ba.run output1).cells (canvas_ab.offset_x + x)
              (terminal_ba.row + canvas_ab.offset_y + y)).fore
            = ((terminal_ba.run output2).cells (canvas_ab.offset_x + x)
              (terminal_ba.row + canvas_ab.offset_y + y)).fore) :=
  redraw_paths_agree canvas_ab (by decide) terminal_ba true
    (fun _ => canvas_ab_no_blank) (terminal_ba_shows_ab true)

/-- C15, the code at an input where the claim fails: from the canvas that has displayed
`b a` and has a blank pending in place of the `a`, and the terminal that shows `b a` in
the colours of the tiles, the diff redraw leaves the `b` in its red foreground, and the
full redraw writes the `b` again without colour escapes after the blank, whose string has
no foreground escape, so the `b` stands in the default foreground of the terminal. -/
theorem redraw_paths_differ_in_foreground :
    canvas_b_blank.WF ∧
    terminal_ba.shows canvas_b_blank terminal_ba.row canvas_b_blank.emitted true ∧
    ∃ c1 output1 c2 output2, canvas_b_blank.full_display = .ok (c1, output1) ∧
      canvas_b_blank.lazy_display = .ok (c2, output2) ∧
      (terminal_ba.run output1).cells 0 0
        = { symbol := ['b'], fore := .default, back := .rgb ⟨0, 0, 255⟩ } ∧
      (terminal_ba.run output2).cells 0 0
        = { symbol := ['b'], fore := .rgb ⟨255, 0, 0⟩, back := .rgb ⟨0, 0, 255⟩ } ∧
      (terminal_ba.run output1).cells 0 0 ≠ (terminal_ba.run output2).cells 0 0 := by
  refine ⟨by decide, terminal_ba_shows_emitted true, _, _, _, _, rfl, rfl, by decide,
    by decide, by decide⟩

/-! ## The grid as a store, and the bits of the rule -/

/-- C29: `set_tile` and `get_tile` form a 2-D store over the row stride `width+1`. For a
grid as the constructors leave it and a cell `(x, y)` inside it, `set_tile(x, y, v)`
returns; afterwards `get_tile(x, y)` returns `v`, `get_tile(x', y')` returns the value it
returned before for every other cell `(x', y')` inside the grid, whose buffer index differs
from that of `(x, y)`, and the width and the height are what they were. A grid with a
cell inside it has a width and a height of at least 1. -/
theorem set_get_tile_store (g : Grid) (hg : g.WF) (x y : Int) (hb : g.in_bounds x y)
    (v : Bool) :
    1 ≤ g.width ∧ 1 ≤ g.height ∧
    ∃ g', g.set_tile x y v = some g' ∧
      g'.get_tile x y = some v ∧
      (∀ x' y', g.in_bounds x' y' → ¬ (x' = x ∧ y' = y) →
        (g.width + 1) * y' + x' ≠ (g.width + 1) * y + x ∧
        ∃ b, g.get_tile x' y' = some b ∧ g'.get_tile x' y' = some b) ∧
      g'.width = g.width ∧ g'.height = g.height := by
  obtain ⟨hx0, hxW, hy0, hyH⟩ := hb
  refine ⟨by omega, by omega, ?_⟩
  obtain ⟨g', hset, -, hw, hh, hrd⟩ := g.set_tile_spec hg x y ⟨hx0, hxW, hy0, hyH⟩ v
  refine ⟨g', hset, Grid.get_set_tile g g' x y v hw hrd, ?_, hw, hh⟩
  intro x' y' hb' hne
  obtain ⟨b, hbv⟩ := g.get_tile_some hg x' y' hb'
  refine ⟨?_, b, hbv, ?_⟩
  · intro hidx
    have := index_inj g.width x' y' x y hb'.1 (le_of_lt hb'.2.1) hx0 (le_of_lt hxW) hidx
    exact hne this
  · rw [Grid.get_set_tile_ne g g' x y x' y' v hw hrd ⟨hx0, le_of_lt hxW⟩
      ⟨hb'.1, le_of_lt hb'.2.1⟩ hne, hbv]

/-- Witness of C29: the cell (1,1) of the 5x5 grid with the horizontal blinker. -/
theorem set_get_tile_store_witness :
    1 ≤ horizontal_blinker.width ∧ 1 ≤ horizontal_blinker.height ∧
    ∃ g', horizontal_blinker.set_tile 1 1 true = some g' ∧
      g'.get_tile 1 1 = some true ∧
      (∀ x' y', horizontal_blinker.in_bounds x' y' → ¬ (x' = 1 ∧ y' = 1) →
        (horizontal_blinker.width + 1) * y' + x' ≠ (horizontal_blinker.width + 1) * 1 + 1 ∧
        ∃ b, horizontal_blinker.get_tile x' y' = some b ∧ g'.get_tile x' y' = some b) ∧
      g'.width = horizontal_blinker.width ∧ g'.height = horizontal_blinker.height :=
  set_get_tile_store horizontal_blinker (by decide) 1 1 (by decide) true

/-- The shift by fewer than 18 places sees the low 18 bits of a rule only. -/
theorem end_state_low_bits (r : Int) (hr : 0 ≤ r) (alive : Bool) (c : Nat) (hc : c ≤ 8) :
    end_state (r % 2 ^ 18) alive (c : Int) = end_state r alive (c : Int) ∧
      end_state r alive (c : Int) = r.toNat.testBit (9 * (if alive then 1 else 0) + c) := by
  obtain ⟨n, rfl⟩ := Int.eq_ofNat_of_zero_le hr
  have hmod : ((n : Int) % 2 ^ 18) = ((n % 2 ^ 18 : Nat) : Int) := by
    push_cast
    rfl
  have hidx : 9 * (if alive then 1 else 0) + c < 18 := by
    cases alive <;> simp <;> omega
  rw [hmod, end_state_eq_testBit, end_state_eq_testBit, Nat.testBit_mod_two_pow,
    decide_eq_true hidx, Bool.true_and, Int.toNat_ofNat]
  exact ⟨rfl, rfl⟩

/-- C30: only the low 18 bits of the rule matter. For a cell inside the grid the bit index
`9*a + n` that `update_tile` uses is at most 17, `a` being 0 or 1 and `n` at most 8, so
for every rule `r` that is not negative, also one of `2^18` or more, `update_tile` with
`r` and with `r mod 2^18` return the same grid: they write the same value, bit `9*a + n`
of `r`, into the same cell. -/
theorem rule_low_bits (G D : Grid) (x y r : Int) (hG : G.WF) (hD : D.WF)
    (hw : D.width = G.width) (hh : D.height = G.height) (hb : G.in_bounds x y) (hr : 0 ≤ r) :
    G.live_neighbours x y ≤ 8 ∧
    9 * (if G.alive x y then 1 else 0) + G.live_neighbours x y ≤ 17 ∧
    ∃ D', D.update_tile G x y r = some D' ∧
      D.update_tile G x y (r % 2 ^ 18) = some D' ∧
      D'.get_tile x y
        = some (r.toNat.testBit (9 * (if G.alive x y then 1 else 0) + G.live_neighbours x y)) ∧
      D'.get_tile x y
        = some ((r % 2 ^ 18).toNat.testBit
            (9 * (if G.alive x y then 1 else 0) + G.live_neighbours x y)) := by
  have hn := G.live_neighbours_le x y
  have hidx : 9 * (if G.alive x y then 1 else 0) + G.live_neighbours x y ≤ 17 := by
    cases G.alive x y <;> simp <;> omega
  obtain ⟨D', hD', hWF', hw', hh', hrd⟩ := Grid.update_tile_spec G D x y r hG hD hw hh hb
  obtain ⟨D2, hD2, -, hw2, hh2, hrd2⟩ :=
    Grid.update_tile_spec G D x y (r % 2 ^ 18) hG hD hw hh hb
  have hlow := end_state_low_bits r hr (G.alive x y) (G.live_neighbours x y) hn
  have hr2 : (0 : Int) ≤ r % 2 ^ 18 := Int.emod_nonneg _ (by norm_num)
  have hlow2 := end_state_low_bits (r % 2 ^ 18) hr2 (G.alive x y) (G.live_neighbours x y) hn
  have heq : D2 = D' := by
    apply Grid.ext_read
    · rw [hw2, hw']
    · rw [hh2, hh']
    · intro j
      rw [hrd2, hrd, hlow.1]
  have hget : D'.get_tile x y
      = some (end_state r (G.alive x y) (G.live_neighbours x y)) :=
    Grid.get_set_tile D D' x y _ hw' hrd
  refine ⟨hn, hidx, D', hD', heq ▸ hD2, ?_, ?_⟩
  · rw [hget, hlow.2]
  · rw [hget, ← hlow.1, hlow2.2]

/-- Witness of C30: the rule `6152 + 2^18` at the middle cell of the horizontal blinker. -/
theorem rule_low_bits_witness :
    horizontal_blinker.live_neighbours 2 2 ≤ 8 ∧
    9 * (if horizontal_blinker.alive 2 2 then 1 else 0)
      + horizontal_blinker.live_neighbours 2 2 ≤ 17 ∧
    ∃ D', dead_grid.update_tile horizontal_blinker 2 2 268296 = some D' ∧
      dead_grid.update_tile horizontal_blinker 2 2 (268296 % 2 ^ 18) = some D' ∧
      D'.get_tile 2 2
        = some ((268296 : Int).toNat.testBit
            (9 * (if horizontal_blinker.alive 2 2 then 1 else 0)
              + horizontal_blinker.live_neighbours 2 2)) ∧
      D'.get_tile 2 2
        = some (((268296 : Int) % 2 ^ 18).toNat.testBit
            (9 * (if horizontal_blinker.alive 2 2 then 1 else 0)
              + horizontal_blinker.live_neighbours 2 2)) :=
  rule_low_bits horizontal_blinker dead_grid 2 2 268296 (by decide) (by decide) rfl rfl
    (by decide) (by decide)

/-! ## The string of a tile -/

/-- The string of a tile as the code builds it: the conversion of a tile to a string
returns the escape of the background colour, `ESC[48;2;R;G;Bm` with the components in decimal, and then the
symbol; the escape of the foreground colour, `ESC[38;2;R;G;Bm`, stands before them only
when the symbol is not the blank `" "`. `raw_symbol()` returns the symbol alone. -/
theorem tile_string_escapes (t : Tile) :
    output_bytes t.to_string
      = (if t.symbol ≠ [' '] then
          [ESC, '[', '3', '8', ';', '2', ';'] ++ decimal t.fore_color.red ++ [';']
            ++ decimal t.fore_color.green ++ [';'] ++ decimal t.fore_color.blue ++ ['m']
          else [])
        ++ ([ESC, '[', '4', '8', ';', '2', ';'] ++ decimal t.back_color.red ++ [';']
            ++ decimal t.back_color.green ++ [';'] ++ decimal t.back_color.blue ++ ['m'])
        ++ t.symbol ∧
    output_bytes t.raw_symbol = t.symbol := by
  unfold Tile.to_string Tile.raw_symbol output_bytes
  split_ifs <;> simp [Out.bytes]

/-- C26, the code at an input where the claim fails: the tile the render loop paints for
a live cell, a blank on white, is converted to `ESC[48;2;255;255;255m` and the blank, 20 bytes, without the escape
of its foreground colour `ESC[38;2;0;0;0m` in front. -/
theorem tile_string_blank_no_foreground :
    output_bytes (Tile.of_color ⟨255, 255, 255⟩).to_string
      = [ESC, '[', '4', '8', ';', '2', ';', '2', '5', '5', ';', '2', '5', '5', ';',
          '2', '5', '5', 'm', ' '] ∧
    output_bytes (Tile.of_color ⟨255, 255, 255⟩).to_string
      ≠ [ESC, '[', '3', '8', ';', '2', ';'] ++ decimal 0 ++ [';'] ++ decimal 0 ++ [';']
          ++ decimal 0 ++ ['m']
        ++ ([ESC, '[', '4', '8', ';', '2', ';'] ++ decimal 255 ++ [';'] ++ decimal 255 ++ [';']
          ++ decimal 255 ++ ['m'])
        ++ (Tile.of_color ⟨255, 255, 255⟩).symbol := by
  refine ⟨by decide, by decide⟩

/-! ## Colour elision -/

theorem Tile.colors_differ_iff (a b : Tile) :
    a.colors_differ b = true ↔ a.fore_color ≠ b.fore_color ∨ a.back_color ≠ b.back_color := by
  unfold Tile.colors_differ
  rw [Bool.or_eq_true, RGB.ne_iff, RGB.ne_iff]

theorem Tile.to_string_escapes (t : Tile) :
    t.to_string = t.escapes ++ [Out.text t.symbol] ∧
      (∀ o ∈ t.escapes, o.is_color = true) ∧ Out.back t.back_color ∈ t.escapes := by
  unfold Tile.to_string Tile.escapes
  refine ⟨rfl, ?_, by simp⟩
  intro o ho
  split_ifs at ho <;> simp at ho
  · rcases ho with rfl | rfl <;> rfl
  · subst ho
    rfl

theorem Canvas.lazy_pieces_zip (c : Canvas) (cells : List (Nat × Nat)) :
    ∀ pred, c.lazy_pieces pred cells
      = (List.zipWith c.lazy_piece (pred :: cells.map some) cells).flatten := by
  induction cells with
  | nil =>
    intro pred
    simp [Canvas.lazy_pieces]
  | cons cur rest ih =>
    intro pred
    rw [Canvas.lazy_pieces, ih (some cur)]
    simp [List.zipWith]

/-- What a diff redraw writes for a changed cell: the move to its column, at most one row
move, then the colour escapes of its tile if it is written with them, then its symbol. -/
theorem Canvas.lazy_piece_escapes (c : Canvas) (pred : Option (Nat × Nat)) (cur : Nat × Nat) :
    ∃ moves, moves.length ≤ 1 ∧ (∀ o ∈ moves, o.is_row_move = true) ∧
      c.lazy_piece pred cur
        = [Out.column (c.offset_x + cur.1 + 1)] ++ moves
          ++ (if c.lazy_escapes pred cur = true then (c.pending cur.1 cur.2).escapes else [])
          ++ [Out.text (c.pending cur.1 cur.2).symbol] := by
  have hbody : (if c.lazy_escapes pred cur = true then (c.pending cur.1 cur.2).to_string
        else (c.pending cur.1 cur.2).raw_symbol)
      = (if c.lazy_escapes pred cur = true then (c.pending cur.1 cur.2).escapes else [])
        ++ [Out.text (c.pending cur.1 cur.2).symbol] := by
    split_ifs
    · exact (Tile.to_string_escapes _).1
    · rfl
  have hpiece : c.lazy_piece pred cur
      = [Out.column (c.offset_x + cur.1 + 1)] ++
        (if (cur.2 : Int) ≠ (last_row pred : Int) then
          [if (cur.2 : Int) - (last_row pred : Int) > 0
            then Out.down ((cur.2 : Int) - (last_row pred : Int)).natAbs
            else Out.up ((cur.2 : Int) - (last_row pred : Int)).natAbs]
          else []) ++
        (if c.lazy_escapes pred cur = true then (c.pending cur.1 cur.2).to_string
          else (c.pending cur.1 cur.2).raw_symbol) := by
    unfold Canvas.lazy_piece Canvas.lazy_escapes last_row
    cases pred <;> rfl
  rw [hpiece, hbody]
  refine ⟨(if (cur.2 : Int) ≠ (last_row pred : Int) then
      [if (cur.2 : Int) - (last_row pred : Int) > 0
        then Out.down ((cur.2 : Int) - (last_row pred : Int)).natAbs
        else Out.up ((cur.2 : Int) - (last_row pred : Int)).natAbs]
      else []), ?_, ?_, by simp only [List.append_assoc]⟩
  · split_ifs <;> simp
  · intro o ho
    split_ifs at ho <;> simp at ho <;> subst ho <;> rfl

theorem Canvas.lazy_escapes_iff (c : Canvas) (pred : Option (Nat × Nat)) (cur : Nat × Nat) :
    c.lazy_escapes pred cur = true ↔
      pred = none ∨ ∃ q, pred = some q ∧
        ((c.pending q.1 q.2).fore_color ≠ (c.pending cur.1 cur.2).fore_color ∨
          (c.pending q.1 q.2).back_color ≠ (c.pending cur.1 cur.2).back_color) := by
  cases pred with
  | none => simp [Canvas.lazy_escapes]
  | some q =>
    unfold Canvas.lazy_escapes
    simp only [Tile.colors_differ_iff]
    constructor
    · intro h
      exact Or.inr ⟨q, rfl, h⟩
    · rintro (h | ⟨q', hq, h⟩)
      · cases h
      · cases hq
        exact h

theorem row_move_not_color (o : Out) (h : o.is_row_move = true) : o.is_color = false := by
  cases o <;> first | rfl | cases h

/-- A piece of the form column move, row moves, escapes, symbol holds a colour escape
exactly when the escapes are written. -/
theorem piece_has_color (col : Nat) (moves escapes : List Out) (sym : List Char) (b : Bool)
    (hmoves : ∀ o ∈ moves, o.is_row_move = true) (hesc : ∀ o ∈ escapes, o.is_color = true)
    (hne : escapes ≠ []) :
    (∃ o ∈ [Out.column col] ++ moves ++ (if b = true then escapes else []) ++ [Out.text sym],
      o.is_color = true) ↔ b = true := by
  constructor
  · rintro ⟨o, ho, hcol⟩
    rcases List.mem_append.1 ho with h | h
    · rcases List.mem_append.1 h with h | h
      · rcases List.mem_append.1 h with h | h
        · rw [List.mem_singleton] at h
          subst h
          cases hcol
        · rw [row_move_not_color o (hmoves o h)] at hcol
          cases hcol
      · cases b
        · simp at h
        · rfl
    · rw [List.mem_singleton] at h
      subst h
      cases hcol
  · intro hb
    subst hb
    cases escapes with
    | nil => exact absurd rfl hne
    | cons e rest =>
      exact ⟨e, by simp, hesc e (List.mem_cons_self _ _)⟩

/-- C24: colour elision in the diff redraw. With the full-redraw flag clear, `display()`
returns and writes, between the frame start and the cursor restore, one piece for each
changed cell, in display order. The piece of a changed cell is the move to its column, at
most one row move, the colour escapes of its tile if it is written with them, and its
symbol. It is written with them exactly when it is the first changed cell of the call, or
its foreground or its background differs from that of the changed cell written just
before it; otherwise the piece holds no colour escape and ends with the bare symbol. The
colour escapes of a tile are those of its string conversion; the escape of its background
is among them. -/
theorem diff_redraw_elides_colors (c : Canvas) (hc : c.WF)
    (hflag : c.should_full_display = false) :
    ∃ c', c.display = .ok (c', c.header
        ++ (List.zipWith c.lazy_piece (predecessors c.changed) c.changed).flatten
        ++ [Out.restore, Out.reset]) ∧
      ∀ pred cur,
        (c.lazy_escapes pred cur = true ↔
          pred = none ∨ ∃ q, pred = some q ∧
            ((c.pending q.1 q.2).fore_color ≠ (c.pending cur.1 cur.2).fore_color ∨
              (c.pending q.1 q.2).back_color ≠ (c.pending cur.1 cur.2).back_color)) ∧
        (∃ moves, moves.length ≤ 1 ∧ (∀ o ∈ moves, o.is_row_move = true) ∧
          c.lazy_piece pred cur
            = [Out.column (c.offset_x + cur.1 + 1)] ++ moves
              ++ (if c.lazy_escapes pred cur = true then (c.pending cur.1 cur.2).escapes
                else [])
              ++ [Out.text (c.pending cur.1 cur.2).symbol]) ∧
        ((c.pending cur.1 cur.2).to_string
          = (c.pending cur.1 cur.2).escapes ++ [Out.text (c.pending cur.1 cur.2).symbol]) ∧
        (∀ o ∈ (c.pending cur.1 cur.2).escapes, o.is_color = true) ∧
        Out.back (c.pending cur.1 cur.2).back_color ∈ (c.pending cur.1 cur.2).escapes ∧
        ((∃ o ∈ c.lazy_piece pred cur, o.is_color = true) ↔
          c.lazy_escapes pred cur = true) := by
  have hdisp : c.display = .ok ({ c with prev_buffer := c.tile_buffer }, c.lazy_output) := by
    unfold Canvas.display
    rw [if_neg (by rw [hflag]; exact Bool.false_ne_true)]
    exact c.lazy_display_eq hc
  refine ⟨{ c with prev_buffer := c.tile_buffer }, ?_, ?_⟩
  · rw [hdisp]
    unfold Canvas.lazy_output predecessors
    rw [c.lazy_pieces_zip]
  · intro pred cur
    obtain ⟨moves, hlen, hmoves, hpiece⟩ := c.lazy_piece_escapes pred cur
    obtain ⟨hstr, hesc, hback⟩ := Tile.to_string_escapes (c.pending cur.1 cur.2)
    refine ⟨c.lazy_escapes_iff pred cur, ⟨moves, hlen, hmoves, hpiece⟩, hstr, hesc, hback, ?_⟩
    rw [hpiece]
    exact piece_has_color _ moves _ _ _ hmoves hesc (List.ne_nil_of_mem hback)

/-- Witness of C24: the canvas that has displayed `b a` with `a b` pending, two changed
cells of equal colours. -/
theorem diff_redraw_elides_colors_witness :
    ∃ c1, canvas_ab.display = .ok (c1, canvas_ab.header
        ++ (List.zipWith canvas_ab.lazy_piece (predecessors canvas_ab.changed) canvas_ab.changed).flatten
        ++ [Out.restore, Out.reset]) ∧
      ∀ pred cur,
        (canvas_ab.lazy_escapes pred cur = true ↔
          pred = none ∨ ∃ q, pred = some q ∧
            ((canvas_ab.pending q.1 q.2).fore_color ≠ (canvas_ab.pending cur.1 cur.2).fore_color ∨
              (canvas_ab.pending q.1 q.2).back_color ≠ (canvas_ab.pending cur.1 cur.2).back_color)) ∧
        (∃ moves, moves.length ≤ 1 ∧ (∀ o ∈ moves, o.is_row_move = true) ∧
          canvas_ab.lazy_piece pred cur
            = [Out.column (canvas_ab.offset_x + cur.1 + 1)] ++ moves
              ++ (if canvas_ab.lazy_escapes pred cur = true then (canvas_ab.pending cur.1 cur.2).escapes
                else [])
              ++ [Out.text (canvas_ab.pending cur.1 cur.2).symbol]) ∧
        ((canvas_ab.pending cur.1 cur.2).to_string
          = (canvas_ab.pending cur.1 cur.2).escapes ++ [Out.text (canvas_ab.pending cur.1 cur.2).symbol]) ∧
        (∀ o ∈ (canvas_ab.pending cur.1 cur.2).escapes, o.is_color = true) ∧
        Out.back (canvas_ab.pending cur.1 cur.2).back_color ∈ (canvas_ab.pending cur.1 cur.2).escapes ∧
        ((∃ o ∈ canvas_ab.lazy_piece pred cur, o.is_color = true) ↔
          canvas_ab.lazy_escapes pred cur = true) :=
  diff_redraw_elides_colors canvas_ab (by decide) rfl

/-- The prompt returns the first positive number, after reads that are followed by
another. -/
theorem prompt_loop_parsed (pre post : List ReadOutcome) (v : Int) (hv : 0 < v)
    (hpre : ∀ o ∈ pre, o.retries = true) :
    ∀ val, prompt_loop val (pre ++ .parsed v :: post) = some v := by
  induction pre with
  | nil =>
    intro val
    show (if v ≤ 0 then prompt_loop v post else some v) = some v
    rw [if_neg (by omega)]
  | cons o rest ih =>
    intro val
    have ho := hpre o (List.mem_cons_self _ _)
    have hrest := ih (fun p hp => hpre p (List.mem_cons_of_mem _ hp))
    cases o with
    | parsed w =>
      have hw : w ≤ 0 := by simpa [ReadOutcome.retries] using ho
      show (if w ≤ 0 then prompt_loop w (rest ++ .parsed v :: post) else some w) = some v
      rw [if_pos hw]
      exact hrest w
    | parse_failure stored => exact hrest stored
    | end_of_input => cases ho

/-- The canvas after `hide()` and `display()`, and what the two write: the full redraw. -/
theorem Canvas.hide_display (c : Canvas) (hc : c.WF) :
    c.hide.1.display = .ok
      ({ c with prev_buffer := c.tile_buffer, should_full_display := false },
        c.full_output) := by
  have hh : c.hide.1 = { c with should_full_display := true } := rfl
  rw [hh]
  have hwf : Canvas.WF { c with should_full_display := true } := hc
  rw [Canvas.display_eq _ hwf]
  rfl

/-- The step of the control loop for the keys `f`, `u` and `r` when the prompt returns
and the canvas holds its tiles. -/
theorem input_step_tunable (s s1 : ProgramState) (canvas : Canvas) (hc : canvas.WF) (c : Char)
    (val : Int) (outcomes : List ReadOutcome) (hq : c ≠ 'q') (hk : c = 'f' ∨ c = 'u' ∨ c = 'r')
    (hr : reconfigure s c val outcomes = some s1) :
    input_step s canvas c val outcomes = some (.ok (s1,
      { canvas with prev_buffer := canvas.tile_buffer, should_full_display := false },
      canvas.hide.2 ++ canvas.full_output)) := by
  unfold input_step
  rw [if_neg hq, if_pos hk]
  simp only [hr, canvas.hide_display hc]

theorem reconfigure_parsed (s : ProgramState) (hp : s.paused = false) (c : Char) (val : Int)
    (pre post : List ReadOutcome) (v : Int) (hv : 0 < v)
    (hpre : ∀ o ∈ pre, o.retries = true) :
    (c = 'f' → reconfigure s c val (pre ++ .parsed v :: post)
      = some { s with frame_rate := v }) ∧
    (c = 'u' → reconfigure s c val (pre ++ .parsed v :: post)
      = some { s with sim_rate := v }) ∧
    (c = 'r' → reconfigure s c val (pre ++ .parsed v :: post)
      = some { s with rule := v }) := by
  obtain ⟨rule, frame_rate, sim_rate, prev, next, running, paused, grid_a, grid_b⟩ := s
  simp only at hp
  subst hp
  refine ⟨?_, ?_, ?_⟩ <;> intro hc <;> subst hc <;> unfold reconfigure <;>
    rw [prompt_loop_parsed pre post v hv hpre val] <;> rfl

theorem reconfigure_paused (s s1 : ProgramState) (c : Char) (val : Int)
    (outcomes : List ReadOutcome) (h : reconfigure s c val outcomes = some s1) :
    s1.paused = false := by
  unfold reconfigure at h
  cases hloop : prompt_loop val outcomes with
  | none => rw [hloop] at h; cases h
  | some v =>
    rw [hloop] at h
    simp only [Option.some.injEq] at h
    rw [← h]

/-- C21: a keystroke changes only what it names. In a state with `paused` false, as `main`
initialises it and as every step leaves it, and with a canvas that holds its tiles, the
step of the control loop for the byte `q` returns the state with `running` false and
nothing else changed. For `f`, with a prompt whose reads are followed by another until
one parses the positive number `v`, it returns the state with `frame_rate` `v` and nothing
else changed; for `u` the same with `sim_rate`, for `r` with `rule`. For every other byte
it returns the state as it was. After every step that returns, `paused` is false. -/
theorem keystroke_changes_named (s : ProgramState) (hp : s.paused = false) (canvas : Canvas)
    (hc : canvas.WF) (c : Char) (val : Int) (outcomes : List ReadOutcome) :
    (c = 'q' → ∃ r, input_step s canvas c val outcomes = some (.ok r) ∧
      r.1 = { s with running := false }) ∧
    (∀ pre v post, outcomes = pre ++ .parsed v :: post → 0 < v →
      (∀ o ∈ pre, o.retries = true) →
      (c = 'f' → ∃ r, input_step s canvas c val outcomes = some (.ok r) ∧
        r.1 = { s with frame_rate := v }) ∧
      (c = 'u' → ∃ r, input_step s canvas c val outcomes = some (.ok r) ∧
        r.1 = { s with sim_rate := v }) ∧
      (c = 'r' → ∃ r, input_step s canvas c val outcomes = some (.ok r) ∧
        r.1 = { s with rule := v })) ∧
    (c ≠ 'q' → c ≠ 'f' → c ≠ 'u' → c ≠ 'r' →
      ∃ r, input_step s canvas c val outcomes = some (.ok r) ∧ r.1 = s) ∧
    (∀ r, input_step s canvas c val outcomes = some (.ok r) → r.1.paused = false) ∧
    (∀ grid_a grid_b, (ProgramState.init grid_a grid_b).paused = false) := by
  refine ⟨?_, ?_, ?_, ?_, fun _ _ => rfl⟩
  · intro hq
    exact ⟨_, by unfold input_step; rw [if_pos hq], rfl⟩
  · intro pre v post hout hv hpre
    subst hout
    obtain ⟨hf, hu, hr⟩ := reconfigure_parsed s hp c val pre post v hv hpre
    refine ⟨?_, ?_, ?_⟩
    · intro h
      exact ⟨_, input_step_tunable s _ canvas hc c val _ (by rw [h]; decide) (Or.inl h) (hf h),
        rfl⟩
    · intro h
      exact ⟨_, input_step_tunable s _ canvas hc c val _ (by rw [h]; decide)
        (Or.inr (Or.inl h)) (hu h), rfl⟩
    · intro h
      exact ⟨_, input_step_tunable s _ canvas hc c val _ (by rw [h]; decide)
        (Or.inr (Or.inr h)) (hr h), rfl⟩
  · intro hq hf hu hr
    refine ⟨(s, canvas, []), ?_, rfl⟩
    unfold input_step
    rw [if_neg hq, if_neg (by simp [hf, hu, hr])]
  · intro r hstep
    by_cases hq : c = 'q'
    · unfold input_step at hstep
      rw [if_pos hq] at hstep
      simp only [Option.some.injEq, Except.ok.injEq] at hstep
      rw [← hstep]
      exact hp
    · by_cases hk : c = 'f' ∨ c = 'u' ∨ c = 'r'
      · cases hrec : reconfigure s c val outcomes with
        | none =>
          unfold input_step at hstep
          rw [if_neg hq, if_pos hk] at hstep
          simp only [hrec] at hstep
          cases hstep
        | some s1 =>
          rw [input_step_tunable s s1 canvas hc c val outcomes hq hk hrec] at hstep
          simp only [Option.some.injEq, Except.ok.injEq] at hstep
          rw [← hstep]
          exact reconfigure_paused s s1 c val outcomes hrec
      · unfold input_step at hstep
        rw [if_neg hq, if_neg hk] at hstep
        simp only [Option.some.injEq, Except.ok.injEq] at hstep
        rw [← hstep]
        exact hp

/-- Witness of C21: the key `f` in the state `main` initialises, with a line that is no
number and then the number 30: `frame_rate` becomes 30 and nothing else changes. -/
theorem keystroke_changes_named_witness :
    (ProgramState.init horizontal_blinker dead_grid).paused = false ∧ canvas_ba.WF ∧
    ∃ r, input_step (ProgramState.init horizontal_blinker dead_grid) canvas_ba 'f' 7
        [.parse_failure 0, .parsed 30] = some (.ok r) ∧
      r.1 = { ProgramState.init horizontal_blinker dead_grid with frame_rate := 30 } :=
  ⟨rfl, by decide,
    ((keystroke_changes_named (ProgramState.init horizontal_blinker dead_grid) rfl canvas_ba
      (by decide) 'f' 7 [.parse_failure 0, .parsed 30]).2.1
        [.parse_failure 0] 30 [] rfl (by decide) (by decide)).1 rfl⟩

/-- C27, the code at inputs where the claim fails. From the state `main` initialises, with
both rates 1, the step of the control loop for the key `f`, a line that is no number and
then the end of the input returns with `frame_rate` 0, the value the failed read stored:
the end of the input leaves the prompt loop, and the value of `val` is stored all the
same. For the key `u`, the number -3 and then the end of the input, it returns with
`sim_rate` -3. -/
theorem rates_not_positive_after_end_of_input :
    (ProgramState.init horizontal_blinker dead_grid).frame_rate = 1 ∧
    (ProgramState.init horizontal_blinker dead_grid).sim_rate = 1 ∧
    (∃ r, input_step (ProgramState.init horizontal_blinker dead_grid) canvas_ba 'f' 7
        [.parse_failure 0, .end_of_input] = some (.ok r) ∧
      r.1.frame_rate = 0 ∧ ¬ (0 < r.1.frame_rate)) ∧
    (∃ r, input_step (ProgramState.init horizontal_blinker dead_grid) canvas_ba 'u' 7
        [.parsed (-3), .end_of_input] = some (.ok r) ∧
      r.1.sim_rate = -3 ∧ ¬ (0 < r.1.sim_rate)) := by
  refine ⟨rfl, rfl, ⟨_, input_step_tunable _ _ canvas_ba (by decide) 'f' 7 _ (by decide)
    (Or.inl rfl) rfl, rfl, by decide⟩, ⟨_, input_step_tunable _ _ canvas_ba (by decide) 'u' 7 _
    (by decide) (Or.inr (Or.inl rfl)) rfl, rfl, by decide⟩⟩

/-- C28 as the code has it: the step of the control loop, for any byte and any prompt,
never ends in a fault on a canvas that holds its tiles, returns whenever the prompt does,
and leaves the pending tiles, the dimensions and the offsets of the canvas as they were.
For `q` and for every byte other than `f`, `u` and `r` it leaves the whole canvas as it
was and writes nothing. For `f`, `u` and `r` it hides the canvas and displays it again by
a full redraw: afterwards the last-emitted tiles are the pending ones and the full-redraw
flag is clear. -/
theorem keystroke_keeps_pending (s : ProgramState) (canvas : Canvas) (hc : canvas.WF)
    (c : Char) (val : Int) (outcomes : List ReadOutcome) :
    (∀ e, input_step s canvas c val outcomes ≠ some (.error e)) ∧
    (((c = 'f' ∨ c = 'u' ∨ c = 'r') → prompt_loop val outcomes ≠ none) →
      ∃ r, input_step s canvas c val outcomes = some (.ok r)) ∧
    ∀ r, input_step s canvas c val outcomes = some (.ok r) →
      r.2.1.tile_buffer = canvas.tile_buffer ∧
      r.2.1.width = canvas.width ∧ r.2.1.height = canvas.height ∧
      r.2.1.offset_x = canvas.offset_x ∧ r.2.1.offset_y = canvas.offset_y ∧
      (¬ (c = 'f' ∨ c = 'u' ∨ c = 'r') → r.2.1 = canvas ∧ r.2.2 = []) ∧
      ((c = 'f' ∨ c = 'u' ∨ c = 'r') →
        r.2.1.prev_buffer = canvas.tile_buffer ∧ r.2.1.should_full_display = false ∧
        r.2.2 = canvas.hide.2 ++ canvas.full_output) := by
  by_cases hq : c = 'q'
  · have hk : ¬ (c = 'f' ∨ c = 'u' ∨ c = 'r') := by rw [hq]; decide
    have hstep : input_step s canvas c val outcomes
        = some (.ok ({ s with running := false }, canvas, [])) := by
      unfold input_step
      rw [if_pos hq]
    rw [hstep]
    refine ⟨(fun e h => by cases h), fun _ => ⟨_, rfl⟩, ?_⟩
    intro r hr
    simp only [Option.some.injEq, Except.ok.injEq] at hr
    subst hr
    exact ⟨rfl, rfl, rfl, rfl, rfl, fun _ => ⟨rfl, rfl⟩, fun h => absurd h hk⟩
  · by_cases hk : c = 'f' ∨ c = 'u' ∨ c = 'r'
    · cases hrec : reconfigure s c val outcomes with
      | none =>
        have hloop : prompt_loop val outcomes = none := by
          unfold reconfigure at hrec
          cases hl : prompt_loop val outcomes with
          | none => rfl
          | some v => rw [hl] at hrec; cases hrec
        have hstep : input_step s canvas c val outcomes = none := by
          unfold input_step
          rw [if_neg hq, if_pos hk]
          simp only [hrec]
        rw [hstep]
        exact ⟨(fun e h => by cases h), fun h => absurd hloop (h hk), fun r h => by cases h⟩
      | some s1 =>
        rw [input_step_tunable s s1 canvas hc c val outcomes hq hk hrec]
        refine ⟨(fun e h => by cases h), fun _ => ⟨_, rfl⟩, ?_⟩
        intro r hr
        simp only [Option.some.injEq, Except.ok.injEq] at hr
        subst hr
        exact ⟨rfl, rfl, rfl, rfl, rfl, fun h => absurd hk h, fun _ => ⟨rfl, rfl, rfl⟩⟩
    · have hstep : input_step s canvas c val outcomes = some (.ok (s, canvas, [])) := by
        unfold input_step
        rw [if_neg hq, if_neg hk]
      rw [hstep]
      refine ⟨(fun e h => by cases h), fun _ => ⟨_, rfl⟩, ?_⟩
      intro r hr
      simp only [Option.some.injEq, Except.ok.injEq] at hr
      subst hr
      exact ⟨rfl, rfl, rfl, rfl, rfl, fun _ => ⟨rfl, rfl⟩, fun h => absurd h hk⟩

/-- Witness of C28 as amended: the key `r` and the number 30 with the painted canvas. -/
theorem keystroke_keeps_pending_witness :
    canvas_painted.WF ∧
    ∃ r, input_step (ProgramState.init live_cell live_cell) canvas_painted 'r' 7 [.parsed 30]
        = some (.ok r) ∧
      r.2.1.tile_buffer = canvas_painted.tile_buffer ∧
      r.2.1.prev_buffer = canvas_painted.tile_buffer ∧
      r.2.1.should_full_display = false :=
  ⟨by decide,
    ((keystroke_keeps_pending (ProgramState.init live_cell live_cell) canvas_painted
      (by decide) 'r' 7 [.parsed 30]).2.1 (fun _ => by decide)).elim
      (fun r hr => ⟨r, hr,
        ((keystroke_keeps_pending (ProgramState.init live_cell live_cell) canvas_painted
          (by decide) 'r' 7 [.parsed 30]).2.2 r hr).1,
        (((keystroke_keeps_pending (ProgramState.init live_cell live_cell) canvas_painted
          (by decide) 'r' 7 [.parsed 30]).2.2 r hr).2.2.2.2.2.2 (by decide)).1,
        (((keystroke_keeps_pending (ProgramState.init live_cell live_cell) canvas_painted
          (by decide) 'r' 7 [.parsed 30]).2.2 r hr).2.2.2.2.2.2 (by decide)).2.1⟩)⟩

/-- C28 as stated fails: with the canvas as the painting pass of the render loop leaves it
for a grid of one live cell, whose last-emitted tiles are the two black blanks of the
constructor, the step of the control loop for the key `f` and the
number 30 returns with the two white blanks as last-emitted tiles. -/
theorem keystroke_changes_last_emitted :
    draw_paint (ProgramState.init live_cell live_cell) (main_canvas live_cell)
      = .ok (ProgramState.init live_cell live_cell, canvas_painted) ∧
    canvas_painted.WF ∧
    canvas_painted.prev_buffer = [Tile.blank, Tile.blank] ∧
    ∃ r, input_step (ProgramState.init live_cell live_cell) canvas_painted 'f' 7 [.parsed 30]
        = some (.ok r) ∧
      r.2.1.prev_buffer = [Tile.of_color ⟨255, 255, 255⟩, Tile.of_color ⟨255, 255, 255⟩] ∧
      r.2.1.prev_buffer ≠ canvas_painted.prev_buffer := by
  refine ⟨rfl, by decide, rfl, _, input_step_tunable _ _ canvas_painted (by decide) 'f' 7 _
    (by decide) (Or.inl rfl) rfl, rfl, by decide⟩

/-! ## The painting pass of the render loop -/

theorem canvas_index_inj (W x y x1 y1 : Nat) (hx : x < W) (hx1 : x1 < W) :
    y1 * W + x1 = y * W + x ↔ x1 = x ∧ y1 = y := by
  constructor
  · intro h
    have hm : (y1 * W + x1) % W = (y * W + x) % W := by rw [h]
    have hd : (y1 * W + x1) / W = (y * W + x) / W := by rw [h]
    have hW : 0 < W := by omega
    rw [Nat.mul_comm y1 W, Nat.mul_comm y W, Nat.mul_add_mod, Nat.mul_add_mod,
      Nat.mod_eq_of_lt hx1, Nat.mod_eq_of_lt hx] at hm
    rw [Nat.mul_comm y1 W, Nat.mul_comm y W, Nat.mul_add_div hW, Nat.mul_add_div hW,
      Nat.div_eq_of_lt hx1, Nat.div_eq_of_lt hx] at hd
    exact ⟨hm, by omega⟩
  · rintro ⟨rfl, rfl⟩
    rfl

/-- An assignment through `canvas(x, y)` inside the canvas returns, and changes the pending
tile of `(x, y)` only. -/
theorem Canvas.assign_spec (c : Canvas) (hc : c.WF) (x y : Nat) (hx : x < c.width)
    (hy : y < c.height) (t : Tile) :
    ∃ c', c.assign x y t = .ok c' ∧ c'.WF ∧ c'.width = c.width ∧ c'.height = c.height ∧
      c'.offset_x = c.offset_x ∧ c'.offset_y = c.offset_y ∧ c'.prev_buffer = c.prev_buffer ∧
      c'.should_full_display = c.should_full_display ∧
      ∀ x1 y1, x1 < c.width →
        c'.pending x1 y1 = if x1 = x ∧ y1 = y then t else c.pending x1 y1 := by
  have hlt : y * c.width + x < c.tile_buffer.length := by
    rw [hc.2]; exact canvas_index_lt _ _ _ _ hx hy
  have hcell : c.cell x y = .ok (y * c.width + x) := by
    unfold Canvas.cell
    rw [if_neg (by omega)]
  refine ⟨{ c with tile_buffer := c.tile_buffer.set (y * c.width + x) t }, ?_, ?_, rfl, rfl,
    rfl, rfl, rfl, rfl, ?_⟩
  · unfold Canvas.assign
    rw [hcell]
    simp only [tile_write_ok _ _ t hlt]
  · exact ⟨hc.1, by simp only [List.length_set]; exact hc.2⟩
  · intro x1 y1 hx1
    unfold Canvas.pending
    simp only
    rw [List.getD_eq_getElem?_getD, List.getD_eq_getElem?_getD, List.getElem?_set]
    by_cases h : x1 = x ∧ y1 = y
    · obtain ⟨rfl, rfl⟩ := h
      simp [hlt]
    · have hne : ¬ (y * c.width + x = y1 * c.width + x1) := by
        intro h'
        exact h ((canvas_index_inj c.width x y x1 y1 hx hx1).1 h'.symm)
      rw [if_neg hne, if_neg h]

theorem Canvas.get_spec (c : Canvas) (hc : c.WF) (x y : Nat) (hx : x < c.width)
    (hy : y < c.height) : c.get x y = .ok (c.pending x y) := by
  unfold Canvas.get Canvas.cell
  rw [if_neg (by omega)]
  exact c.read_pending hc x y hx hy

/-- The body of the inner loop of `draw` for a cell inside the grid, on a canvas of twice
the width: it returns, and the two pending tiles of the cell are its tile afterwards. -/
theorem draw_cell_spec (g : Grid) (hg : g.WF) (c : Canvas) (hc : c.WF) (y x : Nat)
    (hxg : (x : Int) < g.width) (hyg : (y : Int) < g.height)
    (hx : 2 * x + 1 < c.width) (hy : y < c.height) :
    ∃ c', draw_cell g c y x = .ok c' ∧
      c.repainted c' (fun x1 y1 =>
        if (x1 = 2 * x ∨ x1 = 2 * x + 1) ∧ y1 = y then cell_tile g x y else c.pending x1 y1) := by
  obtain ⟨b, hb⟩ := g.get_tile_some hg x y ⟨by omega, hxg, by omega, hyg⟩
  have htile : cell_tile g x y
      = Tile.of_color (if b = true then ⟨255, 255, 255⟩ else ⟨0, 0, 0⟩) := by
    unfold cell_tile
    rw [hb]
    cases b <;> rfl
  obtain ⟨c1, h1, hwf1, hw1, hh1, hox1, hoy1, hp1, hf1, hpend1⟩ :=
    c.assign_spec hc (x * 2) y (by omega) hy (cell_tile g x y)
  obtain ⟨c2, h2, hwf2, hw2, hh2, hox2, hoy2, hp2, hf2, hpend2⟩ :=
    c1.assign_spec hwf1 (x * 2 + 1) y (by omega) (by omega) (cell_tile g x y)
  have hget : c1.get (x * 2) y = .ok (cell_tile g x y) := by
    rw [c1.get_spec hwf1 (x * 2) y (by omega) (by omega), hpend1 _ _ (by omega)]
    simp
  refine ⟨c2, ?_, hwf2, by omega, by omega, by omega, by omega, by rw [hp2, hp1],
    by rw [hf2, hf1], ?_⟩
  · unfold draw_cell
    rw [hb]
    simp only
    rw [← htile, h1]
    simp only
    rw [hget]
    simp only
    exact h2
  · intro x1 y1 hx1
    rw [hpend2 x1 y1 (by omega), hpend1 x1 y1 hx1]
    beta_reduce
    by_cases h : (x1 = 2 * x ∨ x1 = 2 * x + 1) ∧ y1 = y
    · rw [if_pos h]
      obtain ⟨h1 | h1, h2⟩ := h
      · rw [if_neg (fun h' => by omega), if_pos ⟨by omega, h2⟩]
      · rw [if_pos ⟨by omega, h2⟩]
    · rw [if_neg h, if_neg (fun h' => h ⟨Or.inr (by omega), h'.2⟩),
        if_neg (fun h' => h ⟨Or.inl (by omega), h'.2⟩)]

/-- The inner loop of `draw` for a row inside the grid paints the row. -/
theorem draw_row_spec (g : Grid) (hg : g.WF) (c0 c : Canvas) (Wg y : Nat)
    (hWg : (Wg : Int) = g.width) (hyg : (y : Int) < g.height)
    (hw : c0.width = 2 * Wg) (hy : y < c0.height)
    (hinv : c0.repainted c (painted g c0 y 0)) :
    ∃ c', (List.range Wg).foldlM (fun canvas x => draw_cell g canvas y x) c = .ok c' ∧
      c0.repainted c' (painted g c0 (y + 1) 0) := by
  obtain ⟨c', hfold, hP⟩ := foldlM_except_inv (fun canvas x => draw_cell g canvas y x)
    (List.range Wg) (fun j c1 => c0.repainted c1 (painted g c0 y j)) c hinv (by
      intro j hj s hs
      have hjW : j < Wg := by simpa using hj
      rw [List.getElem_range]
      obtain ⟨hwf, hsw, hsh, hsox, hsoy, hsp, hsf, hspend⟩ := hs
      obtain ⟨c2, hc2, hwf2, hw2, hh2, hox2, hoy2, hp2, hf2, hpend2⟩ :=
        draw_cell_spec g hg s hwf y j (by omega) hyg (by omega) (by omega)
      refine ⟨c2, hc2, hwf2, by omega, by omega, by omega, by omega, by rw [hp2, hsp],
        by rw [hf2, hsf], ?_⟩
      intro x1 y1 hx1
      rw [hpend2 x1 y1 (by omega)]
      beta_reduce
      rw [hspend x1 y1 hx1]
      unfold painted
      by_cases h : (x1 = 2 * j ∨ x1 = 2 * j + 1) ∧ y1 = y
      · have hdiv : x1 / 2 = j := by omega
        rw [if_pos h, if_pos (Or.inr ⟨h.2, by omega⟩), hdiv, h.2]
      · rw [if_neg h]
        by_cases h1 : y1 < y ∨ (y1 = y ∧ x1 / 2 < j)
        · rw [if_pos h1, if_pos (by omega)]
        · rw [if_neg h1, if_neg (by omega)])
  refine ⟨c', hfold, ?_⟩
  rw [List.length_range] at hP
  obtain ⟨hwf, hsw, hsh, hsox, hsoy, hsp, hsf, hspend⟩ := hP
  refine ⟨hwf, hsw, hsh, hsox, hsoy, hsp, hsf, ?_⟩
  intro x1 y1 hx1
  rw [hspend x1 y1 hx1]
  unfold painted
  by_cases h1 : y1 < y ∨ (y1 = y ∧ x1 / 2 < Wg)
  · rw [if_pos h1, if_pos (by omega)]
  · rw [if_neg h1, if_neg (by omega)]

theorem to_size_t_eq (n : Int) (h0 : 0 ≤ n) (h1 : n < 2 ^ 64) : (to_size_t n : Int) = n := by
  unfold to_size_t
  rw [Int.emod_eq_of_lt h0 h1, Int.toNat_of_nonneg h0]

/-- The painting pass of `draw` over a grid, on a canvas of twice its width and of its
height: it returns, and every cell of the grid has its tile in its two columns. -/
theorem draw_paint_spec (s : ProgramState) (hg : (s.deref s.prev).WF) (canvas : Canvas)
    (hc : canvas.WF) (hW : (s.deref s.prev).width < 2 ^ 31)
    (hH : (s.deref s.prev).height < 2 ^ 31)
    (hw : (canvas.width : Int) = 2 * (s.deref s.prev).width)
    (hh : (canvas.height : Int) = (s.deref s.prev).height) :
    ∃ canvas1, draw_paint s canvas = .ok (s, canvas1) ∧
      canvas.repainted canvas1 (fun x1 y1 =>
        if y1 < canvas.height then cell_tile (s.deref s.prev) (x1 / 2) y1
        else canvas.pending x1 y1) := by
  have hWn := to_size_t_eq (s.deref s.prev).width hg.1 (by omega)
  have hHn := to_size_t_eq (s.deref s.prev).height hg.2.1 (by omega)
  obtain ⟨c', hfold, hP⟩ := foldlM_except_inv
    (fun canvas y =>
      (List.range (to_size_t (s.deref s.prev).get_width)).foldlM
        (fun canvas x => draw_cell (s.deref s.prev) canvas y x) canvas)
    (List.range (to_size_t (s.deref s.prev).get_height))
    (fun y c1 => canvas.repainted c1 (painted (s.deref s.prev) canvas y 0)) canvas
    (by
      refine ⟨hc, rfl, rfl, rfl, rfl, rfl, rfl, ?_⟩
      intro x1 y1 _
      unfold painted
      rw [if_neg (by omega)])
    (by
      intro y hy c1 hc1
      have hyH : y < to_size_t (s.deref s.prev).height := by simpa using hy
      rw [List.getElem_range]
      exact draw_row_spec (s.deref s.prev) hg canvas c1 _ y hWn (by omega)
        (by unfold Grid.get_width; omega) (by omega) hc1)
  refine ⟨c', ?_, ?_⟩
  · unfold draw_paint
    simp only [hfold]
  · rw [List.length_range] at hP
    obtain ⟨hwf, hsw, hsh, hsox, hsoy, hsp, hsf, hspend⟩ := hP
    refine ⟨hwf, hsw, hsh, hsox, hsoy, hsp, hsf, ?_⟩
    intro x1 y1 hx1
    rw [hspend x1 y1 hx1]
    unfold painted
    have hheq : to_size_t (s.deref s.prev).get_height = canvas.height := by
      unfold Grid.get_height
      omega
    rw [hheq]
    beta_reduce
    by_cases h1 : y1 < canvas.height
    · rw [if_pos h1, if_pos (Or.inl h1)]
    · rw [if_neg h1, if_neg (by omega)]

/-- The canvas `main` constructs holds its tiles and has twice the width of the grid and
its height. -/
theorem main_canvas_spec (g : Grid) (hg : g.WF) (hW : g.width < 2 ^ 30) (hH : g.height < 2 ^ 31) :
    (main_canvas g).WF ∧ ((main_canvas g).width : Int) = 2 * g.width ∧
      ((main_canvas g).height : Int) = g.height := by
  refine ⟨⟨by simp [main_canvas, Canvas.new], by simp [main_canvas, Canvas.new]⟩, ?_, ?_⟩
  · show (to_size_t (g.width * 2) : Int) = 2 * g.width
    rw [to_size_t_eq _ (by have := hg.1; omega) (by omega)]
    omega
  · show (to_size_t g.height : Int) = g.height
    exact to_size_t_eq _ hg.2.1 (by omega)

/-- C22: the render loop paints two terminal columns for each column of the grid. For a
grid as the constructors leave it, of width `W` and height `H`, and a canvas that holds
its tiles, of width `2*W` and height `H`, as `main` constructs it, the painting pass
returns without an error and leaves the shared state, the grid in it, as it was.
Afterwards, for every cell `(x, y)` inside the grid, the pending tiles at `(2x, y)` and
`(2x+1, y)` are the same tile, a blank whose background is (255,255,255) if the cell is
alive and (0,0,0) if it is dead. The pass changes nothing of the canvas but pending
tiles. -/
theorem draw_paints_two_columns (s : ProgramState) (hg : (s.deref s.prev).WF)
    (canvas : Canvas) (hc : canvas.WF) (hW : (s.deref s.prev).width < 2 ^ 31)
    (hH : (s.deref s.prev).height < 2 ^ 31)
    (hw : (canvas.width : Int) = 2 * (s.deref s.prev).width)
    (hh : (canvas.height : Int) = (s.deref s.prev).height) :
    ∃ canvas1, draw_paint s canvas = .ok (s, canvas1) ∧
      (∀ x y : Nat, (s.deref s.prev).in_bounds x y →
        canvas1.pending (2 * x) y = canvas1.pending (2 * x + 1) y ∧
        (canvas1.pending (2 * x) y).symbol = [' '] ∧
        (canvas1.pending (2 * x) y).back_color
          = (if (s.deref s.prev).get_tile x y = some true then ⟨255, 255, 255⟩
            else ⟨0, 0, 0⟩) ∧
        ((s.deref s.prev).get_tile x y = some true ∨
          (s.deref s.prev).get_tile x y = some false) ∧
        canvas1.get (2 * x) y = .ok (canvas1.pending (2 * x) y) ∧
        canvas1.get (2 * x + 1) y = .ok (canvas1.pending (2 * x + 1) y)) ∧
      canvas1.WF ∧ canvas1.width = canvas.width ∧ canvas1.height = canvas.height ∧
      canvas1.offset_x = canvas.offset_x ∧ canvas1.offset_y = canvas.offset_y ∧
      canvas1.prev_buffer = canvas.prev_buffer ∧
      canvas1.should_full_display = canvas.should_full_display ∧
      ((s.deref s.prev).width < 2 ^ 30 →
        (main_canvas (s.deref s.prev)).WF ∧
        ((main_canvas (s.deref s.prev)).width : Int) = 2 * (s.deref s.prev).width ∧
        ((main_canvas (s.deref s.prev)).height : Int) = (s.deref s.prev).height) := by
  obtain ⟨canvas1, hpaint, hwf, hsw, hsh, hsox, hsoy, hsp, hsf, hpend⟩ :=
    draw_paint_spec s hg canvas hc hW hH hw hh
  refine ⟨canvas1, hpaint, ?_, hwf, hsw, hsh, hsox, hsoy, hsp, hsf,
    fun h30 => main_canvas_spec _ hg h30 hH⟩
  intro x y hb
  obtain ⟨hx0, hxW, hy0, hyH⟩ := hb
  have hx1 : 2 * x + 1 < canvas.width := by omega
  have hy1 : y < canvas.height := by omega
  have h0 : canvas1.pending (2 * x) y = cell_tile (s.deref s.prev) x y := by
    rw [hpend (2 * x) y (by omega)]
    beta_reduce
    rw [if_pos hy1, Nat.mul_div_cancel_left x (by decide)]
  have h1 : canvas1.pending (2 * x + 1) y = cell_tile (s.deref s.prev) x y := by
    rw [hpend (2 * x + 1) y hx1]
    beta_reduce
    have hdiv : (2 * x + 1) / 2 = x := by omega
    rw [if_pos hy1, hdiv]
  obtain ⟨b, hbv⟩ := (s.deref s.prev).get_tile_some hg x y ⟨hx0, hxW, hy0, hyH⟩
  refine ⟨by rw [h0, h1], by rw [h0]; rfl, by rw [h0]; rfl, ?_,
    canvas1.get_spec hwf _ _ (by omega) (by omega),
    canvas1.get_spec hwf _ _ (by omega) (by omega)⟩
  rw [hbv]
  cases b <;> simp

/-- Witness of C22: the grid of one live cell and the canvas `main` constructs for it;
the painting pass leaves the two blanks on white pending. -/
theorem draw_paints_two_columns_witness :
    (ProgramState.deref (ProgramState.init live_cell live_cell) .grid_a).WF ∧
    (main_canvas live_cell).WF ∧
    ∃ canvas1, draw_paint (ProgramState.init live_cell live_cell) (main_canvas live_cell)
        = .ok (ProgramState.init live_cell live_cell, canvas1) ∧
      canvas1.pending (2 * 0) 0 = canvas1.pending (2 * 0 + 1) 0 ∧
      (canvas1.pending (2 * 0) 0).symbol = [' '] ∧
      (canvas1.pending (2 * 0) 0).back_color = ⟨255, 255, 255⟩ :=
  ⟨by decide, by decide,
    (draw_paints_two_columns (ProgramState.init live_cell live_cell) (by decide)
      (main_canvas live_cell) (by decide) (by decide) (by decide) (by decide)
      (by decide)).elim
      (fun canvas1 h => ⟨canvas1, h.1, (h.2.1 0 0 (by decide)).1, (h.2.1 0 0 (by decide)).2.1,
        (h.2.1 0 0 (by decide)).2.2.1⟩)⟩

/-! ## The threads -/

theorem ProgramState.update_cell_store (s s1 : ProgramState) (x y : Int)
    (h : s.update_cell x y = some s1) : ∃ g, s1 = s.store s.next g := by
  unfold ProgramState.update_cell at h
  cases hg : (s.deref s.next).update_tile (s.deref s.prev) x y s.rule with
  | none => rw [hg] at h; cases h
  | some g =>
    rw [hg] at h
    simp only [Option.some.injEq] at h
    exact ⟨g, h.symm⟩

theorem ProgramState.store_pointers (s : ProgramState) (p : GridPtr) (g : Grid) :
    (s.store p g).prev = s.prev ∧ (s.store p g).next = s.next := by
  cases p <;> exact ⟨rfl, rfl⟩

/-- Every step of the machine keeps what holds of it at every moment. -/
theorem Machine.step_inv (m m1 : Machine) (e : Event) (hinv : m.Inv)
    (h : m.step e = some m1) : m1.Inv := by
  obtain ⟨hd, hu, hne⟩ := hinv
  cases e with
  | draw_lock =>
    simp only [Machine.step] at h
    split_ifs at h with hc
    simp only [Option.some.injEq] at h
    subst h
    refine ⟨⟨fun _ => ⟨_, rfl⟩, fun _ => rfl⟩, ?_, hne⟩
    simp only
    rw [← hu, hc.2.2]
    simp
  | draw_cell =>
    simp only [Machine.step] at h
    cases hp : m.draw with
    | top => rw [hp] at h; cases h
    | display => rw [hp] at h; cases h
    | painting cells =>
      rw [hp] at h
      cases cells with
      | nil => cases h
      | cons p rest =>
        obtain ⟨x, y⟩ := p
        simp only at h
        split at h
        · simp only [Option.some.injEq] at h
          subst h
          exact ⟨⟨fun _ => ⟨_, rfl⟩, fun _ => hd.2 ⟨_, hp⟩⟩, hu, hne⟩
        · cases h
  | draw_unlock =>
    simp only [Machine.step] at h
    split_ifs at h with hc
    simp only [Option.some.injEq] at h
    subst h
    refine ⟨⟨(fun h => by cases h), (fun ⟨_, h⟩ => by cases h)⟩, ?_, hne⟩
    simp only
    rw [← hu, hc.2]
    simp
  | draw_display =>
    simp only [Machine.step] at h
    split_ifs at h with hc
    split at h
    · simp only [Option.some.injEq] at h
      subst h
      refine ⟨⟨fun h => ?_, (fun ⟨_, h⟩ => by cases h)⟩, hu, hne⟩
      obtain ⟨cells, hcells⟩ := hd.1 h
      rw [hc] at hcells
      cases hcells
    · cases h
  | update_lock =>
    simp only [Machine.step] at h
    split_ifs at h with hc
    simp only [Option.some.injEq] at h
    subst h
    refine ⟨?_, ⟨fun _ => Or.inl rfl, fun _ => rfl⟩, hne⟩
    simp only
    rw [← hd, hc.2.2]
    simp
  | update_wait =>
    simp only [Machine.step] at h
    split_ifs at h with hc
    simp only [Option.some.injEq] at h
    subst h
    refine ⟨?_, ⟨(fun h => by cases h), (fun h => by rcases h with h | h | h <;> cases h)⟩, hne⟩
    simp only
    rw [← hd, hc.2.2]
    simp
  | update_wake =>
    simp only [Machine.step] at h
    split_ifs at h with hc
    simp only [Option.some.injEq] at h
    subst h
    refine ⟨?_, ⟨fun _ => Or.inl rfl, fun _ => rfl⟩, hne⟩
    simp only
    rw [← hd, hc.2]
    simp
  | update_unlock =>
    simp only [Machine.step] at h
    split_ifs at h with hc
    simp only [Option.some.injEq] at h
    subst h
    refine ⟨?_, ⟨(fun h => by cases h), (fun h => by rcases h with h | h | h <;> cases h)⟩, hne⟩
    simp only
    rw [← hd, hc.2.2]
    simp
  | update_spawn =>
    simp only [Machine.step] at h
    split_ifs at h with hc
    simp only [Option.some.injEq] at h
    subst h
    refine ⟨hd, ⟨fun h => ?_, (fun h => by rcases h with h | h | h <;> cases h)⟩, hne⟩
    have := hu.1 h
    rw [hc] at this
    rcases this with h' | h' | h' <;> cases h'
  | row y =>
    simp only [Machine.step] at h
    cases hp : m.update with
    | rows tasks =>
      rw [hp] at h
      simp only at h
      cases hn : next_cell y tasks with
      | none => rw [hn] at h; cases h
      | some r =>
        obtain ⟨x, tasks1⟩ := r
        rw [hn] at h
        simp only at h
        cases hs : m.s.update_cell x y with
        | none => rw [hs] at h; cases h
        | some s1 =>
          rw [hs] at h
          simp only [Option.some.injEq] at h
          subst h
          obtain ⟨g, hg⟩ := m.s.update_cell_store s1 x y hs
          refine ⟨hd, ⟨fun h => ?_, (fun h => by rcases h with h | h | h <;> cases h)⟩, ?_⟩
          · have := hu.1 h
            rw [hp] at this
            rcases this with h' | h' | h' <;> cases h'
          · simp only
            rw [hg, (m.s.store_pointers _ g).1, (m.s.store_pointers _ g).2]
            exact hne
    | top => rw [hp] at h; cases h
    | testing => rw [hp] at h; cases h
    | blocked => rw [hp] at h; cases h
    | spawning => rw [hp] at h; cases h
    | joined => rw [hp] at h; cases h
    | swapping => rw [hp] at h; cases h
    | swapped => rw [hp] at h; cases h
    | sleeping => rw [hp] at h; cases h
  | update_join =>
    simp only [Machine.step] at h
    cases hp : m.update with
    | rows tasks =>
      rw [hp] at h
      simp only at h
      split_ifs at h
      simp only [Option.some.injEq] at h
      subst h
      refine ⟨hd, ⟨fun h => ?_, (fun h => by rcases h with h | h | h <;> cases h)⟩, hne⟩
      have := hu.1 h
      rw [hp] at this
      rcases this with h' | h' | h' <;> cases h'
    | top => rw [hp] at h; cases h
    | testing => rw [hp] at h; cases h
    | blocked => rw [hp] at h; cases h
    | spawning => rw [hp] at h; cases h
    | joined => rw [hp] at h; cases h
    | swapping => rw [hp] at h; cases h
    | swapped => rw [hp] at h; cases h
    | sleeping => rw [hp] at h; cases h
  | swap_lock =>
    simp only [Machine.step] at h
    split_ifs at h with hc
    simp only [Option.some.injEq] at h
    subst h
    refine ⟨?_, ⟨fun _ => Or.inr (Or.inl rfl), fun _ => rfl⟩, hne⟩
    simp only
    rw [← hd, hc.2]
    simp
  | swap =>
    simp only [Machine.step] at h
    split_ifs at h with hc
    simp only [Option.some.injEq] at h
    subst h
    exact ⟨hd, ⟨fun _ => Or.inr (Or.inr rfl), fun _ => hc.2⟩, fun h' => hne h'.symm⟩
  | swap_unlock =>
    simp only [Machine.step] at h
    split_ifs at h with hc
    simp only [Option.some.injEq] at h
    subst h
    refine ⟨?_, ⟨(fun h => by cases h), (fun h => by rcases h with h | h | h <;> cases h)⟩, hne⟩
    simp only
    rw [← hd, hc.2]
    simp
  | update_sleep =>
    simp only [Machine.step] at h
    split_ifs at h with hc
    simp only [Option.some.injEq] at h
    subst h
    refine ⟨hd, ⟨fun h => ?_, (fun h => by rcases h with h | h | h <;> cases h)⟩, hne⟩
    have := hu.1 h
    rw [hc] at this
    rcases this with h' | h' | h' <;> cases h'
  | input_write rule frame_rate sim_rate running paused =>
    simp only [Machine.step] at h
    split_ifs at h with hc
    simp only [Option.some.injEq] at h
    subst h
    exact ⟨hd, hu, hne⟩
  | input_hide =>
    simp only [Machine.step, Option.some.injEq] at h
    subst h
    exact ⟨hd, hu, hne⟩
  | input_display =>
    simp only [Machine.step] at h
    split at h
    · simp only [Option.some.injEq] at h
      subst h
      exact ⟨hd, hu, hne⟩
    · cases h

/-- A step that takes place while the thread of `draw` is inside its block, other than
its leaving the block: the thread still holds the lock afterwards; the step is not the swap
and takes no lock; the pointers `prev` and `next` and the grid `prev` points to are what
they were; and the step of a row thread writes the grid `next` points to. -/
theorem Machine.step_painting (m m1 : Machine) (e : Event) (hinv : m.Inv)
    (hlock : m.mutex = some .draw) (h : m.step e = some m1) (he : e ≠ .draw_unlock) :
    m1.mutex = some .draw ∧ e ≠ .swap ∧
      m1.s.prev = m.s.prev ∧ m1.s.next = m.s.next ∧
      m1.s.deref m1.s.prev = m.s.deref m.s.prev ∧
      (∀ y, e = .row y → ∃ g, m1.s = m.s.store m.s.next g) := by
  obtain ⟨hd, hu, hne⟩ := hinv
  have hnone : m.mutex ≠ none := by rw [hlock]; exact fun h' => by cases h'
  have hnu : m.mutex ≠ some .update := by rw [hlock]; exact fun h' => by cases h'
  cases e with
  | draw_lock =>
    simp only [Machine.step] at h
    split_ifs at h with hc
    exact absurd hc.2.2 hnone
  | draw_cell =>
    simp only [Machine.step] at h
    cases hp : m.draw with
    | top => rw [hp] at h; cases h
    | display => rw [hp] at h; cases h
    | painting cells =>
      rw [hp] at h
      cases cells with
      | nil => cases h
      | cons p rest =>
        obtain ⟨x, y⟩ := p
        simp only at h
        split at h
        · simp only [Option.some.injEq] at h
          subst h
          exact ⟨hlock, (fun h' => by cases h'), rfl, rfl, rfl, (fun y h' => by cases h')⟩
        · cases h
  | draw_unlock => exact absurd rfl he
  | draw_display =>
    simp only [Machine.step] at h
    split_ifs at h with hc
    split at h
    · simp only [Option.some.injEq] at h
      subst h
      exact ⟨hlock, (fun h' => by cases h'), rfl, rfl, rfl, (fun y h' => by cases h')⟩
    · cases h
  | update_lock =>
    simp only [Machine.step] at h
    split_ifs at h with hc
    exact absurd hc.2.2 hnone
  | update_wait =>
    simp only [Machine.step] at h
    split_ifs at h with hc
    exact absurd hc.2.2 hnu
  | update_wake =>
    simp only [Machine.step] at h
    split_ifs at h with hc
    exact absurd hc.2 hnone
  | update_unlock =>
    simp only [Machine.step] at h
    split_ifs at h with hc
    exact absurd hc.2.2 hnu
  | update_spawn =>
    simp only [Machine.step] at h
    split_ifs at h with hc
    simp only [Option.some.injEq] at h
    subst h
    exact ⟨hlock, (fun h' => by cases h'), rfl, rfl, rfl, (fun y h' => by cases h')⟩
  | row y =>
    simp only [Machine.step] at h
    cases hp : m.update with
    | rows tasks =>
      rw [hp] at h
      simp only at h
      cases hn : next_cell y tasks with
      | none => rw [hn] at h; cases h
      | some r =>
        obtain ⟨x, tasks1⟩ := r
        rw [hn] at h
        simp only at h
        cases hs : m.s.update_cell x y with
        | none => rw [hs] at h; cases h
        | some s1 =>
          rw [hs] at h
          simp only [Option.some.injEq] at h
          subst h
          obtain ⟨g, hg⟩ := m.s.update_cell_store s1 x y hs
          refine ⟨hlock, (fun h' => by cases h'), ?_, ?_, ?_, fun _ _ => ⟨g, hg⟩⟩
          · simp only [hg, ProgramState.store_prev]
          · simp only [hg, ProgramState.store_next]
          · simp only [hg, ProgramState.store_prev]
            exact m.s.deref_store_ne _ _ g hne
    | top => rw [hp] at h; cases h
    | testing => rw [hp] at h; cases h
    | blocked => rw [hp] at h; cases h
    | spawning => rw [hp] at h; cases h
    | joined => rw [hp] at h; cases h
    | swapping => rw [hp] at h; cases h
    | swapped => rw [hp] at h; cases h
    | sleeping => rw [hp] at h; cases h
  | update_join =>
    simp only [Machine.step] at h
    cases hp : m.update with
    | rows tasks =>
      rw [hp] at h
      simp only at h
      split_ifs at h
      simp only [Option.some.injEq] at h
      subst h
      exact ⟨hlock, (fun h' => by cases h'), rfl, rfl, rfl, (fun y h' => by cases h')⟩
    | top => rw [hp] at h; cases h
    | testing => rw [hp] at h; cases h
    | blocked => rw [hp] at h; cases h
    | spawning => rw [hp] at h; cases h
    | joined => rw [hp] at h; cases h
    | swapping => rw [hp] at h; cases h
    | swapped => rw [hp] at h; cases h
    | sleeping => rw [hp] at h; cases h
  | swap_lock =>
    simp only [Machine.step] at h
    split_ifs at h with hc
    exact absurd hc.2 hnone
  | swap =>
    simp only [Machine.step] at h
    split_ifs at h with hc
    exact absurd hc.2 hnu
  | swap_unlock =>
    simp only [Machine.step] at h
    split_ifs at h with hc
    exact absurd hc.2 hnu
  | update_sleep =>
    simp only [Machine.step] at h
    split_ifs at h with hc
    simp only [Option.some.injEq] at h
    subst h
    exact ⟨hlock, (fun h' => by cases h'), rfl, rfl, rfl, (fun y h' => by cases h')⟩
  | input_write rule frame_rate sim_rate running paused =>
    simp only [Machine.step] at h
    split_ifs at h with hc
    exact absurd hc hnone
  | input_hide =>
    simp only [Machine.step, Option.some.injEq] at h
    subst h
    exact ⟨hlock, (fun h' => by cases h'), rfl, rfl, rfl, (fun y h' => by cases h')⟩
  | input_display =>
    simp only [Machine.step] at h
    split at h
    · simp only [Option.some.injEq] at h
      subst h
      exact ⟨hlock, (fun h' => by cases h'), rfl, rfl, rfl, (fun y h' => by cases h')⟩
    · cases h

theorem Machine.run_empty (m : Machine) : m.run [] = some m := rfl

theorem Machine.run_event (m : Machine) (e : Event) (events : List Event) :
    m.run (e :: events) = (m.step e).bind (fun m1 => m1.run events) := by
  unfold Machine.run
  rw [List.foldlM_cons]
  rfl

theorem Machine.run_concat (m : Machine) (a b : List Event) :
    m.run (a ++ b) = (m.run a).bind (fun m1 => m1.run b) := by
  unfold Machine.run
  rw [List.foldlM_append]
  rfl

/-- An interleaving keeps what holds of the machine at every moment. -/
theorem Machine.run_inv (events : List Event) :
    ∀ (m m1 : Machine), m.Inv → m.run events = some m1 → m1.Inv := by
  induction events with
  | nil =>
    intro m m1 hinv h
    rw [Machine.run_empty] at h
    cases h
    exact hinv
  | cons e rest ih =>
    intro m m1 hinv h
    rw [Machine.run_event] at h
    cases hs : m.step e with
    | none => rw [hs] at h; cases h
    | some m2 =>
      rw [hs] at h
      exact ih m2 m1 (m.step_inv m2 e hinv hs) h

theorem Machine.start_inv (s : ProgramState) (canvas : Canvas) (hne : s.prev ≠ s.next) :
    (Machine.start s canvas).Inv := by
  refine ⟨⟨(fun h => by cases h), (fun ⟨_, h⟩ => by cases h)⟩,
    ⟨(fun h => by cases h), (fun h => by rcases h with h | h | h <;> cases h)⟩, hne⟩

/-- The events that take place while the thread of `draw` is inside its block, up to its
leaving the block: the thread holds the lock throughout, the swap is not among the events,
the pointers and the grid `prev` points to stay what they are, and every step of a row
thread among them writes the grid `next` points to, another grid. -/
theorem Machine.run_painting (mid : List Event) :
    ∀ (m0 m : Machine), m0.Inv → m0.mutex = some .draw → m0.run mid = some m →
      Event.draw_unlock ∉ mid →
      m.mutex = some .draw ∧ Event.swap ∉ mid ∧
        m.s.prev = m0.s.prev ∧ m.s.next = m0.s.next ∧
        m.s.deref m.s.prev = m0.s.deref m0.s.prev ∧
        (∀ mid1 y mid2, mid = mid1 ++ Event.row y :: mid2 →
          ∃ ma mb g, m0.run mid1 = some ma ∧ ma.step (.row y) = some mb ∧
            mb.s = ma.s.store ma.s.next g ∧ ma.s.next = m0.s.next ∧
            ma.s.next ≠ m0.s.prev) := by
  induction mid with
  | nil =>
    intro m0 m hinv hlock h _
    rw [Machine.run_empty] at h
    cases h
    refine ⟨hlock, by simp, rfl, rfl, rfl, ?_⟩
    intro mid1 y mid2 h
    simp at h
  | cons e rest ih =>
    intro m0 m hinv hlock h hmid
    rw [Machine.run_event] at h
    cases hs : m0.step e with
    | none => rw [hs] at h; cases h
    | some m2 =>
      rw [hs] at h
      have he : e ≠ .draw_unlock := fun h' => hmid (by rw [h']; exact List.mem_cons_self _ _)
      have hrest : Event.draw_unlock ∉ rest := fun h' => hmid (List.mem_cons_of_mem _ h')
      obtain ⟨hl2, hsw, hp2, hn2, hg2, hrow⟩ := m0.step_painting m2 e hinv hlock hs he
      obtain ⟨hl, hswr, hp, hn, hg, hrows⟩ :=
        ih m2 m (m0.step_inv m2 e hinv hs) hl2 h hrest
      refine ⟨hl, ?_, by rw [hp, hp2], by rw [hn, hn2], by rw [hg, hg2], ?_⟩
      · intro hmem
        rcases List.mem_cons.1 hmem with h' | h'
        · exact hsw h'.symm
        · exact hswr h'
      · intro mid1 y mid2 hsplit
        cases mid1 with
        | nil =>
          simp only [List.nil_append, List.cons.injEq] at hsplit
          obtain ⟨g, hg'⟩ := hrow y hsplit.1
          refine ⟨m0, m2, g, rfl, ?_, hg', rfl, fun h' => hinv.2.2 h'.symm⟩
          rw [← hsplit.1]
          exact hs
        | cons e1 mid1' =>
          simp only [List.cons_append, List.cons.injEq] at hsplit
          obtain ⟨ma, mb, g, hma, hmb, hst, hnx, hnp⟩ := hrows mid1' y mid2 hsplit.2
          refine ⟨ma, mb, g, ?_, hmb, hst, by rw [hnx, hn2], by rw [← hp2]; exact hnp⟩
          rw [Machine.run_event, ← hsplit.1, hs]
          exact hma

theorem Machine.step_draw_lock (m m1 : Machine) (h : m.step .draw_lock = some m1) :
    m1.mutex = some .draw := by
  simp only [Machine.step] at h
  split_ifs at h
  simp only [Option.some.injEq] at h
  rw [← h]

theorem Machine.step_swap (m m1 : Machine) (h : m.step .swap = some m1) :
    m.mutex = some .update ∧ m.update = .swapping ∧ m1.s = m.s.swap := by
  simp only [Machine.step] at h
  split_ifs at h with hc
  simp only [Option.some.injEq] at h
  rw [← h]
  exact ⟨hc.2, hc.1, rfl⟩

theorem Machine.step_draw_cell (m m1 : Machine) (h : m.step .draw_cell = some m1) :
    (∃ cells, m.draw = .painting cells) ∧ m1.s = m.s := by
  simp only [Machine.step] at h
  cases hp : m.draw with
  | top => rw [hp] at h; cases h
  | display => rw [hp] at h; cases h
  | painting cells =>
    rw [hp] at h
    cases cells with
    | nil => cases h
    | cons p rest =>
      obtain ⟨x, y⟩ := p
      simp only at h
      split at h
      · simp only [Option.some.injEq] at h
        rw [← h]
        exact ⟨⟨_, rfl⟩, rfl⟩
      · cases h

theorem Machine.step_row (m m1 : Machine) (y : Int) (h : m.step (.row y) = some m1) :
    ∃ g, m1.s = m.s.store m.s.next g := by
  simp only [Machine.step] at h
  cases hp : m.update with
  | rows tasks =>
    rw [hp] at h
    simp only at h
    cases hn : next_cell y tasks with
    | none => rw [hn] at h; cases h
    | some r =>
      obtain ⟨x, tasks1⟩ := r
      rw [hn] at h
      simp only at h
      cases hs : m.s.update_cell x y with
      | none => rw [hs] at h; cases h
      | some s1 =>
        rw [hs] at h
        simp only [Option.some.injEq] at h
        rw [← h]
        exact m.s.update_cell_store s1 x y hs
  | top => rw [hp] at h; cases h
  | testing => rw [hp] at h; cases h
  | blocked => rw [hp] at h; cases h
  | spawning => rw [hp] at h; cases h
  | joined => rw [hp] at h; cases h
  | swapping => rw [hp] at h; cases h
  | swapped => rw [hp] at h; cases h
  | sleeping => rw [hp] at h; cases h

/-- C23: the render loop never observes a half-swapped generation. In the machine of the
threads, started with `prev` and `next` pointing to different grids, after any
interleaving: the thread of `draw` holds the lock exactly while it is inside its block,
the thread of `update` exactly while it is inside its first or last block. The swap takes
place only while `update` holds the lock, hence not while `draw` is inside its block, and a
read of `draw` only while `draw` holds it, hence not between the taking of the lock for
the swap and its release; a step of a row thread writes the grid `next` points to and
leaves the grid `prev` points to as it is. If the interleaving ends inside a block of
`draw`, after the event `draw_lock` and before the `draw_unlock` that follows it, no swap
is among the events since the lock was taken, the pointers and the grid `prev` points to
are what they were when it was taken, and every step of a row thread since then has
written the other grid. -/
theorem render_never_sees_half_swap (s : ProgramState) (canvas : Canvas)
    (hne : s.prev ≠ s.next) (events : List Event) (m : Machine)
    (hrun : (Machine.start s canvas).run events = some m) :
    m.Inv ∧
    (∀ m1, m.step .swap = some m1 →
      m.mutex = some .update ∧ ¬ (∃ cells, m.draw = .painting cells) ∧ m1.s = m.s.swap) ∧
    (∀ m1, m.step .draw_cell = some m1 →
      m.mutex = some .draw ∧ m.update ≠ .swapping ∧ m.update ≠ .swapped ∧ m1.s = m.s) ∧
    (∀ y m1, m.step (.row y) = some m1 →
      ∃ g, m1.s = m.s.store m.s.next g ∧ m1.s.prev = m.s.prev ∧
        m1.s.deref m1.s.prev = m.s.deref m.s.prev) ∧
    (∀ pre mid, events = pre ++ Event.draw_lock :: mid → Event.draw_unlock ∉ mid →
      ∃ m0, (Machine.start s canvas).run (pre ++ [Event.draw_lock]) = some m0 ∧
        m0.run mid = some m ∧ m0.mutex = some .draw ∧
        m.mutex = some .draw ∧ Event.swap ∉ mid ∧
        m.s.prev = m0.s.prev ∧ m.s.next = m0.s.next ∧
        m.s.deref m.s.prev = m0.s.deref m0.s.prev ∧
        (∀ mid1 y mid2, mid = mid1 ++ Event.row y :: mid2 →
          ∃ ma mb g, m0.run mid1 = some ma ∧ ma.step (.row y) = some mb ∧
            mb.s = ma.s.store ma.s.next g ∧ ma.s.next = m0.s.next ∧
            ma.s.next ≠ m0.s.prev)) := by
  have hstart := Machine.start_inv s canvas hne
  have hinv : m.Inv := Machine.run_inv events _ m hstart hrun
  refine ⟨hinv, ?_, ?_, ?_, ?_⟩
  · intro m1 h
    obtain ⟨hl, -, hs⟩ := m.step_swap m1 h
    refine ⟨hl, fun hp => ?_, hs⟩
    have := hinv.1.2 hp
    rw [hl] at this
    cases this
  · intro m1 h
    obtain ⟨hp, hs⟩ := m.step_draw_cell m1 h
    have hl := hinv.1.2 hp
    have hnu : ¬ (m.mutex = some .update) := by rw [hl]; exact fun h' => by cases h'
    exact ⟨hl, fun h' => hnu (hinv.2.1.2 (Or.inr (Or.inl h'))),
      fun h' => hnu (hinv.2.1.2 (Or.inr (Or.inr h'))), hs⟩
  · intro y m1 h
    obtain ⟨g, hg⟩ := m.step_row m1 y h
    refine ⟨g, hg, by rw [hg, ProgramState.store_prev], ?_⟩
    rw [hg, ProgramState.store_prev]
    exact m.s.deref_store_ne _ _ g hinv.2.2
  · intro pre mid hev hmid
    subst hev
    rw [Machine.run_concat] at hrun
    cases hpre : (Machine.start s canvas).run pre with
    | none => rw [hpre] at hrun; cases hrun
    | some mp =>
      rw [hpre] at hrun
      simp only [Option.some_bind] at hrun
      rw [Machine.run_event] at hrun
      cases hlock : mp.step .draw_lock with
      | none => rw [hlock] at hrun; cases hrun
      | some m0 =>
        rw [hlock] at hrun
        simp only [Option.some_bind] at hrun
        have hinvp : mp.Inv := Machine.run_inv pre _ mp hstart hpre
        have hinv0 : m0.Inv := mp.step_inv m0 _ hinvp hlock
        have hl0 := mp.step_draw_lock m0 hlock
        obtain ⟨hl, hsw, hp, hn, hg, hrows⟩ :=
          Machine.run_painting mid m0 m hinv0 hl0 hrun hmid
        refine ⟨m0, ?_, hrun, hl0, hl, hsw, hp, hn, hg, hrows⟩
        rw [Machine.run_concat, hpre]
        simp only [Option.some_bind]
        rw [Machine.run_event, hlock]
        rfl

/-- Witness of C23: an interleaving in which a row thread updates its cell while the thread
of `draw` is inside its block. -/
theorem render_never_sees_half_swap_witness :
    (ProgramState.init live_cell live_cell).prev ≠ (ProgramState.init live_cell live_cell).next ∧
    (Machine.start (ProgramState.init live_cell live_cell) (main_canvas live_cell)).run
      [.update_lock, .update_unlock, .update_spawn, .draw_lock, .row 0, .draw_cell]
      = some machine_painting ∧
    ∃ m0, (Machine.start (ProgramState.init live_cell live_cell) (main_canvas live_cell)).run
        ([.update_lock, .update_unlock, .update_spawn] ++ [Event.draw_lock]) = some m0 ∧
      m0.run [.row 0, .draw_cell] = some machine_painting ∧ m0.mutex = some .draw ∧
      machine_painting.mutex = some .draw ∧ Event.swap ∉ [Event.row 0, Event.draw_cell] ∧
      machine_painting.s.prev = m0.s.prev ∧ machine_painting.s.next = m0.s.next ∧
      machine_painting.s.deref machine_painting.s.prev = m0.s.deref m0.s.prev ∧
      (∀ mid1 y mid2, [Event.row 0, Event.draw_cell] = mid1 ++ Event.row y :: mid2 →
        ∃ ma mb g, m0.run mid1 = some ma ∧ ma.step (.row y) = some mb ∧
          mb.s = ma.s.store ma.s.next g ∧ ma.s.next = m0.s.next ∧
          ma.s.next ≠ m0.s.prev) :=
  ⟨by decide, rfl,
    (render_never_sees_half_swap (ProgramState.init live_cell live_cell)
      (main_canvas live_cell) (by decide)
      [.update_lock, .update_unlock, .update_spawn, .draw_lock, .row 0, .draw_cell]
      machine_painting rfl).2.2.2.2
      [.update_lock, .update_unlock, .update_spawn] [.row 0, .draw_cell] rfl (by decide)⟩

end Life
